import Mathlib

namespace Bolt

/-! ## Physical memory manager (`kern/pmm.rs`)

A `PhysRegion` node of the intrusive doubly-linked free list is modelled by its
`base`/`len` payload; the list itself, which the allocator keeps sorted by
`base`, is modelled as a Lean list in ascending order (head = lowest base,
matching `head`; last = `tail`).
-/

/-- `PAGE_SIZE` from `kern/vm.rs`. -/

def PAGE_SIZE : Nat := 0x1000

/-- The `base`/`len` payload of a `PhysRegion` free-list node (`kern/pmm.rs`).
`base` is a physical byte address, `len` a run length in frames. -/

structure PhysRegion where
  base : Nat
  len : Nat
deriving DecidableEq, Repr

namespace PhysRegion

/-- One-past-the-end byte address of a run. -/

def stop (r : PhysRegion) : Nat := r.base + PAGE_SIZE * r.len

end PhysRegion

/-- The pointer walk at the start of `LinkedListPmm::insert_region`: starting
from `tail`, step to `prev` while the node's `base` is `>=` the new base.  On
the ascending-list model this splits the list into the part strictly below
`base` (everything up to and including the node where the walk stops) and the
scanned suffix.  Returns `(left, right)` with `prev = left.getLast?` and
`next = right.head?`. -/

def splitRuns (runs : List PhysRegion) (base : Nat) :
    List PhysRegion × List PhysRegion :=
  let rev := runs.reverse
  ((rev.dropWhile fun r => decide (base ≤ r.base)).reverse,
   (rev.takeWhile fun r => decide (base ≤ r.base)).reverse)

/-- The second half of `insert_region` (`kern/pmm.rs` lines 100–137): the
`next`-coalescing check and the final link-in of the new node. -/

def insertRight (left right : List PhysRegion) (base len : Nat) :
    Option (List PhysRegion) :=
  match right.head? with
  | none => some (left ++ ⟨base, len⟩ :: right)
  | some nx =>
    if base + PAGE_SIZE * len ≤ nx.base then
      if base + PAGE_SIZE * len = nx.base then
        some (left ++ ⟨base, len + nx.len⟩ :: right.tail)
      else
        some (left ++ ⟨base, len⟩ :: right)
    else
      none

/-- `LinkedListPmm::insert_region` (`kern/pmm.rs` lines 74–137).  `none`
models the `assert!(..., "overlapping regions")` aborts.  Coalesces with the
`prev` neighbour when `prev_end == base` and with the `next` neighbour when
`new_end == next.base`, exactly as the source. -/

def insertRegion (runs : List PhysRegion) (base len : Nat) :
    Option (List PhysRegion) :=
  let left := (splitRuns runs base).1
  let right := (splitRuns runs base).2
  match left.getLast? with
  | none =>
    insertRight left right base len
  | some p =>
    if p.stop ≤ base then
      if p.stop = base then
        insertRight left.dropLast right p.base (len + p.len)
      else
        insertRight left right base len
    else
      none

/-- `free_frames` (`kern/pmm.rs` lines 164–166): inserts the freed run into
the global free list. -/

def freeFrames (runs : List PhysRegion) (base numFrames : Nat) :
    Option (List PhysRegion) :=
  insertRegion runs base numFrames

/-- The node walk of `alloc_frames` (`kern/pmm.rs` lines 142–162), expressed
on the tail-first (reversed) list: take the first node with `len ≥ n`,
shrink it by `n` frames (removing it when it becomes empty) and return
`base + PAGE_SIZE * (len - n)`. -/

def allocGo : List PhysRegion → Nat → Option (Nat × List PhysRegion)
  | [], _ => none
  | r :: rs, n =>
    if n ≤ r.len then
      some (r.base + PAGE_SIZE * (r.len - n),
        if r.len - n = 0 then rs else ⟨r.base, r.len - n⟩ :: rs)
    else
      match allocGo rs n with
      | some (a, rs') => some (a, r :: rs')
      | none => none

/-- `alloc_frames` (`kern/pmm.rs` lines 142–162): walk the free list from the
tail toward the head and carve `n` frames from the top of the first fitting
run. -/

def allocFrames (runs : List PhysRegion) (n : Nat) :
    Option (Nat × List PhysRegion) :=
  match allocGo runs.reverse n with
  | some (a, rev) => some (a, rev.reverse)
  | none => none

/-- Strict separation of two runs: `a` ends strictly below the base of `b`
(two exactly contiguous runs would have been coalesced at insertion). -/

def Separated (a b : PhysRegion) : Prop := a.stop < b.base

instance : ∀ a b : PhysRegion, Decidable (Separated a b) :=
  fun a b => inferInstanceAs (Decidable (a.stop < b.base))

/-- Well-formedness of a PMM free list: every run is non-empty and the runs
are pairwise strictly separated in list order (which also makes the list
strictly sorted by `base`). -/

def PmmWf (runs : List PhysRegion) : Prop :=
  (∀ r ∈ runs, 0 < r.len) ∧ runs.Pairwise Separated

instance (runs : List PhysRegion) : Decidable (PmmWf runs) := by
  unfold PmmWf; infer_instance

/-- A byte range `[base, base + PAGE_SIZE * len)` is disjoint from the run
`r`. -/

def DisjointRun (base len : Nat) (r : PhysRegion) : Prop :=
  base + PAGE_SIZE * len ≤ r.base ∨ r.stop ≤ base

instance (base len : Nat) (r : PhysRegion) : Decidable (DisjointRun base len r) := by
  unfold DisjointRun; infer_instance

/-- The `prev`-coalescing phase of `insert_region`: merge with the last run
below `base` when it is exactly contiguous.  Returns the remaining left part
and the (possibly extended) base and length of the run being inserted. -/

def leftPhase (A : List PhysRegion) (base len : Nat) :
    List PhysRegion × Nat × Nat :=
  match A.getLast? with
  | some p => if p.stop = base then (A.dropLast, p.base, len + p.len) else (A, base, len)
  | none => (A, base, len)

/-- The `next`-coalescing phase of `insert_region`: merge with the first run
above when it is exactly contiguous.  Returns the final length and the
remaining right part. -/

def rightPhase (B : List PhysRegion) (b1 l1 : Nat) : Nat × List PhysRegion :=
  match B.head? with
  | some nx =>
    if b1 + PAGE_SIZE * l1 = nx.base then (l1 + nx.len, B.tail)
    else (l1, B)
  | none => (l1, B)

/-- The value `insert_region` produces when the new range is disjoint from
every run: coalesce with the last run of the left part when exactly
contiguous, then with the first run of the right part when exactly
contiguous, and link the resulting node between them. -/

def insertionResult (A B : List PhysRegion) (base len : Nat) :
    List PhysRegion :=
  let s1 := leftPhase A base len
  let s2 := rightPhase B s1.2.1 s1.2.2
  s1.1 ++ ⟨s1.2.1, s2.1⟩ :: s2.2

/-- PMM states reachable from the empty allocator by `free_frames` calls with
page-aligned, positive, non-overlapping arguments and by `alloc_frames`
calls. -/

inductive Reachable : List PhysRegion → Prop where
  | empty : Reachable []
  | free {s s' : List PhysRegion} {b n : Nat} :
      Reachable s → b % PAGE_SIZE = 0 → 0 < n →
      (∀ r ∈ s, DisjointRun b n r) → freeFrames s b n = some s' → Reachable s'
  | alloc {s s' : List PhysRegion} {a n : Nat} :
      Reachable s → allocFrames s n = some (a, s') → Reachable s'

/-! ## Hardware address translation (`arch/x86_64/src/hat.rs`)

A `Pte` is a 64-bit word modelled as a `Nat`; `PteFlags` values are the bit
constants from the `bitflags!` block (hat.rs lines 478–495). -/

namespace PteFlags

def PRESENT : Nat := 1 <<< 0

def WRITE : Nat := 1 <<< 1

def USER : Nat := 1 <<< 2

def CACHE_WRITE_THROUGH : Nat := 1 <<< 3

def CACHE_DISABLE : Nat := 1 <<< 4

def ACCESSED : Nat := 1 <<< 5

def DIRTY : Nat := 1 <<< 6

def HUGE : Nat := 1 <<< 7

def GLOBAL : Nat := 1 <<< 8

def PAT_HUGE : Nat := 1 <<< 12

def NO_EXECUTE : Nat := 1 <<< 63

end PteFlags

/-- `PARENT_FLAGS` (hat.rs line 281): `USER | WRITE`. -/

def PARENT_FLAGS : Nat := PteFlags.USER ||| PteFlags.WRITE

namespace Pte

/-- `Pte::ADDR_MASK` (hat.rs line 510). -/

def ADDR_MASK : Nat := 0x000ffffffffff000

/-- `Pte::new` (hat.rs line 512): `addr | flags`. -/

def new (addr flags : Nat) : Nat := addr ||| flags

/-- `Pte::addr` (hat.rs line 516). -/

def addr (e : Nat) : Nat := e &&& ADDR_MASK

/-- `Pte::present` (hat.rs line 524): flags contain `PRESENT`. -/

def present (e : Nat) : Bool := e &&& PteFlags.PRESENT ≠ 0

/-- `Pte::huge` (hat.rs line 528): flags contain `HUGE`. -/

def huge (e : Nat) : Bool := e &&& PteFlags.HUGE ≠ 0

end Pte

/-- Modelled from the spec: the 4-bit protection value `Prot`
`{read, write, exec, user}` (its definition lives outside `src/`; only a
commented-out draft exists in `kern/vm.rs`).  The bit assignment follows the
per-index comments on `ProtMap::new` (hat.rs lines 440–455: index 1 = `--x`,
2 = `-w-`, 4 = `r--`) and the spec's "user bit is the high bit of the
index": exec = bit 0, write = bit 1, read = bit 2, user = bit 3. -/

structure Prot where
  exec : Bool
  write : Bool
  read : Bool
  user : Bool
deriving DecidableEq, Repr

/-- `Prot::bits`: the 4-bit index into the protection map. -/

def Prot.bits (p : Prot) : Nat :=
  (cond p.exec 1 0) + (cond p.write 2 0) + (cond p.read 4 0) + (cond p.user 8 0)

/-- `ProtMap::new` (hat.rs lines 438–457): the fixed 16-entry table, with the
supplied `nx_bit` OR-ed into every entry whose protection lacks exec. -/

def protMapNew (nx : Nat) : List Nat :=
  [ /- 0b0000 --- -/ nx,
    /- 0b0001 --x -/ 0,
    /- 0b0010 -w- -/ PteFlags.WRITE ||| nx,
    /- 0b0011 -wx -/ PteFlags.WRITE,
    /- 0b0100 r-- -/ nx,
    /- 0b0101 r-x -/ 0,
    /- 0b0110 rw- -/ PteFlags.WRITE ||| nx,
    /- 0b0111 rwx -/ PteFlags.WRITE,
    /- 0b1000 --- -/ nx ||| PteFlags.USER,
    /- 0b1001 --x -/ PteFlags.USER,
    /- 0b1010 -w- -/ PteFlags.WRITE ||| nx ||| PteFlags.USER,
    /- 0b1011 -wx -/ PteFlags.WRITE ||| PteFlags.USER,
    /- 0b1100 r-- -/ nx ||| PteFlags.USER,
    /- 0b1101 r-x -/ PteFlags.USER,
    /- 0b1110 rw- -/ PteFlags.WRITE ||| nx ||| PteFlags.USER,
    /- 0b1111 rwx -/ PteFlags.WRITE ||| PteFlags.USER ]

/-- `ProtMap`'s `Index<Prot>` impl (hat.rs lines 419–425): index the table by
`prot.bits()`. -/

def protMapGet (pm : List Nat) (p : Prot) : Nat := pm.getD p.bits 0

/-- `MmuInfo` (hat.rs lines 283–296).  The noncanonical hole is the range
`[hole_lo, hole_hi)`. -/

structure MmuInfo where
  nx_bit : Nat
  global_bit : Nat
  gigapages : Bool
  bits : Nat
  levels : Nat
  max_level : Nat
  protmap : List Nat
  hole_lo : Nat
  hole_hi : Nat
  pte_flags : List Nat
  page_size : List Nat
  pcide : Bool
  max_page_size : Nat
deriving Repr

/-- The static initializer of `MMU_INFO` (hat.rs lines 298–319): the 4-level
configuration with every probed feature still off.  `!0 << 47` on `usize` is
`2^64 - 2^47`; the unusable `page_size` entries are `!0 = 2^64 - 1`. -/

def initialMmuInfo : MmuInfo where
  nx_bit := 0
  global_bit := 0
  gigapages := false
  bits := 48
  levels := 4
  max_level := 3
  protmap := List.replicate 16 0
  hole_lo := 1 <<< 47
  hole_hi := 2 ^ 64 - 2 ^ 47
  pte_flags := [0, PteFlags.HUGE, PteFlags.HUGE, 0, 0]
  page_size := [2 ^ 12, 2 ^ 21, 2 ^ 30, 2 ^ 64 - 1, 2 ^ 64 - 1]
  pcide := false
  max_page_size := 1

/-- The CPU features consulted by `hat::init` (`CPU_FEATURES` probes). -/

structure CpuFeatures where
  page_size_1gb : Bool
  execute_disable : Bool
  pge : Bool
  pcid : Bool
deriving DecidableEq, Repr

/-- `hat::init` (hat.rs lines 345–415) as it updates `MMU_INFO`, in source
order: the protection map is assigned from the *current* `nx_bit` (line 348)
before the `EXECUTE_DISABLE` probe ORs `NO_EXECUTE` into `nx_bit`
(lines 357–360).  The `vm_five-level-paging` cfg block is modelled for the
default build (feature disabled).  CR4/EFER writes and the kernel top-level
PTE allocation do not affect `MMU_INFO` and are omitted here. -/

def mmuInit (f : CpuFeatures) : MmuInfo :=
  let m := { initialMmuInfo with
    protmap := protMapNew initialMmuInfo.nx_bit }
  let m := if f.page_size_1gb then
    { m with gigapages := true, max_page_size := 2 } else m
  let m := if f.execute_disable then
    { m with nx_bit := m.nx_bit ||| PteFlags.NO_EXECUTE } else m
  let m := if f.pge then { m with global_bit := PteFlags.GLOBAL } else m
  if f.pcid then { m with pcide := true } else m

/-- The unused `PROT_MAP` lazy static (hat.rs lines 469–476), which computes
the table from the probed `EXECUTE_DISABLE` feature. -/

def protMapLazy (f : CpuFeatures) : List Nat :=
  protMapNew (if f.execute_disable then PteFlags.NO_EXECUTE else 0)

/-! ## Trap layer (`arch/x86_64/src/trap.rs`, `kern/trap.rs`) -/

/-- `Exception` (`kern/trap.rs` lines 56–59, name field as used by
`dispatch`). -/

structure Exception where
  vector : Nat
  name : String
deriving DecidableEq, Repr

/-- The x86_64 `TrapFrame` (`arch/x86_64/src/trap.rs` lines 49–72); all
fields are 64-bit registers modelled as `Nat`. -/

structure TrapFrame where
  rdi : Nat := 0
  rsi : Nat := 0
  rdx : Nat := 0
  r10 : Nat := 0
  r8 : Nat := 0
  r9 : Nat := 0
  rax : Nat := 0
  rbx : Nat := 0
  rcx : Nat := 0
  rbp : Nat := 0
  r11 : Nat := 0
  r12 : Nat := 0
  r13 : Nat := 0
  r14 : Nat := 0
  r15 : Nat := 0
  info : Nat := 0
  error : Nat := 0
  rip : Nat := 0
  cs : Nat := 0
  rflags : Nat := 0
  rsp : Nat := 0
  ss : Nat := 0
deriving DecidableEq, Repr

/-- `TrapFrameApi::is_exception` for the x86_64 `TrapFrame`
(`arch/x86_64/src/trap.rs` lines 79–81): `(info & 0xff) < 32`. -/

def TrapFrame.is_exception (tf : TrapFrame) : Bool :=
  tf.info &&& 0xff < 32

/-- `TrapFrameApi::exception` for the x86_64 `TrapFrame`
(`arch/x86_64/src/trap.rs` lines 83–85): unconditionally `None` — no
exception-name table exists for x86_64. -/

def TrapFrame.exception (tf : TrapFrame) : Option Exception :=
  none

/-- How `dispatch` terminates for a trap frame it cannot route. -/

inductive DispatchOutcome where
  /-- `panic!("fatal exception: {}", excpt.name)` -/
  | fatalException (name : String)
  /-- the fall-through `todo!(msg)` panic -/
  | todoPanic (msg : String)
deriving DecidableEq, Repr

/-- `dispatch` (`kern/trap.rs` lines 71–79): consult `tf.exception()`; panic
with the exception's name when it yields one, otherwise hit the
`todo!("lmao")`. -/

def dispatch (tf : TrapFrame) : DispatchOutcome :=
  match tf.exception with
  | some e => .fatalException e.name
  | none => .todoPanic "lmao"

/-- `Selector::KCODE` (`arch/x86_64/src/cpu.rs` line 119): GDT offset of
`kernel_code` (8) with RPL 0. -/

def SEL_KCODE : Nat := 8

/-- `Vector::ist` (`arch/x86_64/src/trap.rs` lines 137–145): the IST index
assigned to each vector. -/

def vectorIst (v : Nat) : Nat :=
  if v = 1 then 1        -- #DB → Ist1
  else if v = 8 then 2   -- #DF → Ist2
  else if v = 2 then 3   -- #NMI → Ist3
  else if v = 18 then 4  -- #MC → Ist4
  else 0

/-- One 128-bit IDT gate descriptor as built by `trap::init`
(`arch/x86_64/src/trap.rs` lines 171–185): type byte `0x8e` at bits 40–47,
`(Dpl as u128) << 46` with `Dpl::User = 3` for vector `0x80` and
`Dpl::Kernel = 0` otherwise, IST index at bits 32+, kernel code selector at
bits 16–31, and the stub offset split across bits 0–15, 48–63 and 64–95. -/

def idtDescriptor (stub v : Nat) : Nat :=
  (0x8e <<< 40) |||
  ((if v = 0x80 then 3 else 0) <<< 46) |||
  (vectorIst v <<< 32) |||
  (SEL_KCODE <<< 16) |||
  ((stub &&& 0xffffffff00000000) <<< 32) |||
  ((stub &&& 0x00000000ffff0000) <<< 32) |||
  (stub &&& 0x000000000000ffff)

/-- The IDT built once by `trap::init`: one descriptor per vector from the
per-vector assembly stub table. -/

def idtInit (stubs : Nat → Nat) : Nat → Nat :=
  fun v => idtDescriptor (stubs v) v

/-- The architectural DPL field of a gate descriptor: bits 45–46. -/

def dplField (d : Nat) : Nat := (d >>> 45) % 4

/-- An externally visible effect of `trap::init`
(`arch/x86_64/src/trap.rs` lines 156–241), in program order. -/

inductive TrapInitEffect where
  /-- filling in the 256 IDT descriptors (inside `run_once!`) -/
  | installIdt
  /-- allocating the 4-page stack for one IST slot -/
  | allocIstStack (ist : Nat)
  /-- the `lidt` load -/
  | loadIdt
  /-- a `wrmsr` -/
  | wrmsr (reg val : Nat)
  /-- `(addr as *mut u8).read_volatile()` — a one-byte volatile read -/
  | volatileRead (addr : Nat)
deriving DecidableEq, Repr

/-- `TRAP_FMASK` (`arch/x86_64/src/cpu.rs` line 90):
`DF | IF | TF | AC` = bits 10, 9, 8, 18. -/

def TRAP_FMASK : Nat := (1 <<< 10) ||| (1 <<< 9) ||| (1 <<< 8) ||| (1 <<< 18)

/-- `Selector::UCODE32` (`arch/x86_64/src/cpu.rs` line 121): GDT index 3,
RPL 0. -/

def SEL_UCODE32 : Nat := 3 <<< 3

/-- `trap::init` (`arch/x86_64/src/trap.rs` lines 156–241) as its trace of
externally visible effects, in source order: the IDT fill (only on the
first call, under `run_once!`), the IST stack allocations for vectors 1, 2,
8, 18 in vector order (IST indices 1, 3, 2, 4), the `lidt`, the
sysenter/syscall MSR writes, and finally the unconditional volatile read
from `0xcafebabecafebabe`. -/

def trapInit (firstRun : Bool) (sysenterEntry syscallEntry : Nat) :
    List TrapInitEffect :=
  (if firstRun then [TrapInitEffect.installIdt] else []) ++
  [TrapInitEffect.allocIstStack 1,  -- vector 1 (#DB)  → Ist1
   TrapInitEffect.allocIstStack 3,  -- vector 2 (#NMI) → Ist3
   TrapInitEffect.allocIstStack 2,  -- vector 8 (#DF)  → Ist2
   TrapInitEffect.allocIstStack 4,  -- vector 18 (#MC) → Ist4
   TrapInitEffect.loadIdt,
   TrapInitEffect.wrmsr 0x174 SEL_KCODE,
   TrapInitEffect.wrmsr 0x176 sysenterEntry,
   TrapInitEffect.wrmsr 0xC0000081 ((SEL_UCODE32 <<< 48) ||| (SEL_KCODE <<< 32)),
   TrapInitEffect.wrmsr 0xC0000082 syscallEntry,
   TrapInitEffect.wrmsr 0xC0000084 TRAP_FMASK,
   TrapInitEffect.volatileRead 0xcafebabecafebabe]

/-! ## The HAT page-table machine (`arch/x86_64/src/hat.rs`)

Page-table memory is modelled as a function from the physical byte address
of an 8-byte PTE slot to its 64-bit value; a table occupies the 512 slots
`table + 8 * i`.  Fresh table frames come from an abstract allocator
(`freshBase + PAGE_SIZE * next`), standing for `vm::Page::alloc`. -/

/-- `PTES_PER_TABLE` (hat.rs line 267): `PAGE_SIZE / size_of(Pte)` = 512. -/

def PTES_PER_TABLE : Nat := PAGE_SIZE / 8

/-- The mutable state a `Hat` reaches through: its page-table memory, the
abstract frame allocator, and the `Hat` fields (top-level table,
`mapped_pages` accounting, `pcid`, cached `cr3`). -/

structure HatState where
  mem : Nat → Nat
  next : Nat
  freshBase : Nat
  topLevel : Nat
  mappedPages : List Nat
  pcid : Nat
  cr3 : Nat

/-- Read the PTE at `table + 8 * idx` (the `read_volatile` of the source). -/

def readPte (s : HatState) (table idx : Nat) : Nat :=
  s.mem (table + 8 * idx)

/-- Write the PTE at `table + 8 * idx` (the `write_volatile` of the
source). -/

def writePte (s : HatState) (table idx v : Nat) : HatState :=
  { s with mem := fun a => if a = table + 8 * idx then v else s.mem a }

/-- `alloc_page_table` (hat.rs lines 463–467): allocate a frame and zero it.
Modelled from the spec: `vm::Page::alloc` (its module is not under `src/`)
yields a fresh physical 4 KiB frame from the PMM; here the fresh frame is
`freshBase + PAGE_SIZE * next`.  The zero-fill (`write_bytes(0, PAGE_SIZE)`)
is from the source. -/

def allocPageTable (s : HatState) : Nat × HatState :=
  (s.freshBase + PAGE_SIZE * s.next,
   { s with
     next := s.next + 1,
     mem := fun a =>
       if s.freshBase + PAGE_SIZE * s.next ≤ a ∧
           a < s.freshBase + PAGE_SIZE * s.next + PAGE_SIZE
       then 0 else s.mem a })

/-- `VirtAddr::index_for` (hat.rs lines 58–60):
`virt >> (12 + 9 * level) & 0x1ff`. -/

def indexFor (virt level : Nat) : Nat :=
  virt >>> (12 + 9 * level) &&& 0x1ff

/-- The parent-entry phase of one `map_pages` walk (hat.rs lines 198–222),
descending `k` levels from `table`: an absent entry gets a fresh zeroed
child table with `PRESENT`; a huge entry aborts (`assert!(!entry.huge())`,
modelled as `none`); the entry is OR-ed with `PARENT_FLAGS`, written back,
and the walk descends into `entry.addr()`. -/

def mapDescend (virt mapLevel : Nat) :
    Nat → Nat → HatState → Option (Nat × HatState)
  | 0, table, s => some (table, s)
  | k + 1, table, s =>
    let idx := indexFor virt (mapLevel + (k + 1))
    let e := readPte s table idx
    let es :=
      if Pte.present e then (e, s)
      else
        let ps := allocPageTable s
        (Pte.new ps.1 PteFlags.PRESENT, ps.2)
    if Pte.huge es.1 then none
    else
      let e2 := es.1 ||| PARENT_FLAGS
      mapDescend virt mapLevel k (Pte.addr e2) (writePte es.2 table idx e2)

/-- Outcome of the leaf-filling loop of one `map_pages` chunk. -/

inductive LeafResult where
  | ok (s : HatState) (virt phys : Nat)
  | conflict (addr : Nat) (s : HatState)

/-- The leaf loop of one `map_pages` chunk (hat.rs lines 225–244): write
`cnt` consecutive leaf entries starting at `idx`; a present entry differing
from the entry about to be written aborts with
`Error::AlreadyMapped(entry.addr())`. -/

def writeLeaves (flagsLeaf pageSize : Nat) :
    Nat → HatState → Nat → Nat → Nat → Nat → LeafResult
  | 0, s, _, _, virt, phys => .ok s virt phys
  | cnt + 1, s, table, idx, virt, phys =>
    let e := readPte s table idx
    let ne := Pte.new phys flagsLeaf
    if Pte.present e ∧ e ≠ ne then .conflict (Pte.addr e) s
    else
      writeLeaves flagsLeaf pageSize cnt (writePte s table idx ne)
        table (idx + 1) (virt + pageSize) (phys + pageSize)

/-- Outcome of the `while num_pages > 0` loop of `map_pages`. -/

inductive MapResult where
  /-- normal exit, with the final value of `num_pages` (the loop leaves it
  `0`) -/
  | ok (s : HatState) (remaining : Nat)
  /-- `return Err(Error::AlreadyMapped(addr))` -/
  | alreadyMapped (addr : Nat) (s : HatState)
  /-- the `assert!(!entry.huge(), ...)` abort -/
  | panic
  /-- fuel ran out (never happens with fuel = `num_pages`, since every
  iteration maps at least one page) -/
  | stuck

/-- The `while num_pages > 0` loop of `map_pages` (hat.rs lines 195–248):
walk from the top level, then fill `min(num_pages, PTES_PER_TABLE - index)`
leaves, and repeat. -/

def mapLoop (mmu : MmuInfo) (mapLevel pageSize flagsLeaf : Nat) :
    Nat → HatState → Nat → Nat → Nat → MapResult
  | _, s, _, _, 0 => .ok s 0
  | 0, _, _, _, _ + 1 => .stuck
  | fuel + 1, s, virt, phys, np + 1 =>
    match mapDescend virt mapLevel (mmu.max_level - mapLevel) s.topLevel s with
    | none => .panic
    | some ts =>
      let idx := indexFor virt mapLevel
      let cnt := min (np + 1) (PTES_PER_TABLE - idx)
      match writeLeaves flagsLeaf pageSize cnt ts.2 ts.1 idx virt phys with
      | .conflict a s2 => .alreadyMapped a s2
      | .ok s2 virt2 phys2 =>
        mapLoop mmu mapLevel pageSize flagsLeaf fuel s2 virt2 phys2 (np + 1 - cnt)

/-- `self.mapped_pages[map_level] += num_pages` (hat.rs line 250). -/

def bumpAt (l : List Nat) (i d : Nat) : List Nat :=
  l.set i (l.getD i 0 + d)

/-- Result of `map_pages`. -/

inductive MapPagesResult where
  | ok (s : HatState)
  | alreadyMapped (addr : Nat) (s : HatState)
  | panic
  | stuck

/-- The page-size downgrade at the head of `map_pages`/`unmap_pages`
(hat.rs lines 179–183): `Size1GiB` falls back to `Size2MiB` without gigapage
support.  Page sizes are their enum discriminants (4 KiB = 0, 2 MiB = 1,
1 GiB = 2). -/

def mapLevelOf (mmu : MmuInfo) (pageSizeEnum : Nat) : Nat :=
  if pageSizeEnum = 2 ∧ ¬ mmu.gigapages then 1 else pageSizeEnum

/-- `Hat::map_pages` (hat.rs lines 171–253).  The `debug_assert!`
preconditions (canonical `virt`, alignment of `virt`, `phys` and `size`)
are hypotheses of the theorems below.  After the loop the final
`num_pages` (always 0) is added to `mapped_pages[map_level]`. -/

def mapPages (mmu : MmuInfo) (s : HatState) (virt phys size pageSizeEnum : Nat)
    (prot : Prot) : MapPagesResult :=
  let mapLevel := mapLevelOf mmu pageSizeEnum
  let pageSize := mmu.page_size.getD mapLevel 0
  let numPages := size / pageSize
  let flagsLeaf := protMapGet mmu.protmap prot |||
    mmu.pte_flags.getD mapLevel 0 ||| PteFlags.PRESENT
  match mapLoop mmu mapLevel pageSize flagsLeaf numPages s virt phys numPages with
  | .ok s' rem => .ok { s' with mappedPages := bumpAt s'.mappedPages mapLevel rem }
  | .alreadyMapped a s' => .alreadyMapped a s'
  | .panic => .panic
  | .stuck => .stuck

/-- Result of a read-only page-table walk down to a target level. -/

inductive WalkResult where
  /-- the entry found at the target level -/
  | leaf (e : Nat)
  /-- a non-present entry stopped the walk at `level > target` -/
  | absentAt (level : Nat)
  /-- a huge-page entry stopped the walk at `level > target` -/
  | hugeAt (level : Nat) (e : Nat)
deriving DecidableEq, Repr

/-- Read-only walk from `table`, `k` levels above the target, following
present non-huge entries. -/

def walkAux (s : HatState) (virt mapLevel : Nat) : Nat → Nat → WalkResult
  | 0, table => .leaf (readPte s table (indexFor virt mapLevel))
  | k + 1, table =>
    let e := readPte s table (indexFor virt (mapLevel + (k + 1)))
    if ¬ Pte.present e then .absentAt (mapLevel + (k + 1))
    else if Pte.huge e then .hugeAt (mapLevel + (k + 1)) e
    else walkAux s virt mapLevel k (Pte.addr e)

/-- The page-table walk for `virt` down to the level of one page size:
what the hardware (and `unmap_pages`) would traverse. -/

def walk (mmu : MmuInfo) (s : HatState) (virt mapLevel : Nat) : WalkResult :=
  walkAux s virt mapLevel (mmu.max_level - mapLevel) s.topLevel

/-- Outcome of `unmap_pages`, which returns no value but can abort on its
`assert!`s. -/

inductive UnmapResult where
  | ok (s : HatState)
  | panic
  | stuck

/-- The parent phase of one `unmap_pages` walk (hat.rs lines 136–148):
asserts every parent entry is present and not huge. -/

def unmapDescend (virt mapLevel : Nat) :
    Nat → Nat → HatState → Option Nat
  | 0, table, _ => some table
  | k + 1, table, s =>
    let e := readPte s table (indexFor virt (mapLevel + (k + 1)))
    if ¬ Pte.present e then none
    else if Pte.huge e then none
    else unmapDescend virt mapLevel k (Pte.addr e) s

/-- The leaf loop of one `unmap_pages` chunk (hat.rs lines 150–157): assert
each entry present, then write `Pte::NULL`. -/

def clearLeaves (pageSize : Nat) :
    Nat → HatState → Nat → Nat → Nat → Option (HatState × Nat)
  | 0, s, _, _, virt => some (s, virt)
  | cnt + 1, s, table, idx, virt =>
    if ¬ Pte.present (readPte s table idx) then none
    else
      clearLeaves pageSize cnt (writePte s table idx 0) table (idx + 1)
        (virt + pageSize)

/-- The `while num_pages > 0` loop of `unmap_pages` (hat.rs lines 132–162).
`unmap_pages` never touches `mapped_pages`. -/

def unmapLoop (mmu : MmuInfo) (mapLevel pageSize : Nat) :
    Nat → HatState → Nat → Nat → UnmapResult
  | _, s, _, 0 => .ok s
  | 0, _, _, _ + 1 => .stuck
  | fuel + 1, s, virt, np + 1 =>
    match unmapDescend virt mapLevel (mmu.max_level - mapLevel) s.topLevel s with
    | none => .panic
    | some table =>
      let idx := indexFor virt mapLevel
      let cnt := min (np + 1) (PTES_PER_TABLE - idx)
      match clearLeaves pageSize cnt s table idx virt with
      | none => .panic
      | some sv =>
        unmapLoop mmu mapLevel pageSize fuel sv.1 sv.2 (np + 1 - cnt)

/-- `Hat::unmap_pages` (hat.rs lines 118–163). -/

def unmapPages (mmu : MmuInfo) (s : HatState) (virt size pageSizeEnum : Nat) :
    UnmapResult :=
  let mapLevel := mapLevelOf mmu pageSizeEnum
  let pageSize := mmu.page_size.getD mapLevel 0
  let numPages := size / pageSize
  unmapLoop mmu mapLevel pageSize numPages s virt numPages

/-- `Hat::new` (hat.rs lines 95–116): allocate the top-level table frame
(from the abstract allocator, as frame `freshBase`), copy all
`PTES_PER_TABLE` entries of `INITIAL_PTES` into it, record
`pcid = asid & 0xfff` and the cached `cr3`. -/

def hatNew (mmu : MmuInfo) (initialPtes : List Nat) (freshBase asid : Nat) :
    HatState where
  mem := fun a =>
    if freshBase ≤ a ∧ a < freshBase + PAGE_SIZE
    then initialPtes.getD ((a - freshBase) / 8) 0 else 0
  next := 1
  freshBase := freshBase
  topLevel := freshBase
  mappedPages := List.replicate 5 0
  pcid := asid &&& 0xfff
  cr3 := if mmu.pcide then freshBase ||| (asid &&& 0xfff) else freshBase

/-- The `mapped_pages` accounting carried by an outcome of `map_pages`, when
the outcome carries a state at all. -/

def MapPagesResult.accounting : MapPagesResult → Option (List Nat)
  | .ok s => some s.mappedPages
  | .alreadyMapped _ s => some s.mappedPages
  | .panic => none
  | .stuck => none

/-- Hat states produced by `Hat::new` and any sequence of successful
`map_pages` and `unmap_pages` calls. -/

inductive HatReached : HatState → Prop where
  | new (mmu : MmuInfo) (initialPtes : List Nat) (freshBase asid : Nat) :
      HatReached (hatNew mmu initialPtes freshBase asid)
  | map {s s' : HatState} (mmu : MmuInfo) (virt phys size pse : Nat) (prot : Prot) :
      HatReached s → mapPages mmu s virt phys size pse prot = .ok s' →
      HatReached s'
  | unmap {s s' : HatState} (mmu : MmuInfo) (virt size pse : Nat) :
      HatReached s → unmapPages mmu s virt size pse = .ok s' →
      HatReached s'

/-! ### Walk chains, positions and well-formedness -/

/-- The chain of tables a walk traverses: like `walkAux` but returning the
target-level table instead of the leaf entry. -/

def walkTbl (s : HatState) (virt mapLevel : Nat) : Nat → Nat → Option Nat
  | 0, table => some table
  | k + 1, table =>
    let e := readPte s table (indexFor virt (mapLevel + (k + 1)))
    if Pte.present e then
      if Pte.huge e then none
      else walkTbl s virt mapLevel k (Pte.addr e)
    else none

/-- The table at a tree position: follow the child pointer at each listed
index in turn, refusing absent entries, huge entries and out-of-range
indices. -/

def tableFrom (s : HatState) : Nat → List Nat → Option Nat
  | t, [] => some t
  | t, i :: is =>
    let e := readPte s t i
    if i < PTES_PER_TABLE ∧ Pte.present e = true ∧ Pte.huge e = false then
      tableFrom s (Pte.addr e) is
    else none

/-- The position (top-down index list) of the parent path of `virt` down to
`k` levels above `mapLevel`. -/

def pagePath (virt mapLevel : Nat) : Nat → List Nat
  | 0 => []
  | k + 1 => indexFor virt (mapLevel + (k + 1)) :: pagePath virt mapLevel k

/-- The radix tree rooted at `topLevel` is well-formed: aligned root, every
position holds a distinct table (no aliasing between tables or across
levels), and every table lies below the allocator's watermark. -/

structure HatWf (s : HatState) : Prop where
  topAligned : s.topLevel % PAGE_SIZE = 0
  topLt : s.topLevel < 2 ^ 52
  freshAligned : s.freshBase % PAGE_SIZE = 0
  inj : ∀ p₁ p₂ t, p₁.length ≤ 3 → p₂.length ≤ 3 →
    tableFrom s s.topLevel p₁ = some t → tableFrom s s.topLevel p₂ = some t →
    p₁ = p₂
  bound : ∀ p t, p.length ≤ 3 → tableFrom s s.topLevel p = some t →
    t < s.freshBase + PAGE_SIZE * s.next

/-- The fresh frame the next allocation returns. -/

def watermark (s : HatState) : Nat := s.freshBase + PAGE_SIZE * s.next

/-- The state after `alloc_page_table` plus the install write of
`Pte::new(page.addr, PRESENT) | PARENT_FLAGS`, as `map_pages` performs on an
absent parent entry. -/

def installChild (s : HatState) (T i : Nat) : HatState :=
  writePte (allocPageTable s).2 T i
    (Pte.new (allocPageTable s).1 PteFlags.PRESENT ||| PARENT_FLAGS)

/-- Whether the parent phase of a walk meets no huge entry (an absent entry
is fine: `map_pages` allocates through it). -/

def parentsOk (s : HatState) (virt mapLevel : Nat) : Nat → Nat → Bool
  | 0, _ => true
  | k + 1, table =>
    let e := readPte s table (indexFor virt (mapLevel + (k + 1)))
    if Pte.present e then
      if Pte.huge e then false
      else parentsOk s virt mapLevel k (Pte.addr e)
    else true

/-- Boolean form of "the walk for this page finds no present leaf": the walk
stops on a non-present entry before or at the target level, and meets no huge
entry. -/

def clearPage (s : HatState) (virt ml k : Nat) : Bool :=
  match walkAux s virt ml k s.topLevel with
  | .absentAt _ => true
  | .leaf e => ! Pte.present e
  | .hugeAt _ _ => false

/-- Boolean form of the `map_pages` leaf-phase precondition: each page's walk
stops early, or finds a non-present leaf slot, or finds exactly the entry
about to be written. -/

def clearOrEq (s : HatState) (virt ml k ne : Nat) : Bool :=
  match walkAux s virt ml k s.topLevel with
  | .absentAt _ => true
  | .leaf e => ! Pte.present e || e == ne
  | .hugeAt _ _ => false

/-- How one `map_pages` phase changes the walk of an arbitrary page: a found
leaf survives with the same value, and a blocked walk stays blocked or ends
on a zero (non-present) leaf slot of a freshly allocated table. -/

def StepPres (s s2 : HatState) (virt ml k : Nat) : Prop :=
  (∀ e, walkAux s virt ml k s.topLevel = .leaf e →
    walkAux s2 virt ml k s2.topLevel = .leaf e) ∧
  (∀ l, walkAux s virt ml k s.topLevel = .absentAt l →
    (∃ m, walkAux s2 virt ml k s2.topLevel = .absentAt m) ∨
      walkAux s2 virt ml k s2.topLevel = .leaf 0)

/-- Everything one `map_pages` parent walk (`mapDescend`) guarantees: from a
table `t` at position `q`, descending `k2` levels yields the target-level
table `T` in state `s2`, with the `Hat` fields untouched, at most one fresh
table per level, the radix tree still well-formed, `T` reachable below `q`
along the page's path, `T`'s rows preserved (or all zero when the old walk
was blocked), and every other page's walk preserved in the `StepPres`
sense. -/

structure DescendOut (s s2 : HatState) (virt ml : Nat) (q : List Nat)
    (k2 t T : Nat) : Prop where
  topLevel : s2.topLevel = s.topLevel
  freshBase : s2.freshBase = s.freshBase
  pcid : s2.pcid = s.pcid
  cr3 : s2.cr3 = s.cr3
  mappedPages : s2.mappedPages = s.mappedPages
  nextLe : s.next ≤ s2.next
  nextBound : s2.next ≤ s.next + k2
  wf : HatWf s2
  path : tableFrom s2 s.topLevel (q ++ pagePath virt ml k2) = some T
  rows : (walkTbl s virt ml k2 t = some T ∧
      ∀ row, row < PTES_PER_TABLE → readPte s2 T row = readPte s T row) ∨
    (walkTbl s virt ml k2 t = none ∧
      ∀ row, row < PTES_PER_TABLE → readPte s2 T row = 0)
  pres : ∀ v2 k0, q.length + k2 ≤ k0 → k0 ≤ 3 → StepPres s s2 v2 ml k0

/-! ### `mapped_pages` is never actually bumped -/

/-- The `mapped_pages` list a `LeafResult` carries. -/

def LeafResult.mp : LeafResult → List Nat
  | .ok s _ _ => s.mappedPages
  | .conflict _ s => s.mappedPages

/-- The map level `map_pages` uses under `mmuInit`, after the page-size
downgrade. -/

def hatMapLevel (f : CpuFeatures) (pse : Nat) : Nat := mapLevelOf (mmuInit f) pse

/-- The byte size of a page at that level. -/

def hatPageSize (f : CpuFeatures) (pse : Nat) : Nat :=
  2 ^ (12 + 9 * hatMapLevel f pse)

/-- How many levels the parent walk descends. -/

def hatDepth (f : CpuFeatures) (pse : Nat) : Nat := 3 - hatMapLevel f pse

/-- The leaf flags `map_pages` computes:
`protmap[prot] | pte_flags[level] | PRESENT`. -/

def hatLeafFlags (f : CpuFeatures) (pse : Nat) (prot : Prot) : Nat :=
  protMapGet (mmuInit f).protmap prot |||
    (mmuInit f).pte_flags.getD (hatMapLevel f pse) 0 ||| PteFlags.PRESENT

/-- Mapping the same range one page at a time: fold single-page `map_pages`
calls over the pages. -/

def mapSeq (mmu : MmuInfo) (s : HatState) (virt phys ps pse : Nat)
    (prot : Prot) : Nat → MapPagesResult
  | 0 => .ok s
  | n + 1 =>
    match mapSeq mmu s virt phys ps pse prot n with
    | .ok s2 => mapPages mmu s2 (virt + ps * n) (phys + ps * n) ps pse prot
    | r => r

/-! ## Theorems -/

/-!
# Verification of the Bolt kernel's PMM, HAT and trap subsystems

This development shallowly embeds the core of the Bolt kernel:

* the physical-memory manager (`src/sys/kernel/kern/pmm.rs`) as a functional
  model over sorted run lists;
* the x86_64 hardware-address-translation engine
  (`src/sys/kernel/arch/x86_64/src/hat.rs`) as a small-step interpreter over an
  explicit page-table memory;
* the x86_64 trap layer (`src/sys/kernel/arch/x86_64/src/trap.rs` and
  `src/sys/kernel/kern/trap.rs`).

Machine integers are modelled as `Nat` with explicit masking where the source
relies on wrap-around or bit extraction.
-/

/-! ### Splitting and insertion lemmas -/

theorem takeWhile_append_of_all {α : Type} (p : α → Bool) (l₁ l₂ : List α)
    (h : ∀ x ∈ l₁, p x = true) :
    (l₁ ++ l₂).takeWhile p = l₁ ++ l₂.takeWhile p := by
  induction l₁ with
  | nil => simp
  | cons a t ih =>
    have ha : p a = true := h a (by simp)
    simp only [List.cons_append, List.takeWhile_cons, ha]
    simp [ih fun x hx => h x (by simp [hx])]

theorem dropWhile_append_of_all {α : Type} (p : α → Bool) (l₁ l₂ : List α)
    (h : ∀ x ∈ l₁, p x = true) :
    (l₁ ++ l₂).dropWhile p = l₂.dropWhile p := by
  induction l₁ with
  | nil => simp
  | cons a t ih =>
    have ha : p a = true := h a (by simp)
    simp only [List.cons_append, List.dropWhile_cons, ha]
    simp [ih fun x hx => h x (by simp [hx])]

theorem takeWhile_eq_nil_of_head {α : Type} (p : α → Bool) (l : List α)
    (h : ∀ x ∈ l, p x = false) : l.takeWhile p = [] := by
  cases l with
  | nil => rfl
  | cons a t => simp [List.takeWhile_cons, h a (by simp)]

theorem dropWhile_eq_self_of_head {α : Type} (p : α → Bool) (l : List α)
    (h : ∀ x ∈ l, p x = false) : l.dropWhile p = l := by
  cases l with
  | nil => rfl
  | cons a t => simp [List.dropWhile_cons, h a (by simp)]

/-- The tail-first pointer walk of `insert_region` splits a list that is
already partitioned around `base` exactly at the partition point. -/

theorem splitRuns_eq (A B : List PhysRegion) (base : Nat)
    (hA : ∀ a ∈ A, a.base < base) (hB : ∀ b ∈ B, base ≤ b.base) :
    splitRuns (A ++ B) base = (A, B) := by
  unfold splitRuns
  have hrev : (A ++ B).reverse = B.reverse ++ A.reverse := by
    simp
  have hBr : ∀ x ∈ B.reverse, (fun r : PhysRegion => decide (base ≤ r.base)) x = true := by
    intro x hx
    simp only [List.mem_reverse] at hx
    simp [hB x hx]
  have hAr : ∀ x ∈ A.reverse, (fun r : PhysRegion => decide (base ≤ r.base)) x = false := by
    intro x hx
    simp only [List.mem_reverse] at hx
    simp [Nat.not_le.mpr (hA x hx)]
  rw [hrev, Prod.mk.injEq]
  constructor
  · rw [dropWhile_append_of_all _ _ _ hBr, dropWhile_eq_self_of_head _ _ hAr]
    simp
  · rw [takeWhile_append_of_all _ _ _ hBr, takeWhile_eq_nil_of_head _ _ hAr]
    simp

/-- Characterization of `insert_region` on a list partitioned around the new
run, when the new run overlaps no existing run: the insertion succeeds and
produces `insertionResult`. -/

theorem insertRegion_spec (A B : List PhysRegion) (base len : Nat)
    (hA : ∀ a ∈ A, a.base < base)
    (hB : ∀ b ∈ B, base ≤ b.base)
    (hAend : ∀ a ∈ A, a.stop ≤ base)
    (hBstart : ∀ b ∈ B, base + PAGE_SIZE * len ≤ b.base) :
    insertRegion (A ++ B) base len = some (insertionResult A B base len) := by
  have hsplit := splitRuns_eq A B base hA hB
  unfold insertRegion insertionResult
  rw [hsplit]
  cases hlast : A.getLast? with
  | none =>
    cases hhead : B.head? with
    | none => simp [insertRight, leftPhase, rightPhase, hlast, hhead]
    | some nx =>
      have hnx : nx ∈ B := List.mem_of_mem_head? hhead
      have hle : base + PAGE_SIZE * len ≤ nx.base := hBstart nx hnx
      by_cases heq : base + PAGE_SIZE * len = nx.base <;>
        simp [insertRight, leftPhase, rightPhase, hlast, hhead, hle, heq]
  | some p =>
    have hp : p ∈ A := by
      obtain ⟨l', hl'⟩ := List.getLast?_eq_some_iff.mp hlast
      rw [hl']
      simp
    have hple : p.stop ≤ base := hAend p hp
    by_cases hpeq : p.stop = base
    · -- coalesce with the left neighbour
      cases hhead : B.head? with
      | none => simp [insertRight, leftPhase, rightPhase, hlast, hhead, hple, hpeq]
      | some nx =>
        have hnx : nx ∈ B := List.mem_of_mem_head? hhead
        have hle : p.base + PAGE_SIZE * (len + p.len) ≤ nx.base := by
          have := hBstart nx hnx
          simp only [PhysRegion.stop] at hpeq
          calc p.base + PAGE_SIZE * (len + p.len)
              = base + PAGE_SIZE * len := by rw [Nat.mul_add]; omega
            _ ≤ nx.base := this
        by_cases heq : p.base + PAGE_SIZE * (len + p.len) = nx.base <;>
          simp [insertRight, leftPhase, rightPhase, hlast, hhead, hple, hpeq, hle, heq]
    · -- no left coalescing
      cases hhead : B.head? with
      | none => simp [insertRight, leftPhase, rightPhase, hlast, hhead, hple, hpeq]
      | some nx =>
        have hnx : nx ∈ B := List.mem_of_mem_head? hhead
        have hle : base + PAGE_SIZE * len ≤ nx.base := hBstart nx hnx
        by_cases heq : base + PAGE_SIZE * len = nx.base <;>
          simp [insertRight, leftPhase, rightPhase, hlast, hhead, hple, hpeq, hle, heq]

/-- A well-formed free list splits around any range that overlaps no run:
the runs entirely below the range come first, the runs entirely above it
follow. -/

theorem exists_partition (s : List PhysRegion) (b k : Nat) (hwf : PmmWf s)
    (hdisj : ∀ r ∈ s, DisjointRun b k r) :
    ∃ A B, s = A ++ B ∧ (∀ a ∈ A, a.base < b ∧ a.stop ≤ b) ∧
      (∀ r ∈ B, b + PAGE_SIZE * k ≤ r.base) := by
  induction s with
  | nil => exact ⟨[], [], rfl, by simp, by simp⟩
  | cons r t ih =>
    obtain ⟨hlen, hpw⟩ := hwf
    have hwt : PmmWf t := ⟨fun x hx => hlen x (by simp [hx]), hpw.of_cons⟩
    have hrt : ∀ x ∈ t, Separated r x := fun x hx =>
      (List.pairwise_cons.mp hpw).1 x hx
    rcases hdisj r (by simp) with habove | hbelow
    · -- the whole list is above the range
      refine ⟨[], r :: t, rfl, by simp, ?_⟩
      intro x hx
      rcases List.mem_cons.mp hx with rfl | hx
      · exact habove
      · have h1 : r.stop < x.base := hrt x hx
        have h2 : r.base ≤ r.stop := Nat.le_add_right _ _
        omega
    · -- `r` is below the range; recurse on the tail
      obtain ⟨A, B, hAB, hA, hB⟩ := ih hwt fun x hx => hdisj x (by simp [hx])
      refine ⟨r :: A, B, by simp [hAB], ?_, hB⟩
      intro a ha
      rcases List.mem_cons.mp ha with rfl | ha
      · have : 0 < PAGE_SIZE * a.len :=
          Nat.mul_pos (by norm_num [PAGE_SIZE]) (hlen a (by simp))
        simp only [PhysRegion.stop] at hbelow ⊢
        omega
      · exact hA a ha

theorem mem_of_mem_dropLast {α : Type} {l : List α} {x : α}
    (h : x ∈ l.dropLast) : x ∈ l :=
  (List.dropLast_sublist l).mem h

/-- Everything the `prev`-coalescing phase guarantees on a partitioned,
well-formed left part. -/

theorem leftPhase_spec (A : List PhysRegion) (base len : Nat)
    (hpwA : A.Pairwise Separated)
    (hlA : ∀ a ∈ A, 0 < a.len)
    (hA : ∀ a ∈ A, a.base < base ∧ a.stop ≤ base) :
    (∀ a ∈ (leftPhase A base len).1, 0 < a.len) ∧
    (leftPhase A base len).1.Pairwise Separated ∧
    (∀ a ∈ (leftPhase A base len).1, a.stop < (leftPhase A base len).2.1) ∧
    (leftPhase A base len).2.1 + PAGE_SIZE * (leftPhase A base len).2.2
      = base + PAGE_SIZE * len ∧
    len ≤ (leftPhase A base len).2.2 ∧
    (leftPhase A base len).2.1 ≤ base := by
  cases hlast : A.getLast? with
  | none =>
    have : A = [] := List.getLast?_eq_none_iff.mp hlast
    subst this
    simp [leftPhase]
  | some p =>
    obtain ⟨l', hl'⟩ := List.getLast?_eq_some_iff.mp hlast
    have hpA : p ∈ A := by rw [hl']; simp
    have hdrop : A.dropLast = l' := by rw [hl']; simp
    have hsepl : ∀ a ∈ l', Separated a p := by
      intro a ha
      have := hl' ▸ hpwA
      rw [List.pairwise_append] at this
      exact this.2.2 a ha p (by simp)
    by_cases hpeq : p.stop = base
    · simp only [leftPhase, hlast, if_pos hpeq]
      refine ⟨?_, ?_, ?_, ?_, Nat.le_add_right _ _, ?_⟩
      · intro a ha
        exact hlA a (mem_of_mem_dropLast ha)
      · exact hpwA.sublist (List.dropLast_sublist A)
      · intro a ha
        rw [hdrop] at ha
        exact hsepl a ha
      · simp only [PhysRegion.stop] at hpeq
        rw [Nat.mul_add]
        omega
      · have : p.base ≤ p.stop := Nat.le_add_right _ _
        have h2 : p.stop ≤ base := (hA p hpA).2
        omega
    · simp only [leftPhase, hlast, if_neg hpeq]
      refine ⟨hlA, hpwA, ?_, by simp, by simp, by simp⟩
      intro a ha
      show a.stop < base
      by_cases hap : a = p
      · subst hap
        exact Nat.lt_of_le_of_ne (hA a ha).2 hpeq
      · have ha' : a ∈ l' := by
          rcases (by rw [hl'] at ha; simpa using ha : a ∈ l' ∨ a = p) with h | h
          · exact h
          · exact absurd h hap
        have hsep := hsepl a ha'
        have h1 : p.base ≤ p.stop := Nat.le_add_right _ _
        have h2 : p.stop ≤ base := (hA p hpA).2
        unfold Separated at hsep
        omega

/-- Everything the `next`-coalescing phase guarantees on a partitioned,
well-formed right part. -/

theorem rightPhase_spec (B : List PhysRegion) (b1 l1 : Nat)
    (hpwB : B.Pairwise Separated)
    (hlB : ∀ r ∈ B, 0 < r.len)
    (hB : ∀ r ∈ B, b1 + PAGE_SIZE * l1 ≤ r.base) :
    (∀ r ∈ (rightPhase B b1 l1).2, 0 < r.len) ∧
    (rightPhase B b1 l1).2.Pairwise Separated ∧
    (∀ r ∈ (rightPhase B b1 l1).2, b1 + PAGE_SIZE * (rightPhase B b1 l1).1 < r.base) ∧
    l1 ≤ (rightPhase B b1 l1).1 := by
  cases B with
  | nil => simp [rightPhase]
  | cons nx t =>
    have hhead : (nx :: t).head? = some nx := rfl
    have hsep : ∀ r ∈ t, Separated nx r := (List.pairwise_cons.mp hpwB).1
    by_cases heq : b1 + PAGE_SIZE * l1 = nx.base
    · simp only [rightPhase, hhead, if_pos heq, List.tail_cons]
      refine ⟨fun r hr => hlB r (by simp [hr]), hpwB.of_cons, ?_, Nat.le_add_right _ _⟩
      intro r hr
      have h1 := hsep r hr
      unfold Separated PhysRegion.stop at h1
      rw [Nat.mul_add]
      omega
    · simp only [rightPhase, hhead, if_neg heq]
      refine ⟨hlB, hpwB, ?_, le_refl _⟩
      intro r hr
      rcases List.mem_cons.mp hr with rfl | hr
      · exact Nat.lt_of_le_of_ne (hB r (by simp)) heq
      · have h1 := hsep r hr
        have h2 := hB nx (by simp)
        have h3 : nx.base ≤ nx.stop := Nat.le_add_right _ _
        unfold Separated at h1
        omega

/-- Inserting a non-overlapping, non-empty run into a well-formed list yields
a well-formed list. -/

theorem insertionResult_wf (A B : List PhysRegion) (base len : Nat)
    (hwf : PmmWf (A ++ B))
    (hA : ∀ a ∈ A, a.base < base ∧ a.stop ≤ base)
    (hB : ∀ r ∈ B, base + PAGE_SIZE * len ≤ r.base)
    (hlen : 0 < len) :
    PmmWf (insertionResult A B base len) := by
  obtain ⟨hl, hpw⟩ := hwf
  rw [List.pairwise_append] at hpw
  obtain ⟨hpwA, hpwB, _⟩ := hpw
  obtain ⟨hl1, hpw1, hsep1, heq1, hle1, hble1⟩ :=
    leftPhase_spec A base len hpwA (fun a ha => hl a (List.mem_append_left _ ha)) hA
  obtain ⟨hl2, hpw2, hsep2, hle2⟩ :=
    rightPhase_spec B (leftPhase A base len).2.1 (leftPhase A base len).2.2 hpwB
      (fun r hr => hl r (List.mem_append_right _ hr))
      (fun r hr => heq1 ▸ hB r hr)
  unfold insertionResult
  constructor
  · intro r hr
    rcases List.mem_append.mp hr with hr | hr
    · exact hl1 r hr
    · rcases List.mem_cons.mp hr with rfl | hr
      · exact Nat.lt_of_lt_of_le (Nat.lt_of_lt_of_le hlen hle1) hle2
      · exact hl2 r hr
  · rw [List.pairwise_append]
    refine ⟨hpw1, ?_, ?_⟩
    · rw [List.pairwise_cons]
      refine ⟨?_, hpw2⟩
      intro r hr
      exact hsep2 r hr
    · intro x hx y hy
      rcases List.mem_cons.mp hy with rfl | hy
      · exact hsep1 x hx
      · have h1 := hsep1 x hx
        have h2 := hsep2 y hy
        unfold Separated
        omega

/-! ### Allocation lemmas -/

/-- Runs too small to satisfy a request are walked over unchanged. -/

theorem allocGo_prefix_small (pre rest : List PhysRegion) (n : Nat)
    (h : ∀ x ∈ pre, x.len < n) :
    allocGo (pre ++ rest) n =
      match allocGo rest n with
      | some (a, rs') => some (a, pre ++ rs')
      | none => none := by
  induction pre with
  | nil =>
    simp only [List.nil_append]
    cases allocGo rest n with
    | none => rfl
    | some v => cases v; rfl
  | cons r t ih =>
    have hr : ¬ n ≤ r.len := Nat.not_le.mpr (h r (by simp))
    rw [List.cons_append]
    rw [show allocGo (r :: (t ++ rest)) n =
      match allocGo (t ++ rest) n with
      | some (a, rs') => some (a, r :: rs')
      | none => none from by simp [allocGo, hr]]
    rw [ih fun x hx => h x (by simp [hx])]
    cases allocGo rest n with
    | none => rfl
    | some v => cases v; rfl

/-- When no run fits, `alloc_frames` fails and the walk consumes nothing. -/

theorem allocGo_none (rs : List PhysRegion) (n : Nat)
    (h : ∀ x ∈ rs, x.len < n) : allocGo rs n = none := by
  have := allocGo_prefix_small rs [] n h
  simpa [allocGo] using this

/-- Every run the allocator leaves behind sits inside a run it started with
(same base, no larger end). -/

theorem allocGo_dominated (rs : List PhysRegion) (n : Nat) :
    ∀ a rs', allocGo rs n = some (a, rs') →
      ∀ x ∈ rs', ∃ y ∈ rs, x.base = y.base ∧ x.stop ≤ y.stop := by
  induction rs with
  | nil => intro a rs' h; simp [allocGo] at h
  | cons r t ih =>
    intro a rs' h x hx
    by_cases hr : n ≤ r.len
    · simp only [allocGo, if_pos hr] at h
      obtain ⟨-, h2⟩ := Prod.mk.injEq .. ▸ Option.some.injEq .. ▸ h
      by_cases h0 : r.len - n = 0
      · rw [if_pos h0] at h2
        subst h2
        exact ⟨x, by simp [hx], rfl, le_refl _⟩
      · rw [if_neg h0] at h2
        subst h2
        rcases List.mem_cons.mp hx with rfl | hx
        · refine ⟨r, by simp, rfl, ?_⟩
          unfold PhysRegion.stop
          have : r.len - n ≤ r.len := Nat.sub_le _ _
          exact Nat.add_le_add_left (Nat.mul_le_mul_left _ this) _
        · exact ⟨x, by simp [hx], rfl, le_refl _⟩
    · simp only [allocGo, if_neg hr] at h
      cases hrec : allocGo t n with
      | none => rw [hrec] at h; exact absurd h (by simp)
      | some v =>
        obtain ⟨a', t'⟩ := v
        rw [hrec] at h
        obtain ⟨h1, h2⟩ := Prod.mk.injEq .. ▸ Option.some.injEq .. ▸ h
        subst h2
        rcases List.mem_cons.mp hx with rfl | hx
        · exact ⟨x, by simp, rfl, le_refl _⟩
        · obtain ⟨y, hy, hxy⟩ := ih a' t' (by rw [hrec]) x hx
          exact ⟨y, by simp [hy], hxy⟩

/-- The allocator's walk preserves well-formedness of the (tail-first) list. -/

theorem allocGo_wfrev (rs : List PhysRegion) (n : Nat)
    (hpw : rs.Pairwise fun a b => Separated b a)
    (hlen : ∀ r ∈ rs, 0 < r.len) :
    ∀ a rs', allocGo rs n = some (a, rs') →
      (rs'.Pairwise fun a b => Separated b a) ∧ ∀ r ∈ rs', 0 < r.len := by
  induction rs with
  | nil => intro a rs' h; simp [allocGo] at h
  | cons r t ih =>
    intro a rs' h
    have hsep : ∀ x ∈ t, Separated x r := (List.pairwise_cons.mp hpw).1
    have hpwt : t.Pairwise fun a b => Separated b a := hpw.of_cons
    have hlent : ∀ x ∈ t, 0 < x.len := fun x hx => hlen x (by simp [hx])
    by_cases hr : n ≤ r.len
    · simp only [allocGo, if_pos hr] at h
      obtain ⟨-, h2⟩ := Prod.mk.injEq .. ▸ Option.some.injEq .. ▸ h
      by_cases h0 : r.len - n = 0
      · rw [if_pos h0] at h2
        subst h2
        exact ⟨hpwt, hlent⟩
      · rw [if_neg h0] at h2
        subst h2
        refine ⟨List.pairwise_cons.mpr ⟨fun x hx => hsep x hx, hpwt⟩, ?_⟩
        intro x hx
        rcases List.mem_cons.mp hx with rfl | hx
        · exact Nat.pos_of_ne_zero h0
        · exact hlent x hx
    · simp only [allocGo, if_neg hr] at h
      cases hrec : allocGo t n with
      | none => rw [hrec] at h; exact absurd h (by simp)
      | some v =>
        obtain ⟨a', t'⟩ := v
        rw [hrec] at h
        obtain ⟨h1, h2⟩ := Prod.mk.injEq .. ▸ Option.some.injEq .. ▸ h
        subst h2
        obtain ⟨hpw', hlen'⟩ := ih hpwt hlent a' t' (by rw [hrec])
        refine ⟨List.pairwise_cons.mpr ⟨?_, hpw'⟩, ?_⟩
        · intro x hx
          obtain ⟨y, hy, hb, hs⟩ := allocGo_dominated t n a' t' (by rw [hrec]) x hx
          have := hsep y hy
          unfold Separated at this ⊢
          omega
        · intro x hx
          rcases List.mem_cons.mp hx with rfl | hx
          · exact hlen x (by simp)
          · exact hlen' x hx

/-- `alloc_frames` preserves well-formedness of the free list. -/

theorem allocFrames_wf (runs : List PhysRegion) (n : Nat) (hwf : PmmWf runs) :
    ∀ a runs', allocFrames runs n = some (a, runs') → PmmWf runs' := by
  intro a runs' h
  obtain ⟨hlen, hpw⟩ := hwf
  unfold allocFrames at h
  cases hrec : allocGo runs.reverse n with
  | none => rw [hrec] at h; exact absurd h (by simp)
  | some v =>
    obtain ⟨a', rev'⟩ := v
    rw [hrec] at h
    obtain ⟨h1, h2⟩ := Prod.mk.injEq .. ▸ Option.some.injEq .. ▸ h
    obtain ⟨hpw', hlen'⟩ := allocGo_wfrev runs.reverse n
      (List.pairwise_reverse.mpr hpw)
      (fun r hr => hlen r (List.mem_reverse.mp hr)) a' rev' (by rw [hrec])
    subst h2
    constructor
    · intro r hr
      exact hlen' r (List.mem_reverse.mp hr)
    · exact List.pairwise_reverse.mp (by simpa using hpw')

/-- When every run above starts strictly beyond the new end, the
`next`-coalescing phase does nothing. -/

theorem rightPhase_no_merge (B : List PhysRegion) (b1 l1 : Nat)
    (h : ∀ r ∈ B, b1 + PAGE_SIZE * l1 < r.base) :
    rightPhase B b1 l1 = (l1, B) := by
  cases B with
  | nil => rfl
  | cons nx t =>
    have : b1 + PAGE_SIZE * l1 ≠ nx.base := Nat.ne_of_lt (h nx (by simp))
    simp [rightPhase, this]

/-- The `prev`-coalescing phase only rearranges additions in the run length
when the requested length changes. -/

theorem leftPhase_add (A : List PhysRegion) (b n m : Nat) :
    leftPhase A b (n + m) =
      ((leftPhase A b n).1, (leftPhase A b n).2.1, m + (leftPhase A b n).2.2) := by
  unfold leftPhase
  cases A.getLast? with
  | none => simp [Nat.add_comm]
  | some p =>
    by_cases h : p.stop = b <;> simp [h] <;> omega

/-- The `prev`-coalescing phase always merges an exactly contiguous last
run. -/

theorem leftPhase_concat_merge (A' : List PhysRegion) (x : PhysRegion)
    (base len : Nat) (h : x.stop = base) :
    leftPhase (A' ++ [x]) base len = (A', x.base, len + x.len) := by
  simp [leftPhase, List.getLast?_concat, h, List.dropLast_concat]

/-- Every reachable PMM state is well-formed. -/

theorem reachable_wf (s : List PhysRegion) (h : Reachable s) : PmmWf s := by
  induction h with
  | empty => exact ⟨by simp, by simp⟩
  | free hre hb hn hdisj heq ih =>
    rename_i s s' b n
    obtain ⟨A, B, hAB, hA, hB⟩ := exists_partition s b n ih hdisj
    rw [hAB] at heq
    rw [freeFrames, insertRegion_spec A B b n
      (fun a ha => (hA a ha).1)
      (fun r hr => le_trans (Nat.le_add_right _ _) (hB r hr))
      (fun a ha => (hA a ha).2) hB] at heq
    obtain rfl : insertionResult A B b n = s' := by
      simpa using heq
    exact insertionResult_wf A B b n (hAB ▸ ih) hA hB hn
  | alloc hre heq ih =>
    rename_i s s' a n
    exact allocFrames_wf s n ih a s' heq

/-- `alloc_frames` on a list whose suffix `B` (towards the tail) has no
fitting run and whose next run `r` fits: carve from the top of `r`. -/

theorem allocFrames_found (A B : List PhysRegion) (r : PhysRegion) (n : Nat)
    (hfit : n ≤ r.len) (hB : ∀ x ∈ B, x.len < n) :
    allocFrames (A ++ r :: B) n =
      some (r.base + PAGE_SIZE * (r.len - n),
        if r.len - n = 0 then A ++ B else A ++ ⟨r.base, r.len - n⟩ :: B) := by
  unfold allocFrames
  have hrev : (A ++ r :: B).reverse = B.reverse ++ r :: A.reverse := by
    simp
  rw [hrev, allocGo_prefix_small _ _ _ (fun x hx => hB x (List.mem_reverse.mp hx))]
  rw [show allocGo (r :: A.reverse) n =
    some (r.base + PAGE_SIZE * (r.len - n),
      if r.len - n = 0 then A.reverse else ⟨r.base, r.len - n⟩ :: A.reverse) from by
    simp [allocGo, hfit]]
  by_cases h0 : r.len - n = 0 <;> simp [h0]

/-- C4: For every `n > 0`, `alloc_frames(n)` walks the free list from the
tail toward the head, selects the first run (the one closest to the tail,
hence highest-addressed in a sorted list) with `len ≥ n`, returns
`run.base + PAGE_SIZE * (run.len - n)` after shrinking that run by `n`
frames (removing it when it reaches length zero); it returns `none` leaving
the list unchanged when no run fits.  In particular, from the empty
allocator, `free_frames(0x1000, 3); free_frames(0x4000, 2);
free_frames(0x6000, 1)` leaves the single run `{base := 0x1000, len := 6}`
and `alloc_frames(2)` then returns `0x5000`, leaving
`{base := 0x1000, len := 4}`. -/

theorem C4_alloc_frames_spec (A B : List PhysRegion) (r : PhysRegion) (n : Nat)
    (hn : 0 < n) (hfit : n ≤ r.len) (hB : ∀ x ∈ B, x.len < n) :
    allocFrames (A ++ r :: B) n =
      some (r.base + PAGE_SIZE * (r.len - n),
        if r.len - n = 0 then A ++ B else A ++ ⟨r.base, r.len - n⟩ :: B) ∧
    (∀ runs : List PhysRegion, (∀ x ∈ runs, x.len < n) →
      allocFrames runs n = none) ∧
    ((freeFrames [] 0x1000 3).bind (fun s1 => (freeFrames s1 0x4000 2).bind
        fun s2 => freeFrames s2 0x6000 1) = some [⟨0x1000, 6⟩] ∧
      allocFrames [⟨0x1000, 6⟩] 2 = some (0x5000, [⟨0x1000, 4⟩])) := by
  refine ⟨allocFrames_found A B r n hfit hB, ?_, by decide, by decide⟩
  intro runs hruns
  unfold allocFrames
  rw [allocGo_none _ _ fun x hx => hruns x (List.mem_reverse.mp hx)]

/-- Witness for C4 at a concrete state: two runs, the tail run fits. -/

theorem C4_alloc_frames_spec_witness :
    allocFrames [⟨0x1000, 1⟩, ⟨0x3000, 2⟩] 2 =
      some (0x3000, [⟨0x1000, 1⟩]) := by
  have h := C4_alloc_frames_spec [⟨0x1000, 1⟩] [] ⟨0x3000, 2⟩ 2
    (by decide) (by decide) (by decide)
  simpa using h.1

/-- C5: Freeing `[b, b + n·PAGE_SIZE)` and then `[b + n·PAGE_SIZE,
b + (n+m)·PAGE_SIZE)` produces exactly the same free list as freeing
`[b, b + (n+m)·PAGE_SIZE)` at once, for any well-formed state in which the
combined range overlaps no free run (the coalescing law). -/

theorem C5_free_frames_coalescing (s : List PhysRegion) (b n m : Nat)
    (hwf : PmmWf s) (hb : b % PAGE_SIZE = 0) (hn : 0 < n) (hm : 0 < m)
    (hdisj : ∀ r ∈ s, DisjointRun b (n + m) r) :
    (freeFrames s b n).bind
        (fun s1 => freeFrames s1 (b + n * PAGE_SIZE) m) =
      freeFrames s b (n + m) := by
  obtain ⟨A, B, hAB, hA, hB⟩ := exists_partition s b (n + m) hwf hdisj
  have hP : 0 < PAGE_SIZE := by norm_num [PAGE_SIZE]
  have hmul : n * PAGE_SIZE = PAGE_SIZE * n := Nat.mul_comm _ _
  have hBn : ∀ r ∈ B, b + PAGE_SIZE * n ≤ r.base := fun r hr =>
    le_trans (by have := Nat.mul_le_mul_left PAGE_SIZE (Nat.le_add_right n m); omega)
      (hB r hr)
  -- first insertion: `[b, b + n·P)`
  have h1 : freeFrames s b n = some (insertionResult A B b n) := by
    rw [hAB]
    exact insertRegion_spec A B b n (fun a ha => (hA a ha).1)
      (fun r hr => le_trans (Nat.le_add_right _ _) (hB r hr))
      (fun a ha => (hA a ha).2) hBn
  obtain ⟨hl1, hpw1, hsep1, heq1, hle1, hble1⟩ :=
    leftPhase_spec A b n
      ((List.pairwise_append.mp (hAB ▸ hwf.2)).1)
      (fun a ha => hwf.1 a (hAB ▸ List.mem_append_left _ ha))
      hA
  -- the first insertion cannot merge to the right (`m > 0` leaves a gap)
  have hno : rightPhase B (leftPhase A b n).2.1 (leftPhase A b n).2.2 =
      ((leftPhase A b n).2.2, B) := by
    refine rightPhase_no_merge B _ _ fun r hr => ?_
    have h2 := hB r hr
    have h3 : PAGE_SIZE * n + PAGE_SIZE * m = PAGE_SIZE * (n + m) := by
      rw [Nat.mul_add]
    have h4 : 0 < PAGE_SIZE * m := Nat.mul_pos hP hm
    omega
  have hres1 : insertionResult A B b n =
      (leftPhase A b n).1 ++
        (⟨(leftPhase A b n).2.1, (leftPhase A b n).2.2⟩ : PhysRegion) :: B := by
    simp only [insertionResult, hno]
  -- second insertion: `[b + n·P, b + (n+m)·P)` merges with the run just made
  have hA2 : ∀ a ∈ (leftPhase A b n).1 ++
      [(⟨(leftPhase A b n).2.1, (leftPhase A b n).2.2⟩ : PhysRegion)],
      a.base < b + n * PAGE_SIZE ∧ a.stop ≤ b + n * PAGE_SIZE := by
    intro a ha
    rcases List.mem_append.mp ha with ha | ha
    · have h2 := hsep1 a ha
      have h3 : a.base ≤ a.stop := Nat.le_add_right _ _
      have h4 : 0 < PAGE_SIZE * n := Nat.mul_pos hP hn
      constructor <;> omega
    · obtain rfl : a = ⟨(leftPhase A b n).2.1, (leftPhase A b n).2.2⟩ := by
        simpa using ha
      have h4 : 0 < PAGE_SIZE * n := Nat.mul_pos hP hn
      refine ⟨by simp only []; omega, ?_⟩
      show (leftPhase A b n).2.1 + PAGE_SIZE * (leftPhase A b n).2.2 ≤ _
      omega
  have hB2 : ∀ r ∈ B, (b + n * PAGE_SIZE) + PAGE_SIZE * m ≤ r.base := by
    intro r hr
    have h2 := hB r hr
    have h3 : PAGE_SIZE * n + PAGE_SIZE * m = PAGE_SIZE * (n + m) := by
      rw [Nat.mul_add]
    omega
  have h2 : freeFrames (insertionResult A B b n) (b + n * PAGE_SIZE) m =
      some (insertionResult
        ((leftPhase A b n).1 ++
          [(⟨(leftPhase A b n).2.1, (leftPhase A b n).2.2⟩ : PhysRegion)])
        B (b + n * PAGE_SIZE) m) := by
    rw [hres1, freeFrames,
      show (leftPhase A b n).1 ++
          (⟨(leftPhase A b n).2.1, (leftPhase A b n).2.2⟩ : PhysRegion) :: B =
        ((leftPhase A b n).1 ++
          [(⟨(leftPhase A b n).2.1, (leftPhase A b n).2.2⟩ : PhysRegion)]) ++ B from by
        simp]
    exact insertRegion_spec _ B (b + n * PAGE_SIZE) m
      (fun a ha => (hA2 a ha).1)
      (fun r hr => le_trans (Nat.le_add_right _ _) (hB2 r hr))
      (fun a ha => (hA2 a ha).2) hB2
  -- both sides now reduce to the same left part, length and right phase
  have hxstop : (⟨(leftPhase A b n).2.1, (leftPhase A b n).2.2⟩ : PhysRegion).stop
      = b + n * PAGE_SIZE := by
    show (leftPhase A b n).2.1 + PAGE_SIZE * (leftPhase A b n).2.2 = _
    omega
  have hsecond : insertionResult
      ((leftPhase A b n).1 ++
        [(⟨(leftPhase A b n).2.1, (leftPhase A b n).2.2⟩ : PhysRegion)])
      B (b + n * PAGE_SIZE) m = insertionResult A B b (n + m) := by
    unfold insertionResult
    rw [leftPhase_concat_merge _ _ _ _ hxstop, leftPhase_add A b n m]
  have h3 : freeFrames s b (n + m) = some (insertionResult A B b (n + m)) := by
    rw [hAB]
    exact insertRegion_spec A B b (n + m) (fun a ha => (hA a ha).1)
      (fun r hr => le_trans (Nat.le_add_right _ _) (hB r hr))
      (fun a ha => (hA a ha).2) hB
  rw [h1, Option.some_bind, h2, h3, hsecond]

/-- Witness for C5: the spec's seeding scenario, with `0x4000`–`0x5000`
freed in two pieces. -/

theorem C5_free_frames_coalescing_witness :
    (freeFrames [⟨0x1000, 3⟩] 0x4000 1).bind
        (fun s1 => freeFrames s1 (0x4000 + 1 * PAGE_SIZE) 2) =
      freeFrames [⟨0x1000, 3⟩] 0x4000 (1 + 2) :=
  C5_free_frames_coalescing [⟨0x1000, 3⟩] 0x4000 1 2
    (by decide) (by decide) (by decide) (by decide) (by decide)

/-- C6: In every PMM state reachable from the empty allocator by
`free_frames` calls (page-aligned, positive, non-overlapping arguments) and
`alloc_frames` calls, the free list is strictly sorted by `base`, and every
adjacent pair `(a, b)` satisfies `a.base + PAGE_SIZE * a.len < b.base`
strictly. -/

theorem C6_pmm_invariant (s : List PhysRegion) (h : Reachable s) :
    (s.Pairwise fun a b => a.base < b.base) ∧
    (s.Chain' fun a b => a.base + PAGE_SIZE * a.len < b.base) := by
  obtain ⟨hlen, hpw⟩ := reachable_wf s h
  constructor
  · refine hpw.imp ?_
    intro a b hsep
    have : a.base ≤ a.stop := Nat.le_add_right _ _
    unfold Separated at hsep
    omega
  · exact List.Pairwise.chain' (hpw.imp fun hsep => hsep)

/-- Witness for C6: the state after the spec's seeding scenario plus one
allocation is reachable and satisfies the invariant. -/

theorem C6_pmm_invariant_witness :
    ([⟨0x1000, 4⟩] : List PhysRegion).Pairwise (fun a b => a.base < b.base) ∧
    ([⟨0x1000, 4⟩] : List PhysRegion).Chain'
      (fun a b => a.base + PAGE_SIZE * a.len < b.base) := by
  refine C6_pmm_invariant _ ?_
  have h1 : Reachable [⟨0x1000, 3⟩] :=
    Reachable.free Reachable.empty (b := 0x1000) (n := 3)
      (by decide) (by decide) (by decide) (by decide)
  have h2 : Reachable [⟨0x1000, 5⟩] :=
    Reachable.free h1 (b := 0x4000) (n := 2)
      (by decide) (by decide) (by decide) (by decide)
  have h3 : Reachable [⟨0x1000, 6⟩] :=
    Reachable.free h2 (b := 0x6000) (n := 1)
      (by decide) (by decide) (by decide) (by decide)
  exact Reachable.alloc h3 (a := 0x5000) (n := 2) (by decide)

/-- C1: evaluation of the protection map `map_pages` consults
(`MMU_INFO.protmap`, populated during `init`) at the failing input: with
`EXECUTE_DISABLE` probed (so `nx_bit` ends up as `NO_EXECUTE`), the entry
for read-only (no-exec) protection still lacks the NX bit, because `init`
builds the table from `nx_bit` before setting it.  The unused `PROT_MAP`
lazy, built after probing, does contain NX for the same protection — the
claim describes that intended table.  (The WRITE and USER clauses of the
claim do hold even in the table `init` builds.) -/

theorem C1_protmap_nx_missing :
    (mmuInit ⟨false, true, false, false⟩).nx_bit = PteFlags.NO_EXECUTE ∧
    Nat.testBit
      (protMapGet (mmuInit ⟨false, true, false, false⟩).protmap
        ⟨false, false, true, false⟩) 63 = false ∧
    (mmuInit ⟨false, true, false, false⟩).protmap = protMapNew 0 ∧
    Nat.testBit
      (protMapGet (protMapLazy ⟨false, true, false, false⟩)
        ⟨false, false, true, false⟩) 63 = true := by
  decide

/-- C3: evaluation of the dispatcher at the failing input, a page-fault
frame (`info = 14`, user-mode `cs`, `error = 0x4`).  `(info & 0xff) < 32`
does classify it as an exception, but `TrapFrame::exception` is a stub that
always returns `None` (the x86_64 build has no exception-name table), so
`dispatch` falls through to `todo!("lmao")` instead of panicking with the
name "page fault" as the claim states. -/

theorem C3_dispatch_page_fault_stub :
    TrapFrame.is_exception { info := 14, cs := 0x2b, error := 0x4 } = true ∧
    TrapFrame.exception { info := 14, cs := 0x2b, error := 0x4 } = none ∧
    dispatch { info := 14, cs := 0x2b, error := 0x4 } = .todoPanic "lmao" ∧
    ∀ name : String,
      dispatch { info := 14, cs := 0x2b, error := 0x4 } ≠
        .fatalException name := by
  refine ⟨by decide, rfl, rfl, ?_⟩
  intro name h
  simp [dispatch, TrapFrame.exception] at h

/-- C7: evaluation of the IDT builder at the failing input, vector `0x80`:
because `Dpl::User as u128` (= 3) is shifted by 46 rather than 45, the
two-bit architectural DPL field (bits 45–46) of the system-call gate reads
2, not 3 as the claim states (the stray high bit lands on bit 47, the
present bit, which `0x8e << 40` had already set).  This holds for sample
stub addresses of both canonical halves, and the field is 0 for every other
sampled vector. -/

theorem C7_idt_syscall_dpl_is_two :
    dplField (idtInit (fun _ => 0) 0x80) = 2 ∧
    dplField (idtInit (fun _ => 0xffffffff80102030) 0x80) = 2 ∧
    dplField (idtInit (fun _ => 0x00007fffdeadbeef) 0x80) = 2 ∧
    dplField (idtInit (fun _ => 0xffffffff80102030) 0x80) ≠ 3 ∧
    dplField (idtInit (fun _ => 0xffffffff80102030) 14) = 0 ∧
    dplField (idtInit (fun _ => 0xffffffff80102030) 0) = 0 := by
  decide

/-- C9: On every execution of the x86_64 trap `init` — whether or not it is
the first call (the only configuration-dependent part, the `run_once!` IDT
fill) and for any entry-point addresses — the final action is a volatile
one-byte read from the fixed address `0xcafebabecafebabe`, which lies inside
the noncanonical hole of the 4-level configuration. -/

theorem C9_trap_init_wild_read (firstRun : Bool)
    (sysenterEntry syscallEntry : Nat) :
    (trapInit firstRun sysenterEntry syscallEntry).getLast? =
      some (TrapInitEffect.volatileRead 0xcafebabecafebabe) ∧
    initialMmuInfo.hole_lo ≤ 0xcafebabecafebabe ∧
    0xcafebabecafebabe < initialMmuInfo.hole_hi := by
  refine ⟨?_, by decide, by decide⟩
  cases firstRun <;> rfl

/-- Witness for C9 (its binders are data, not propositions, but a concrete
instance is still recorded): the second call with both entry points at
sample addresses ends in the wild read. -/

theorem C9_trap_init_wild_read_witness :
    (trapInit false 0xffffffff80200000 0xffffffff80201000).getLast? =
      some (TrapInitEffect.volatileRead 0xcafebabecafebabe) ∧
    initialMmuInfo.hole_lo ≤ 0xcafebabecafebabe ∧
    0xcafebabecafebabe < initialMmuInfo.hole_hi :=
  C9_trap_init_wild_read false 0xffffffff80200000 0xffffffff80201000

/-! ### Bit-level facts about `Pte` -/

theorem PAGE_SIZE_eq : PAGE_SIZE = 2 ^ 12 := rfl

theorem present_iff_testBit (e : Nat) : Pte.present e = e.testBit 0 := by
  unfold Pte.present PteFlags.PRESENT
  rw [show (1 <<< 0 : Nat) = 1 from rfl, Nat.and_one_is_mod, Nat.testBit_zero]
  rcases Nat.mod_two_eq_zero_or_one e with h | h <;> simp [h]

theorem huge_iff_testBit (e : Nat) : Pte.huge e = e.testBit 7 := by
  unfold Pte.huge PteFlags.HUGE
  rw [show (1 <<< 7 : Nat) = 2 ^ 7 from rfl, Nat.and_two_pow]
  cases h : e.testBit 7 <;> simp

theorem present_or (x y : Nat) :
    Pte.present (x ||| y) = (Pte.present x || Pte.present y) := by
  simp [present_iff_testBit]

theorem huge_or (x y : Nat) :
    Pte.huge (x ||| y) = (Pte.huge x || Pte.huge y) := by
  simp [huge_iff_testBit]

theorem aligned_testBit_lo {p i : Nat} (h : p % PAGE_SIZE = 0) (hi : i < 12) :
    p.testBit i = false := by
  have h2 := Nat.testBit_mod_two_pow p 12 i
  rw [PAGE_SIZE_eq] at h
  rw [h] at h2
  simp only [Nat.zero_testBit, decide_eq_true hi, Bool.true_and] at h2
  exact h2.symm

theorem aligned_not_present {p : Nat} (h : p % PAGE_SIZE = 0) :
    Pte.present p = false := by
  rw [present_iff_testBit]
  exact aligned_testBit_lo h (by norm_num)

theorem aligned_not_huge {p : Nat} (h : p % PAGE_SIZE = 0) :
    Pte.huge p = false := by
  rw [huge_iff_testBit]
  exact aligned_testBit_lo h (by norm_num)

theorem mask_testBit (i : Nat) :
    Pte.ADDR_MASK.testBit i = decide (12 ≤ i ∧ i < 52) := by
  have h : Pte.ADDR_MASK = (2 ^ 40 - 1) <<< 12 := by decide
  rw [h, Nat.testBit_shiftLeft, Nat.testBit_two_pow_sub_one]
  rcases Nat.lt_or_ge i 12 with h1 | h1
  · rw [decide_eq_false (show ¬ i ≥ 12 by omega),
      decide_eq_false (show ¬ (12 ≤ i ∧ i < 52) by omega)]
    simp
  · by_cases h2 : i < 52
    · rw [decide_eq_true (show i ≥ 12 by omega),
        decide_eq_true (show i - 12 < 40 by omega),
        decide_eq_true (show 12 ≤ i ∧ i < 52 from ⟨h1, h2⟩)]
      simp
    · rw [decide_eq_true (show i ≥ 12 by omega),
        decide_eq_false (show ¬ i - 12 < 40 by omega),
        decide_eq_false (show ¬ (12 ≤ i ∧ i < 52) by omega)]
      simp

theorem aligned_and_mask {p : Nat} (h1 : p % PAGE_SIZE = 0) (h2 : p < 2 ^ 52) :
    p &&& Pte.ADDR_MASK = p := by
  apply Nat.eq_of_testBit_eq
  intro i
  rw [Nat.testBit_and, mask_testBit]
  by_cases hlo : i < 12
  · simp [aligned_testBit_lo h1 hlo]
  · by_cases hhi : i < 52
    · simp [Nat.not_lt.mp hlo, hhi]
    · have : p.testBit i = false := Nat.testBit_lt_two_pow
        (lt_of_lt_of_le h2 (Nat.pow_le_pow_right (by norm_num) (by omega)))
      simp [this]

theorem addr_lt (e : Nat) : Pte.addr e < 2 ^ 52 :=
  Nat.and_lt_two_pow e (by norm_num [Pte.ADDR_MASK])

theorem addr_and_4095 (e : Nat) : Pte.addr e &&& 4095 = 0 := by
  rw [Pte.addr, Nat.and_assoc,
    show (Pte.ADDR_MASK &&& 4095 : Nat) = 0 from by decide, Nat.and_zero]

theorem addr_aligned (e : Nat) : Pte.addr e % PAGE_SIZE = 0 := by
  have h := addr_and_4095 e
  rw [show (4095 : Nat) = 2 ^ 12 - 1 from by decide,
    Nat.and_pow_two_sub_one_eq_mod] at h
  rw [PAGE_SIZE_eq]
  exact h

theorem addr_new {p f : Nat} (hp : p &&& Pte.ADDR_MASK = p)
    (hf : f &&& Pte.ADDR_MASK = 0) : Pte.addr (Pte.new p f) = p := by
  rw [Pte.addr, Pte.new, Nat.and_distrib_right, hp, hf, Nat.or_zero]

theorem addr_or_flags {f : Nat} (e : Nat) (hf : f &&& Pte.ADDR_MASK = 0) :
    Pte.addr (e ||| f) = Pte.addr e := by
  rw [Pte.addr, Nat.and_distrib_right, hf, Nat.or_zero, Pte.addr]

theorem parent_flags_and_mask : PARENT_FLAGS &&& Pte.ADDR_MASK = 0 := by
  decide

theorem addr_or_parent (e : Nat) :
    Pte.addr (e ||| PARENT_FLAGS) = Pte.addr e :=
  addr_or_flags e parent_flags_and_mask

theorem present_or_parent (e : Nat) :
    Pte.present (e ||| PARENT_FLAGS) = Pte.present e := by
  rw [present_or, show Pte.present PARENT_FLAGS = false from by decide,
    Bool.or_false]

theorem huge_or_parent (e : Nat) :
    Pte.huge (e ||| PARENT_FLAGS) = Pte.huge e := by
  rw [huge_or, show Pte.huge PARENT_FLAGS = false from by decide, Bool.or_false]

/-! ### Memory-layer lemmas -/

theorem readPte_writePte (s : HatState) (T i v T' i' : Nat) :
    readPte (writePte s T i v) T' i' =
      if T' + 8 * i' = T + 8 * i then v else readPte s T' i' := rfl

theorem readPte_writePte_self (s : HatState) (T i v : Nat) :
    readPte (writePte s T i v) T i = v := by
  rw [readPte_writePte, if_pos rfl]

theorem slot_eq_iff {T T' i i' : Nat} (hT : T % PAGE_SIZE = 0)
    (hT' : T' % PAGE_SIZE = 0) (hi : i < PTES_PER_TABLE)
    (hi' : i' < PTES_PER_TABLE) :
    T + 8 * i = T' + 8 * i' ↔ T = T' ∧ i = i' := by
  have e1 : PAGE_SIZE = 4096 := rfl
  have e2 : PTES_PER_TABLE = 512 := rfl
  rw [e1] at hT hT'
  rw [e2] at hi hi'
  constructor
  · intro h
    omega
  · rintro ⟨rfl, rfl⟩
    rfl

theorem readPte_writePte_other {T T' i i' : Nat} (s : HatState) (v : Nat)
    (hT : T % PAGE_SIZE = 0) (hT' : T' % PAGE_SIZE = 0)
    (hi : i < PTES_PER_TABLE) (hi' : i' < PTES_PER_TABLE)
    (hne : ¬ (T' = T ∧ i' = i)) :
    readPte (writePte s T i v) T' i' = readPte s T' i' := by
  rw [readPte_writePte, if_neg]
  intro h
  exact hne ((slot_eq_iff hT' hT hi' hi).mp h)

theorem writePte_next (s : HatState) (T i v : Nat) :
    (writePte s T i v).next = s.next := rfl

theorem writePte_topLevel (s : HatState) (T i v : Nat) :
    (writePte s T i v).topLevel = s.topLevel := rfl

theorem writePte_freshBase (s : HatState) (T i v : Nat) :
    (writePte s T i v).freshBase = s.freshBase := rfl

theorem writePte_mappedPages (s : HatState) (T i v : Nat) :
    (writePte s T i v).mappedPages = s.mappedPages := rfl

theorem alloc_fst (s : HatState) :
    (allocPageTable s).1 = s.freshBase + PAGE_SIZE * s.next := rfl

theorem alloc_next (s : HatState) :
    (allocPageTable s).2.next = s.next + 1 := rfl

theorem alloc_topLevel (s : HatState) :
    (allocPageTable s).2.topLevel = s.topLevel := rfl

theorem alloc_freshBase (s : HatState) :
    (allocPageTable s).2.freshBase = s.freshBase := rfl

theorem alloc_mappedPages (s : HatState) :
    (allocPageTable s).2.mappedPages = s.mappedPages := rfl

theorem fresh_aligned {s : HatState} (h : s.freshBase % PAGE_SIZE = 0) :
    (s.freshBase + PAGE_SIZE * s.next) % PAGE_SIZE = 0 := by
  have e1 : PAGE_SIZE = 4096 := rfl
  rw [e1] at h ⊢
  omega

theorem readPte_alloc_low {s : HatState} {T : Nat} (i : Nat)
    (hT : T % PAGE_SIZE = 0) (hfa : s.freshBase % PAGE_SIZE = 0)
    (hlt : T < s.freshBase + PAGE_SIZE * s.next) (hi : i < PTES_PER_TABLE) :
    readPte (allocPageTable s).2 T i = readPte s T i := by
  show (if s.freshBase + PAGE_SIZE * s.next ≤ T + 8 * i ∧
      T + 8 * i < s.freshBase + PAGE_SIZE * s.next + PAGE_SIZE
    then 0 else s.mem (T + 8 * i)) = s.mem (T + 8 * i)
  rw [if_neg]
  have e1 : PAGE_SIZE = 4096 := rfl
  have e2 : PTES_PER_TABLE = 512 := rfl
  rw [e1] at hT hfa hlt ⊢
  rw [e2] at hi
  rintro ⟨h1, h2⟩
  omega

theorem readPte_alloc_fresh (s : HatState) (i : Nat) (hi : i < PTES_PER_TABLE) :
    readPte (allocPageTable s).2 (s.freshBase + PAGE_SIZE * s.next) i = 0 := by
  show (if s.freshBase + PAGE_SIZE * s.next ≤
        s.freshBase + PAGE_SIZE * s.next + 8 * i ∧
      s.freshBase + PAGE_SIZE * s.next + 8 * i <
        s.freshBase + PAGE_SIZE * s.next + PAGE_SIZE
    then 0
    else s.mem (s.freshBase + PAGE_SIZE * s.next + 8 * i)) = 0
  rw [if_pos]
  have e1 : PAGE_SIZE = 4096 := rfl
  have e2 : PTES_PER_TABLE = 512 := rfl
  rw [e1] at *
  rw [e2] at hi
  constructor <;> omega

theorem indexFor_lt (virt level : Nat) : indexFor virt level < PTES_PER_TABLE := by
  unfold indexFor PTES_PER_TABLE PAGE_SIZE
  rw [show (0x1ff : Nat) = 2 ^ 9 - 1 from by decide, Nat.and_pow_two_sub_one_eq_mod]
  exact Nat.mod_lt _ (by norm_num)

theorem pagePath_length (virt mapLevel : Nat) :
    ∀ k, (pagePath virt mapLevel k).length = k := by
  intro k
  induction k with
  | zero => rfl
  | succ k ih => simp [pagePath, ih]

theorem walkTbl_eq_tableFrom (s : HatState) (virt mapLevel : Nat) :
    ∀ k t, walkTbl s virt mapLevel k t = tableFrom s t (pagePath virt mapLevel k) := by
  intro k
  induction k with
  | zero => intro t; rfl
  | succ k ih =>
    intro t
    rw [walkTbl, pagePath, tableFrom]
    by_cases hp : Pte.present (readPte s t (indexFor virt (mapLevel + (k + 1))))
    · by_cases hh : Pte.huge (readPte s t (indexFor virt (mapLevel + (k + 1))))
      · rw [if_pos hp, if_pos hh, if_neg]
        simp [hh]
      · rw [if_pos hp, if_neg hh, if_pos ⟨indexFor_lt _ _, hp, by simp [hh]⟩, ih]
    · rw [if_neg hp, if_neg]
      simp [hp]

theorem tableFrom_append (s : HatState) (q p : List Nat) : ∀ t,
    tableFrom s t (q ++ p) = (tableFrom s t q).bind fun u => tableFrom s u p := by
  induction q with
  | nil => intro t; rfl
  | cons i is ih =>
    intro t
    rw [List.cons_append, tableFrom, tableFrom]
    by_cases h : i < PTES_PER_TABLE ∧
        Pte.present (readPte s t i) = true ∧ Pte.huge (readPte s t i) = false
    · rw [if_pos h, if_pos h, ih]
    · rw [if_neg h, if_neg h]
      rfl

theorem tableFrom_aligned {s : HatState} : ∀ p {t u : Nat},
    t % PAGE_SIZE = 0 → t < 2 ^ 52 → tableFrom s t p = some u →
    u % PAGE_SIZE = 0 ∧ u < 2 ^ 52 := by
  intro p
  induction p with
  | nil =>
    intro t u h1 h2 h3
    obtain rfl : t = u := by simpa [tableFrom] using h3
    exact ⟨h1, h2⟩
  | cons i is ih =>
    intro t u h1 h2 h3
    rw [tableFrom] at h3
    by_cases h : i < PTES_PER_TABLE ∧
        Pte.present (readPte s t i) = true ∧ Pte.huge (readPte s t i) = false
    · rw [if_pos h] at h3
      exact ih (addr_aligned _) (addr_lt _) h3
    · rw [if_neg h] at h3
      exact absurd h3 (by simp)

/-- Every table on a present walk is aligned and below `2^52`. -/

theorem walkTbl_aligned {s : HatState} (hwf : HatWf s) {virt mapLevel k T : Nat}
    (h : walkTbl s virt mapLevel k s.topLevel = some T) :
    T % PAGE_SIZE = 0 ∧ T < 2 ^ 52 := by
  rw [walkTbl_eq_tableFrom] at h
  exact tableFrom_aligned _ hwf.topAligned hwf.topLt h

/-- Every table on a present walk lies below the allocator's watermark. -/

theorem walkTbl_bound {s : HatState} (hwf : HatWf s) {virt mapLevel k T : Nat}
    (hk : k ≤ 3) (h : walkTbl s virt mapLevel k s.topLevel = some T) :
    T < s.freshBase + PAGE_SIZE * s.next := by
  rw [walkTbl_eq_tableFrom] at h
  exact hwf.bound _ _ (by rw [pagePath_length]; exact hk) h

/-! ### Effect of the parent-flag upgrade write -/

/-- OR-ing `PARENT_FLAGS` into a present entry changes no position: the
entry keeps its presence, huge bit and address. -/

theorem tableFrom_upgrade {s : HatState} {T i : Nat}
    (hT : T % PAGE_SIZE = 0) (hi : i < PTES_PER_TABLE)
    (hpres : Pte.present (readPte s T i) = true) :
    ∀ p t, t % PAGE_SIZE = 0 →
      tableFrom (writePte s T i (readPte s T i ||| PARENT_FLAGS)) t p =
        tableFrom s t p := by
  intro p
  induction p with
  | nil => intro t ht; rfl
  | cons j js ih =>
    intro t ht
    rw [tableFrom, tableFrom]
    by_cases hj : j < PTES_PER_TABLE
    · by_cases hcol : t = T ∧ j = i
      · obtain ⟨rfl, rfl⟩ := hcol
        rw [readPte_writePte_self, present_or_parent, huge_or_parent,
          addr_or_parent]
        by_cases hc : j < PTES_PER_TABLE ∧
            Pte.present (readPte s t j) = true ∧ Pte.huge (readPte s t j) = false
        · rw [if_pos hc, if_pos hc, ih _ (addr_aligned _)]
        · rw [if_neg hc, if_neg hc]
      · rw [readPte_writePte_other s _ hT ht hi hj hcol]
        by_cases hc : j < PTES_PER_TABLE ∧
            Pte.present (readPte s t j) = true ∧ Pte.huge (readPte s t j) = false
        · rw [if_pos hc, if_pos hc, ih _ (addr_aligned _)]
        · rw [if_neg hc, if_neg hc]
    · rw [if_neg (fun hc => hj hc.1), if_neg (fun hc => hj hc.1)]

theorem walkTbl_upgrade {s : HatState} {T i : Nat}
    (hT : T % PAGE_SIZE = 0) (hi : i < PTES_PER_TABLE)
    (hpres : Pte.present (readPte s T i) = true)
    (virt mapLevel k : Nat) {t : Nat} (ht : t % PAGE_SIZE = 0) :
    walkTbl (writePte s T i (readPte s T i ||| PARENT_FLAGS)) virt mapLevel k t =
      walkTbl s virt mapLevel k t := by
  rw [walkTbl_eq_tableFrom, walkTbl_eq_tableFrom,
    tableFrom_upgrade hT hi hpres _ _ ht]

/-- The upgrade write preserves well-formedness. -/

theorem wf_upgrade {s : HatState} {T i : Nat}
    (hwf : HatWf s) (hT : T % PAGE_SIZE = 0) (hi : i < PTES_PER_TABLE)
    (hpres : Pte.present (readPte s T i) = true) :
    HatWf (writePte s T i (readPte s T i ||| PARENT_FLAGS)) := by
  constructor
  · exact hwf.topAligned
  · exact hwf.topLt
  · exact hwf.freshAligned
  · intro p₁ p₂ t h1 h2 h3 h4
    rw [writePte_topLevel, tableFrom_upgrade hT hi hpres _ _ hwf.topAligned]
      at h3 h4
    exact hwf.inj p₁ p₂ t h1 h2 h3 h4
  · intro p t h1 h2
    rw [writePte_topLevel, tableFrom_upgrade hT hi hpres _ _ hwf.topAligned] at h2
    exact hwf.bound p t h1 h2

/-! ### Effect of installing a fresh child table into an absent slot -/

section Install

variable {s : HatState} {T i : Nat}

theorem installChild_topLevel : (installChild s T i).topLevel = s.topLevel := rfl

theorem installChild_freshBase : (installChild s T i).freshBase = s.freshBase := rfl

theorem installChild_next : (installChild s T i).next = s.next + 1 := rfl

theorem installChild_mappedPages :
    (installChild s T i).mappedPages = s.mappedPages := rfl

theorem watermark_def (s : HatState) :
    watermark s = s.freshBase + PAGE_SIZE * s.next := rfl

theorem install_value_present (hfa : s.freshBase % PAGE_SIZE = 0) :
    Pte.present (Pte.new (allocPageTable s).1 PteFlags.PRESENT ||| PARENT_FLAGS)
      = true := by
  rw [present_or_parent, Pte.new, present_or, alloc_fst,
    aligned_not_present (fresh_aligned hfa)]
  decide

theorem install_value_not_huge (hfa : s.freshBase % PAGE_SIZE = 0) :
    Pte.huge (Pte.new (allocPageTable s).1 PteFlags.PRESENT ||| PARENT_FLAGS)
      = false := by
  rw [huge_or_parent, Pte.new, huge_or, alloc_fst,
    aligned_not_huge (fresh_aligned hfa)]
  decide

theorem install_value_addr (hfa : s.freshBase % PAGE_SIZE = 0)
    (hroom : watermark s < 2 ^ 52) :
    Pte.addr (Pte.new (allocPageTable s).1 PteFlags.PRESENT ||| PARENT_FLAGS)
      = watermark s := by
  rw [addr_or_parent, alloc_fst]
  rw [watermark_def] at hroom
  exact addr_new (aligned_and_mask (fresh_aligned hfa) hroom) (by decide)

/-- Reads away from the installed slot and below the watermark are
unchanged. -/

theorem readPte_installChild_other {U row : Nat}
    (hfa : s.freshBase % PAGE_SIZE = 0) (hT : T % PAGE_SIZE = 0)
    (hU : U % PAGE_SIZE = 0) (hi : i < PTES_PER_TABLE)
    (hrow : row < PTES_PER_TABLE) (hUb : U < watermark s)
    (hne : ¬ (U = T ∧ row = i)) :
    readPte (installChild s T i) U row = readPte s U row := by
  unfold installChild
  rw [readPte_writePte_other _ _ hT hU hi hrow hne]
  exact readPte_alloc_low row hU hfa hUb hrow

/-- The installed slot holds the fresh pointer. -/

theorem readPte_installChild_self :
    readPte (installChild s T i) T i =
      Pte.new (allocPageTable s).1 PteFlags.PRESENT ||| PARENT_FLAGS := by
  unfold installChild
  exact readPte_writePte_self _ _ _ _

/-- Reads inside the fresh table, except at the installed slot, are zero. -/

theorem readPte_installChild_fresh {row : Nat}
    (hfa : s.freshBase % PAGE_SIZE = 0)
    (hT : T % PAGE_SIZE = 0) (hTb : T < watermark s)
    (hi : i < PTES_PER_TABLE) (hrow : row < PTES_PER_TABLE) :
    readPte (installChild s T i) (watermark s) row = 0 := by
  unfold installChild
  rw [watermark_def] at hTb ⊢
  rw [readPte_writePte_other _ _ hT (fresh_aligned hfa) hi hrow
    (fun h => absurd h.1 (Nat.ne_of_gt hTb))]
  exact readPte_alloc_fresh s row hrow

end Install

section InstallCore

variable {s : HatState} {T i : Nat}

/-- Positions present before the install are unchanged by it. -/

theorem tableFrom_installChild_mono (hwf : HatWf s)
    (hT : T % PAGE_SIZE = 0) (hi : i < PTES_PER_TABLE)
    (habs : Pte.present (readPte s T i) = false) :
    ∀ p q t u, q.length + p.length ≤ 3 →
      tableFrom s s.topLevel q = some t →
      tableFrom s t p = some u →
      tableFrom (installChild s T i) t p = some u := by
  intro p
  induction p with
  | nil => intro q t u _ _ h; exact h
  | cons j js ih =>
    intro q t u hlen hq h
    obtain ⟨ht, htlt⟩ := tableFrom_aligned q hwf.topAligned hwf.topLt hq
    have htb : t < watermark s := hwf.bound q t (by omega) hq
    rw [tableFrom] at h
    by_cases hc : j < PTES_PER_TABLE ∧
        Pte.present (readPte s t j) = true ∧ Pte.huge (readPte s t j) = false
    · rw [if_pos hc] at h
      have hne : ¬ (t = T ∧ j = i) := by
        rintro ⟨rfl, rfl⟩
        rw [habs] at hc
        exact absurd hc.2.1 (by simp)
      have hread := readPte_installChild_other (T := T) (i := i)
        hwf.freshAligned hT ht hi hc.1 htb hne
      rw [tableFrom, hread, if_pos hc]
      have hq' : tableFrom s s.topLevel (q ++ [j]) =
          some (Pte.addr (readPte s t j)) := by
        rw [tableFrom_append, hq, Option.some_bind, tableFrom, if_pos hc]
        rfl
      exact ih (q ++ [j]) _ u (by simp at hlen ⊢; omega) hq' h
    · rw [if_neg hc] at h
      exact absurd h (by simp)

/-- Below the fresh table nothing is reachable: its entries are zero. -/

theorem tableFrom_installChild_fresh_dead (hfa : s.freshBase % PAGE_SIZE = 0)
    (hT : T % PAGE_SIZE = 0) (hTb : T < watermark s)
    (hi : i < PTES_PER_TABLE) (j : Nat) (js : List Nat) :
    tableFrom (installChild s T i) (watermark s) (j :: js) = none := by
  rw [tableFrom]
  by_cases hj : j < PTES_PER_TABLE
  · rw [readPte_installChild_fresh hfa hT hTb hi hj, if_neg]
    rintro ⟨-, hpr, -⟩
    rw [show Pte.present 0 = false from by decide] at hpr
    exact absurd hpr (by simp)
  · rw [if_neg (fun hc => hj hc.1)]

/-- Positions present after the install were present before, except the
single new position holding the fresh table. -/

theorem tableFrom_installChild_rev (hwf : HatWf s)
    (hT : T % PAGE_SIZE = 0) (hi : i < PTES_PER_TABLE)
    (habs : Pte.present (readPte s T i) = false)
    (hroom : watermark s < 2 ^ 52) :
    ∀ p q t u, q.length + p.length ≤ 3 →
      tableFrom s s.topLevel q = some t →
      tableFrom (installChild s T i) t p = some u →
      tableFrom s t p = some u ∨
        (∃ p₁, p = p₁ ++ [i] ∧ tableFrom s t p₁ = some T ∧ u = watermark s) := by
  intro p
  induction p with
  | nil => intro q t u _ _ h; exact Or.inl h
  | cons j js ih =>
    intro q t u hlen hq h
    obtain ⟨ht, htlt⟩ := tableFrom_aligned q hwf.topAligned hwf.topLt hq
    have htb : t < watermark s := hwf.bound q t (by omega) hq
    rw [tableFrom] at h
    by_cases hcol : t = T ∧ j = i
    · obtain ⟨rfl, rfl⟩ := hcol
      rw [readPte_installChild_self, if_pos ⟨hi,
        install_value_present hwf.freshAligned,
        install_value_not_huge hwf.freshAligned⟩] at h
      rw [install_value_addr hwf.freshAligned hroom] at h
      cases js with
      | nil =>
        obtain rfl : watermark s = u := by simpa [tableFrom] using h
        exact Or.inr ⟨[], rfl, rfl, rfl⟩
      | cons j' js' =>
        rw [tableFrom_installChild_fresh_dead hwf.freshAligned hT htb hi] at h
        exact absurd h (by simp)
    · by_cases hj : j < PTES_PER_TABLE
      · have hread := readPte_installChild_other (T := T) (i := i)
          hwf.freshAligned hT ht hi hj htb hcol
        rw [hread] at h
        by_cases hc : j < PTES_PER_TABLE ∧
            Pte.present (readPte s t j) = true ∧ Pte.huge (readPte s t j) = false
        · rw [if_pos hc] at h
          have hq' : tableFrom s s.topLevel (q ++ [j]) =
              some (Pte.addr (readPte s t j)) := by
            rw [tableFrom_append, hq, Option.some_bind, tableFrom, if_pos hc]
            rfl
          rcases ih (q ++ [j]) _ u (by simp at hlen ⊢; omega) hq' h with h1 | ⟨p₁, rfl, hp₁, hu⟩
          · left
            rw [tableFrom, if_pos hc]
            exact h1
          · right
            exact ⟨j :: p₁, by rw [List.cons_append],
              by rw [tableFrom, if_pos hc]; exact hp₁, hu⟩
        · rw [if_neg hc] at h
          exact absurd h (by simp)
      · rw [if_neg (fun hc => hj hc.1)] at h
        exact absurd h (by simp)

/-- The install makes the fresh table reachable at exactly the position
below the written slot. -/

theorem tableFrom_installChild_new (hwf : HatWf s)
    (hT : T % PAGE_SIZE = 0) (hi : i < PTES_PER_TABLE)
    (habs : Pte.present (readPte s T i) = false)
    (hroom : watermark s < 2 ^ 52)
    {qT : List Nat} (hqT : tableFrom s s.topLevel qT = some T)
    (hlen : qT.length ≤ 2) :
    tableFrom (installChild s T i) s.topLevel (qT ++ [i]) =
      some (watermark s) := by
  have h1 : tableFrom (installChild s T i) s.topLevel qT = some T :=
    tableFrom_installChild_mono hwf hT hi habs qT [] s.topLevel T
      (by simpa using by omega) rfl hqT
  rw [tableFrom_append, h1, Option.some_bind, tableFrom,
    readPte_installChild_self, if_pos ⟨hi,
      install_value_present hwf.freshAligned,
      install_value_not_huge hwf.freshAligned⟩,
    install_value_addr hwf.freshAligned hroom]
  rfl

/-- The install preserves well-formedness. -/

theorem wf_installChild (hwf : HatWf s)
    (hT : T % PAGE_SIZE = 0) (hi : i < PTES_PER_TABLE)
    (habs : Pte.present (readPte s T i) = false)
    (hroom : watermark s < 2 ^ 52) :
    HatWf (installChild s T i) := by
  have htop : (installChild s T i).topLevel = s.topLevel := rfl
  constructor
  · rw [htop]; exact hwf.topAligned
  · rw [htop]; exact hwf.topLt
  · rw [show (installChild s T i).freshBase = s.freshBase from rfl]
    exact hwf.freshAligned
  · intro p₁ p₂ t h1 h2 h3 h4
    rw [htop] at h3 h4
    rcases tableFrom_installChild_rev hwf hT hi habs hroom p₁ [] s.topLevel t
        (by simpa using h1) rfl h3 with ha | ⟨a, rfl, hq1, rfl⟩
    · rcases tableFrom_installChild_rev hwf hT hi habs hroom p₂ [] s.topLevel t
          (by simpa using h2) rfl h4 with hb | ⟨b, rfl, hq2, rfl⟩
      · exact hwf.inj p₁ p₂ t h1 h2 ha hb
      · have := hwf.bound p₁ _ h1 ha
        exact absurd this (by rw [watermark_def] at *; omega)
    · rcases tableFrom_installChild_rev hwf hT hi habs hroom p₂ [] s.topLevel
          (watermark s) (by simpa using h2) rfl h4 with hb | ⟨b, rfl, hq2, hu2⟩
      · have := hwf.bound p₂ _ h2 hb
        exact absurd this (by rw [watermark_def] at *; omega)
      · have hab : a = b := hwf.inj a b T (by simp at h1; omega)
          (by simp at h2; omega) hq1 hq2
        rw [hab]
  · intro p t h1 h2
    rw [htop] at h2
    rw [show (installChild s T i).freshBase = s.freshBase from rfl,
      installChild_next]
    rcases tableFrom_installChild_rev hwf hT hi habs hroom p [] s.topLevel t
        (by simpa using h1) rfl h2 with ha | ⟨a, rfl, hq1, rfl⟩
    · have hb := hwf.bound p t h1 ha
      rw [Nat.mul_succ]
      omega
    · rw [watermark_def, Nat.mul_succ]
      have : 0 < PAGE_SIZE := by norm_num [PAGE_SIZE]
      omega

end InstallCore

/-! ### Page-number arithmetic: `indexFor` and `pagePath` as base-512 digits -/

theorem and_511 (x : Nat) : x &&& 0x1ff = x % 512 := by
  rw [show (0x1ff : Nat) = 2 ^ 9 - 1 from by decide,
    Nat.and_pow_two_sub_one_eq_mod]

/-- For a `pageSize`-aligned address `pn * 2^(12 + 9*ml)`, the index at level
`ml + l` is the `l`-th base-512 digit of the page number. -/

theorem indexFor_page (pn ml l : Nat) :
    indexFor (pn * 2 ^ (12 + 9 * ml)) (ml + l) = pn / 2 ^ (9 * l) % 512 := by
  unfold indexFor
  rw [Nat.shiftRight_eq_div_pow, and_511]
  congr 1
  have hdiv : pn * 2 ^ (12 + 9 * ml) / 2 ^ (12 + 9 * ml + 9 * l) =
      pn / 2 ^ (9 * l) := by
    rw [pow_add 2 (12 + 9 * ml) (9 * l), Nat.mul_comm pn (2 ^ (12 + 9 * ml)),
      Nat.mul_div_mul_left _ _ (Nat.pos_pow_of_pos _ (by norm_num))]
  rw [show 12 + 9 * (ml + l) = 12 + 9 * ml + 9 * l by ring, hdiv]

theorem indexFor_page0 (pn ml : Nat) :
    indexFor (pn * 2 ^ (12 + 9 * ml)) ml = pn % 512 := by
  have h := indexFor_page pn ml 0
  simpa using h

theorem pagePath_eq_of_div {pn pn2 : Nat} (ml : Nat) (h : pn / 512 = pn2 / 512) :
    ∀ k, pagePath (pn * 2 ^ (12 + 9 * ml)) ml k =
      pagePath (pn2 * 2 ^ (12 + 9 * ml)) ml k := by
  intro k
  induction k with
  | zero => rfl
  | succ k ih =>
    rw [pagePath, pagePath, ih]
    rw [indexFor_page pn ml (k + 1), indexFor_page pn2 ml (k + 1)]
    have hq : pn / 2 ^ (9 * (k + 1)) = pn2 / 2 ^ (9 * (k + 1)) := by
      rw [show 9 * (k + 1) = 9 + 9 * k by ring, pow_add,
        show (2 : Nat) ^ 9 = 512 from by norm_num,
        ← Nat.div_div_eq_div_mul, ← Nat.div_div_eq_div_mul, h]
    rw [hq]

theorem pagePath_digits {pn pn2 ml : Nat} : ∀ k,
    pagePath (pn * 2 ^ (12 + 9 * ml)) ml k =
      pagePath (pn2 * 2 ^ (12 + 9 * ml)) ml k →
    ∀ l, 1 ≤ l → l ≤ k → pn / 2 ^ (9 * l) % 512 = pn2 / 2 ^ (9 * l) % 512 := by
  intro k
  induction k with
  | zero => intro _ l h1 h2; omega
  | succ k ih =>
    intro h l h1 h2
    rw [pagePath, pagePath] at h
    rcases List.cons.injEq .. ▸ h with ⟨hhead, htail⟩
    rcases Nat.eq_or_lt_of_le h2 with rfl | hlt
    · rw [indexFor_page, indexFor_page] at hhead
      exact hhead
    · exact ih htail l h1 (by omega)

theorem mod_of_digits {pn pn2 : Nat} : ∀ k,
    (∀ l, l ≤ k → pn / 2 ^ (9 * l) % 512 = pn2 / 2 ^ (9 * l) % 512) →
    pn % 2 ^ (9 * (k + 1)) = pn2 % 2 ^ (9 * (k + 1)) := by
  intro k
  induction k with
  | zero =>
    intro h
    have h0 := h 0 (by omega)
    simpa using h0
  | succ k ih =>
    intro h
    have hk := ih fun l hl => h l (by omega)
    have hd := h (k + 1) (by omega)
    have hsplit : ∀ x : Nat, x % 2 ^ (9 * (k + 1 + 1)) =
        x % 2 ^ (9 * (k + 1)) + 2 ^ (9 * (k + 1)) * (x / 2 ^ (9 * (k + 1)) % 512) := by
      intro x
      rw [show 9 * (k + 1 + 1) = 9 * (k + 1) + 9 by ring, pow_add,
        show (2 : Nat) ^ 9 = 512 from by norm_num, Nat.mod_mul]
    rw [hsplit, hsplit, hk, hd]

/-- Two pages with the same parent path and the same leaf index agree
modulo the whole index window. -/

theorem page_coords_inj {pn pn2 ml k : Nat}
    (hpath : pagePath (pn * 2 ^ (12 + 9 * ml)) ml k =
      pagePath (pn2 * 2 ^ (12 + 9 * ml)) ml k)
    (hleaf : indexFor (pn * 2 ^ (12 + 9 * ml)) ml =
      indexFor (pn2 * 2 ^ (12 + 9 * ml)) ml) :
    pn % 2 ^ (9 * (k + 1)) = pn2 % 2 ^ (9 * (k + 1)) := by
  apply mod_of_digits
  intro l hl
  rcases Nat.eq_zero_or_pos l with rfl | hpos
  · rw [indexFor_page0, indexFor_page0] at hleaf
    simpa using hleaf
  · exact pagePath_digits k hpath l hpos hl

/-- Distinct pages of a job no longer than the index window differ in their
parent path or in their leaf index. -/

theorem page_coords_distinct {pn0 m m2 ml k np : Nat}
    (hm : m < np) (hm2 : m2 < np) (hne : m ≠ m2)
    (hnp : np ≤ 2 ^ (9 * (k + 1))) :
    ¬ (pagePath ((pn0 + m) * 2 ^ (12 + 9 * ml)) ml k =
        pagePath ((pn0 + m2) * 2 ^ (12 + 9 * ml)) ml k ∧
      indexFor ((pn0 + m) * 2 ^ (12 + 9 * ml)) ml =
        indexFor ((pn0 + m2) * 2 ^ (12 + 9 * ml)) ml) := by
  rintro ⟨hpath, hleaf⟩
  have h := page_coords_inj hpath hleaf
  have hmod : m % 2 ^ (9 * (k + 1)) = m2 % 2 ^ (9 * (k + 1)) :=
    Nat.ModEq.add_left_cancel' pn0 h
  rw [Nat.mod_eq_of_lt (by omega), Nat.mod_eq_of_lt (by omega)] at hmod
  exact hne hmod

/-! ### `walkAux` against the table chain `walkTbl` -/

theorem walkAux_of_walkTbl (s : HatState) (virt ml : Nat) : ∀ k t T,
    walkTbl s virt ml k t = some T →
    walkAux s virt ml k t = .leaf (readPte s T (indexFor virt ml)) := by
  intro k
  induction k with
  | zero =>
    intro t T h
    obtain rfl : t = T := by simpa [walkTbl] using h
    rfl
  | succ k ih =>
    intro t T h
    rw [walkTbl] at h
    rw [walkAux]
    by_cases hp : Pte.present (readPte s t (indexFor virt (ml + (k + 1)))) = true
    · rw [if_pos hp] at h
      by_cases hh : Pte.huge (readPte s t (indexFor virt (ml + (k + 1)))) = true
      · rw [if_pos hh] at h
        exact absurd h (by simp)
      · rw [if_neg hh] at h
        rw [if_neg (by simp [hp]), if_neg hh]
        exact ih _ _ h
    · rw [if_neg hp] at h
      exact absurd h (by simp)

theorem walkTbl_of_walkAux_leaf (s : HatState) (virt ml : Nat) : ∀ k t e,
    walkAux s virt ml k t = .leaf e →
    ∃ T, walkTbl s virt ml k t = some T ∧ e = readPte s T (indexFor virt ml) := by
  intro k
  induction k with
  | zero =>
    intro t e h
    obtain rfl : readPte s t (indexFor virt ml) = e := by
      simpa [walkAux] using h
    exact ⟨t, rfl, rfl⟩
  | succ k ih =>
    intro t e h
    rw [walkAux] at h
    by_cases hp : Pte.present (readPte s t (indexFor virt (ml + (k + 1)))) = true
    · by_cases hh : Pte.huge (readPte s t (indexFor virt (ml + (k + 1)))) = true
      · rw [if_neg (by simp [hp]), if_pos hh] at h
        exact absurd h (by simp)
      · rw [if_neg (by simp [hp]), if_neg hh] at h
        obtain ⟨T, h1, h2⟩ := ih _ _ h
        refine ⟨T, ?_, h2⟩
        rw [walkTbl, if_pos hp, if_neg hh]
        exact h1
    · rw [if_pos (by simp [hp])] at h
      exact absurd h (by simp)

/-- A walk that never meets a huge entry satisfies the parent-phase
assertions of `map_pages`. -/

theorem parentsOk_of_walkAux (s : HatState) (virt ml : Nat) : ∀ k t,
    (∀ l e, walkAux s virt ml k t ≠ .hugeAt l e) →
    parentsOk s virt ml k t = true := by
  intro k
  induction k with
  | zero => intro t _; rfl
  | succ k ih =>
    intro t h
    rw [parentsOk]
    by_cases hp : Pte.present (readPte s t (indexFor virt (ml + (k + 1)))) = true
    · by_cases hh : Pte.huge (readPte s t (indexFor virt (ml + (k + 1)))) = true
      · exfalso
        apply h (ml + (k + 1)) (readPte s t (indexFor virt (ml + (k + 1))))
        rw [walkAux, if_neg (by simp [hp]), if_pos hh]
      · rw [if_pos hp, if_neg hh]
        apply ih
        intro l e hc
        apply h l e
        rw [walkAux, if_neg (by simp [hp]), if_neg hh]
        exact hc
    · rw [if_neg hp]

theorem clearOrEq_of_clearPage {s : HatState} {virt ml k : Nat} (ne : Nat)
    (h : clearPage s virt ml k = true) : clearOrEq s virt ml k ne = true := by
  unfold clearPage at h
  unfold clearOrEq
  cases hw : walkAux s virt ml k s.topLevel with
  | absentAt l => rfl
  | leaf e =>
    rw [hw] at h
    simp at h
    simp [h]
  | hugeAt l e =>
    rw [hw] at h
    exact absurd h (by simp)

theorem stepPres_refl (s : HatState) (virt ml k : Nat) : StepPres s s virt ml k :=
  ⟨fun _ h => h, fun l h => Or.inl ⟨l, h⟩⟩

theorem stepPres_trans {s1 s2 s3 : HatState} {virt ml k : Nat}
    (h12 : StepPres s1 s2 virt ml k) (h23 : StepPres s2 s3 virt ml k) :
    StepPres s1 s3 virt ml k := by
  constructor
  · intro e h
    exact h23.1 e (h12.1 e h)
  · intro l h
    rcases h12.2 l h with ⟨m, hm⟩ | hm
    · exact h23.2 m hm
    · exact Or.inr (h23.1 0 hm)

theorem clearOrEq_of_stepPres {s s2 : HatState} {virt ml k ne : Nat}
    (hp : StepPres s s2 virt ml k) (h : clearOrEq s virt ml k ne = true) :
    clearOrEq s2 virt ml k ne = true := by
  unfold clearOrEq at *
  cases hw : walkAux s virt ml k s.topLevel with
  | absentAt l =>
    rcases hp.2 l hw with ⟨m, hm⟩ | hm
    · rw [hm]
    · rw [hm]
      simp [show Pte.present 0 = false from by decide]
  | leaf e =>
    rw [hp.1 e hw]
    rw [hw] at h
    exact h
  | hugeAt l e =>
    rw [hw] at h
    exact absurd h (by simp)

theorem clearOrEq_no_huge {s : HatState} {virt ml k ne : Nat}
    (h : clearOrEq s virt ml k ne = true) :
    ∀ l e, walkAux s virt ml k s.topLevel ≠ .hugeAt l e := by
  intro l e hc
  unfold clearOrEq at h
  rw [hc] at h
  exact absurd h (by simp)

/-! ### Effect of the single writes of `map_pages` on arbitrary walks -/

/-- A write that keeps the presence, huge bit and address of a present
non-huge entry (the `PARENT_FLAGS` upgrade) changes no walk. -/

theorem walkAux_writePte_preserving {s : HatState} {T i v : Nat} {pT : List Nat}
    {k0 : Nat} (hwf : HatWf s) (hi : i < PTES_PER_TABLE)
    (hT : tableFrom s s.topLevel pT = some T) (hTlen : pT.length < k0)
    (hk0 : k0 ≤ 3)
    (hpres : Pte.present v = Pte.present (readPte s T i))
    (hhuge : Pte.huge v = Pte.huge (readPte s T i))
    (haddr : Pte.addr v = Pte.addr (readPte s T i))
    (hnh : Pte.huge (readPte s T i) = false) (virt ml : Nat) :
    ∀ l U pU, pU.length + l = k0 → tableFrom s s.topLevel pU = some U →
      walkAux (writePte s T i v) virt ml l U = walkAux s virt ml l U := by
  have hTal := tableFrom_aligned pT hwf.topAligned hwf.topLt hT
  intro l
  induction l with
  | zero =>
    intro U pU hlen hU
    have hUal := tableFrom_aligned pU hwf.topAligned hwf.topLt hU
    rw [walkAux, walkAux]
    have hne : ¬ (U = T ∧ indexFor virt ml = i) := by
      rintro ⟨rfl, -⟩
      have hpUT := hwf.inj pU pT U (by omega) (by omega) hU hT
      rw [hpUT] at hlen
      omega
    rw [readPte_writePte_other s v hTal.1 hUal.1 hi (indexFor_lt _ _) hne]
  | succ l ih =>
    intro U pU hlen hU
    have hUal := tableFrom_aligned pU hwf.topAligned hwf.topLt hU
    simp only [walkAux]
    by_cases hcol : U = T ∧ indexFor virt (ml + (l + 1)) = i
    · obtain ⟨rfl, hidx⟩ := hcol
      rw [hidx, readPte_writePte_self, hpres, hhuge, haddr]
      by_cases hp : Pte.present (readPte s U i) = true
      · rw [if_neg (not_not_intro hp), if_neg (by simp [hnh]),
          if_neg (not_not_intro hp), if_neg (by simp [hnh])]
        have hU2 : tableFrom s s.topLevel (pU ++ [i]) =
            some (Pte.addr (readPte s U i)) := by
          rw [tableFrom_append, hU, Option.some_bind, tableFrom,
            if_pos ⟨hi, hp, hnh⟩]
          rfl
        exact ih _ (pU ++ [i]) (by simp at hlen ⊢; omega) hU2
      · rw [if_pos (by simp [hp]), if_pos (by simp [hp])]
    · rw [readPte_writePte_other s v hTal.1 hUal.1 hi (indexFor_lt _ _) hcol]
      by_cases hp : Pte.present (readPte s U (indexFor virt (ml + (l + 1)))) = true
      · by_cases hh : Pte.huge (readPte s U (indexFor virt (ml + (l + 1)))) = true
        · rw [if_neg (not_not_intro hp), if_pos hh, if_neg (not_not_intro hp),
            if_pos hh]
        · rw [if_neg (not_not_intro hp), if_neg (by simp [hh]),
            if_neg (not_not_intro hp), if_neg (by simp [hh])]
          have hU2 : tableFrom s s.topLevel
              (pU ++ [indexFor virt (ml + (l + 1))]) =
              some (Pte.addr (readPte s U (indexFor virt (ml + (l + 1))))) := by
            rw [tableFrom_append, hU, Option.some_bind, tableFrom,
              if_pos ⟨indexFor_lt _ _, hp, by simp [hh]⟩]
            rfl
          exact ih _ (pU ++ [indexFor virt (ml + (l + 1))])
            (by simp at hlen ⊢; omega) hU2
      · rw [if_pos (by simp [hp]), if_pos (by simp [hp])]

/-- The `PARENT_FLAGS` upgrade changes no parent-phase assertion either. -/

theorem parentsOk_upgrade {s : HatState} {T i : Nat}
    (hT : T % PAGE_SIZE = 0) (hi : i < PTES_PER_TABLE) (virt ml : Nat) :
    ∀ k u, u % PAGE_SIZE = 0 →
      parentsOk (writePte s T i (readPte s T i ||| PARENT_FLAGS)) virt ml k u =
        parentsOk s virt ml k u := by
  intro k
  induction k with
  | zero => intro u _; rfl
  | succ k ih =>
    intro u hu
    rw [parentsOk, parentsOk]
    by_cases hcol : u = T ∧ indexFor virt (ml + (k + 1)) = i
    · obtain ⟨rfl, hidx⟩ := hcol
      rw [hidx, readPte_writePte_self, present_or_parent, huge_or_parent,
        addr_or_parent]
      by_cases hp : Pte.present (readPte s u i) = true
      · by_cases hh : Pte.huge (readPte s u i) = true
        · rw [if_pos hp, if_pos hp, if_pos hh, if_pos hh]
        · rw [if_pos hp, if_pos hp, if_neg hh, if_neg hh,
            ih _ (addr_aligned _)]
      · rw [if_neg hp, if_neg hp]
    · rw [readPte_writePte_other s _ hT hu hi (indexFor_lt _ _) hcol]
      by_cases hp : Pte.present (readPte s u (indexFor virt (ml + (k + 1)))) = true
      · by_cases hh : Pte.huge (readPte s u (indexFor virt (ml + (k + 1)))) = true
        · rw [if_pos hp, if_pos hp, if_pos hh, if_pos hh]
        · rw [if_pos hp, if_pos hp, if_neg hh, if_neg hh,
            ih _ (addr_aligned _)]
      · rw [if_neg hp, if_neg hp]

/-- Installing a fresh child table under an absent entry preserves found
leaves exactly, and sends blocked walks to blocked walks or to a zero leaf
slot of the fresh table. -/

theorem walkAux_installChild {s : HatState} {T i : Nat} {pT : List Nat}
    {k0 : Nat} (hwf : HatWf s) (hi : i < PTES_PER_TABLE)
    (hT : tableFrom s s.topLevel pT = some T) (hTlen : pT.length < k0)
    (hk0 : k0 ≤ 3)
    (habs : Pte.present (readPte s T i) = false)
    (hroom : watermark s < 2 ^ 52) (virt ml : Nat) :
    ∀ l U pU, pU.length + l = k0 → tableFrom s s.topLevel pU = some U →
      (∀ e, walkAux s virt ml l U = .leaf e →
        walkAux (installChild s T i) virt ml l U = .leaf e) ∧
      (∀ lv, walkAux s virt ml l U = .absentAt lv →
        (∃ m, walkAux (installChild s T i) virt ml l U = .absentAt m) ∨
          walkAux (installChild s T i) virt ml l U = .leaf 0) := by
  have hTal := tableFrom_aligned pT hwf.topAligned hwf.topLt hT
  have hTb : T < watermark s := hwf.bound pT T (by omega) hT
  intro l
  induction l with
  | zero =>
    intro U pU hlen hU
    have hUal := tableFrom_aligned pU hwf.topAligned hwf.topLt hU
    have hUb : U < watermark s := hwf.bound pU U (by omega) hU
    have hne : ¬ (U = T ∧ indexFor virt ml = i) := by
      rintro ⟨rfl, -⟩
      have hpUT := hwf.inj pU pT U (by omega) (by omega) hU hT
      rw [hpUT] at hlen
      omega
    have hread := readPte_installChild_other (s := s) (T := T) (i := i)
      hwf.freshAligned hTal.1 hUal.1 hi (indexFor_lt _ _) hUb hne
    constructor
    · intro e he
      rw [walkAux] at he ⊢
      rw [hread]
      exact he
    · intro lv hlv
      rw [walkAux] at hlv
      exact absurd hlv (by simp)
  | succ l ih =>
    intro U pU hlen hU
    have hUal := tableFrom_aligned pU hwf.topAligned hwf.topLt hU
    have hUb : U < watermark s := hwf.bound pU U (by omega) hU
    by_cases hcol : U = T ∧ indexFor virt (ml + (l + 1)) = i
    · obtain ⟨rfl, hidx⟩ := hcol
      constructor
      · intro e he
        exfalso
        simp only [walkAux] at he
        rw [hidx, if_pos (by simp [habs])] at he
        exact absurd he (by simp)
      · intro lv hlv
        simp only [walkAux]
        rw [hidx, readPte_installChild_self,
          if_neg (not_not_intro (install_value_present hwf.freshAligned)),
          if_neg (by simp [install_value_not_huge hwf.freshAligned]),
          install_value_addr hwf.freshAligned hroom]
        cases l with
        | zero =>
          right
          simp only [walkAux]
          rw [readPte_installChild_fresh hwf.freshAligned hTal.1 hTb hi
            (indexFor_lt _ _)]
        | succ l2 =>
          left
          refine ⟨ml + (l2 + 1), ?_⟩
          simp only [walkAux]
          rw [readPte_installChild_fresh hwf.freshAligned hTal.1 hTb hi
            (indexFor_lt _ _),
            if_pos (by simp [show Pte.present 0 = false from by decide])]
    · have hread := readPte_installChild_other (s := s) (T := T) (i := i)
        hwf.freshAligned hTal.1 hUal.1 hi (indexFor_lt _ _) hUb hcol
      by_cases hp : Pte.present (readPte s U (indexFor virt (ml + (l + 1)))) = true
      · by_cases hh : Pte.huge (readPte s U (indexFor virt (ml + (l + 1)))) = true
        · constructor
          · intro e he
            simp only [walkAux] at he
            rw [if_neg (not_not_intro hp), if_pos hh] at he
            exact absurd he (by simp)
          · intro lv hlv
            simp only [walkAux] at hlv
            rw [if_neg (not_not_intro hp), if_pos hh] at hlv
            exact absurd hlv (by simp)
        · have hU2 : tableFrom s s.topLevel
              (pU ++ [indexFor virt (ml + (l + 1))]) =
              some (Pte.addr (readPte s U (indexFor virt (ml + (l + 1))))) := by
            rw [tableFrom_append, hU, Option.some_bind, tableFrom,
              if_pos ⟨indexFor_lt _ _, hp, by simp [hh]⟩]
            rfl
          have hih := ih _ (pU ++ [indexFor virt (ml + (l + 1))])
            (by simp at hlen ⊢; omega) hU2
          constructor
          · intro e he
            simp only [walkAux] at he ⊢
            rw [if_neg (not_not_intro hp), if_neg (by simp [hh])] at he
            rw [hread, if_neg (not_not_intro hp), if_neg (by simp [hh])]
            exact hih.1 e he
          · intro lv hlv
            simp only [walkAux] at hlv ⊢
            rw [if_neg (not_not_intro hp), if_neg (by simp [hh])] at hlv
            rw [hread, if_neg (not_not_intro hp), if_neg (by simp [hh])]
            exact hih.2 lv hlv
      · constructor
        · intro e he
          simp only [walkAux] at he
          rw [if_pos (by simp [hp])] at he
          exact absurd he (by simp)
        · intro lv hlv
          left
          refine ⟨ml + (l + 1), ?_⟩
          simp only [walkAux]
          rw [hread, if_pos (by simp [hp])]

/-- Writing a leaf value into a slot of a target-level table changes no walk
whose page does not name exactly that slot. -/

theorem walkAux_leafWrite {s : HatState} {T row v : Nat} {pT : List Nat}
    {k0 : Nat} (hwf : HatWf s) (hrow : row < PTES_PER_TABLE)
    (hT : tableFrom s s.topLevel pT = some T) (hTlen : pT.length = k0)
    (hk0 : k0 ≤ 3) (virt ml : Nat)
    (havoid : pagePath virt ml k0 ≠ pT ∨ indexFor virt ml ≠ row) :
    ∀ l U pU, pU.length + l = k0 →
      pU ++ pagePath virt ml l = pagePath virt ml k0 →
      tableFrom s s.topLevel pU = some U →
      walkAux (writePte s T row v) virt ml l U = walkAux s virt ml l U := by
  have hTal := tableFrom_aligned pT hwf.topAligned hwf.topLt hT
  intro l
  induction l with
  | zero =>
    intro U pU hlen hpath hU
    have hUal := tableFrom_aligned pU hwf.topAligned hwf.topLt hU
    rw [walkAux, walkAux]
    have hne : ¬ (U = T ∧ indexFor virt ml = row) := by
      rintro ⟨rfl, hidx⟩
      have hpUT : pU = pT := hwf.inj pU pT U (by omega) (by omega) hU hT
      have hfull : pagePath virt ml k0 = pU := by
        rw [← hpath, pagePath, List.append_nil]
      rcases havoid with hph | hir
      · exact hph (hfull.trans hpUT)
      · exact hir hidx
    rw [readPte_writePte_other s v hTal.1 hUal.1 hrow (indexFor_lt _ _) hne]
  | succ l ih =>
    intro U pU hlen hpath hU
    have hUal := tableFrom_aligned pU hwf.topAligned hwf.topLt hU
    simp only [walkAux]
    have hne : ¬ (U = T ∧ indexFor virt (ml + (l + 1)) = row) := by
      rintro ⟨rfl, -⟩
      have hpUT : pU = pT := hwf.inj pU pT U (by omega) (by omega) hU hT
      rw [hpUT, hTlen] at hlen
      omega
    rw [readPte_writePte_other s v hTal.1 hUal.1 hrow (indexFor_lt _ _) hne]
    by_cases hp : Pte.present (readPte s U (indexFor virt (ml + (l + 1)))) = true
    · by_cases hh : Pte.huge (readPte s U (indexFor virt (ml + (l + 1)))) = true
      · rw [if_neg (not_not_intro hp), if_pos hh, if_neg (not_not_intro hp),
          if_pos hh]
      · rw [if_neg (not_not_intro hp), if_neg (by simp [hh]),
          if_neg (not_not_intro hp), if_neg (by simp [hh])]
        have hU2 : tableFrom s s.topLevel
            (pU ++ [indexFor virt (ml + (l + 1))]) =
            some (Pte.addr (readPte s U (indexFor virt (ml + (l + 1))))) := by
          rw [tableFrom_append, hU, Option.some_bind, tableFrom,
            if_pos ⟨indexFor_lt _ _, hp, by simp [hh]⟩]
          rfl
        have hpath2 : (pU ++ [indexFor virt (ml + (l + 1))]) ++
            pagePath virt ml l = pagePath virt ml k0 := by
          rw [List.append_assoc, List.singleton_append, ← pagePath, hpath]
        exact ih _ (pU ++ [indexFor virt (ml + (l + 1))])
          (by simp at hlen ⊢; omega) hpath2 hU2
    · rw [if_pos (by simp [hp]), if_pos (by simp [hp])]

/-- A leaf write (huge, or into a depth-3 table, over a slot that is not a
present table pointer) moves no position of the radix tree. -/

theorem tableFrom_leafWrite {s : HatState} {T row v : Nat} {pT : List Nat}
    (hwf : HatWf s) (hrow : row < PTES_PER_TABLE)
    (hT : tableFrom s s.topLevel pT = some T) (hk3 : pT.length ≤ 3)
    (hv : Pte.huge v = true ∨ pT.length = 3)
    (hold : Pte.present (readPte s T row) = false ∨ readPte s T row = v) :
    ∀ p pU U, pU.length + p.length ≤ 3 →
      tableFrom s s.topLevel pU = some U →
      tableFrom (writePte s T row v) U p = tableFrom s U p := by
  have hTal := tableFrom_aligned pT hwf.topAligned hwf.topLt hT
  intro p
  induction p with
  | nil => intro pU U _ _; rfl
  | cons j js ih =>
    intro pU U hlen hU
    have hUal := tableFrom_aligned pU hwf.topAligned hwf.topLt hU
    rw [tableFrom, tableFrom]
    by_cases hj : j < PTES_PER_TABLE
    · by_cases hcol : U = T ∧ j = row
      · obtain ⟨rfl, rfl⟩ := hcol
        have hpUT : pU = pT := hwf.inj pU pT U (by omega) (by omega) hU hT
        rcases hold with hnp | heq
        · rw [readPte_writePte_self]
          rcases hv with hhv | hlen3
          · have hc1 : ¬ (j < PTES_PER_TABLE ∧
                Pte.present v = true ∧ Pte.huge v = false) := by
              rintro ⟨-, -, hhx⟩
              rw [hhv] at hhx
              exact absurd hhx (by simp)
            have hc2 : ¬ (j < PTES_PER_TABLE ∧
                Pte.present (readPte s U j) = true ∧
                Pte.huge (readPte s U j) = false) := by
              rintro ⟨-, hpx, -⟩
              rw [hnp] at hpx
              exact absurd hpx (by simp)
            rw [if_neg hc1, if_neg hc2]
          · exfalso
            rw [hpUT, hlen3] at hlen
            simp at hlen
        · rw [readPte_writePte_self, heq]
          by_cases hc : j < PTES_PER_TABLE ∧
              Pte.present v = true ∧ Pte.huge v = false
          · rw [if_pos hc, if_pos hc]
            have hU2 : tableFrom s s.topLevel (pU ++ [j]) =
                some (Pte.addr v) := by
              rw [tableFrom_append, hU, Option.some_bind, tableFrom, heq,
                if_pos hc]
              rfl
            exact ih (pU ++ [j]) _ (by simp at hlen ⊢; omega) hU2
          · rw [if_neg hc, if_neg hc]
      · rw [readPte_writePte_other s v hTal.1 hUal.1 hrow hj hcol]
        by_cases hc : j < PTES_PER_TABLE ∧
            Pte.present (readPte s U j) = true ∧ Pte.huge (readPte s U j) = false
        · rw [if_pos hc, if_pos hc]
          have hU2 : tableFrom s s.topLevel (pU ++ [j]) =
              some (Pte.addr (readPte s U j)) := by
            rw [tableFrom_append, hU, Option.some_bind, tableFrom, if_pos hc]
            rfl
          exact ih (pU ++ [j]) _ (by simp at hlen ⊢; omega) hU2
        · rw [if_neg hc, if_neg hc]
    · rw [if_neg (fun hc => hj hc.1), if_neg (fun hc => hj hc.1)]

theorem stepPres_upgrade {s : HatState} {T i : Nat} {pT : List Nat} {k0 : Nat}
    (hwf : HatWf s) (hi : i < PTES_PER_TABLE)
    (hT : tableFrom s s.topLevel pT = some T) (hTlen : pT.length < k0)
    (hk0 : k0 ≤ 3)
    (hpres : Pte.present (readPte s T i) = true)
    (hnh : Pte.huge (readPte s T i) = false) (virt ml : Nat) :
    StepPres s (writePte s T i (readPte s T i ||| PARENT_FLAGS)) virt ml k0 := by
  have heq := walkAux_writePte_preserving hwf hi hT hTlen hk0
    (present_or_parent _) (huge_or_parent _) (addr_or_parent _) hnh virt ml
    k0 s.topLevel [] (by simp) rfl
  constructor
  · intro e he
    rw [writePte_topLevel, heq]
    exact he
  · intro lv hlv
    left
    refine ⟨lv, ?_⟩
    rw [writePte_topLevel, heq]
    exact hlv

theorem stepPres_install {s : HatState} {T i : Nat} {pT : List Nat} {k0 : Nat}
    (hwf : HatWf s) (hi : i < PTES_PER_TABLE)
    (hT : tableFrom s s.topLevel pT = some T) (hTlen : pT.length < k0)
    (hk0 : k0 ≤ 3)
    (habs : Pte.present (readPte s T i) = false)
    (hroom : watermark s < 2 ^ 52) (virt ml : Nat) :
    StepPres s (installChild s T i) virt ml k0 := by
  have h := walkAux_installChild hwf hi hT hTlen hk0 habs hroom virt ml
    k0 s.topLevel [] (by simp) rfl
  constructor
  · intro e he
    rw [installChild_topLevel]
    exact h.1 e he
  · intro lv hlv
    rw [installChild_topLevel]
    exact h.2 lv hlv

/-- The leaf write preserves well-formedness. -/

theorem wf_leafWrite {s : HatState} {T row v : Nat} {pT : List Nat}
    (hwf : HatWf s) (hrow : row < PTES_PER_TABLE)
    (hT : tableFrom s s.topLevel pT = some T) (hk3 : pT.length ≤ 3)
    (hv : Pte.huge v = true ∨ pT.length = 3)
    (hold : Pte.present (readPte s T row) = false ∨ readPte s T row = v) :
    HatWf (writePte s T row v) := by
  have htf : ∀ p, p.length ≤ 3 →
      tableFrom (writePte s T row v) s.topLevel p =
        tableFrom s s.topLevel p := by
    intro p hp
    exact tableFrom_leafWrite hwf hrow hT hk3 hv hold p [] s.topLevel
      (by simpa using hp) rfl
  constructor
  · exact hwf.topAligned
  · exact hwf.topLt
  · exact hwf.freshAligned
  · intro p₁ p₂ t h1 h2 h3 h4
    rw [writePte_topLevel, htf p₁ h1] at h3
    rw [writePte_topLevel, htf p₂ h2] at h4
    exact hwf.inj p₁ p₂ t h1 h2 h3 h4
  · intro p t h1 h2
    rw [writePte_topLevel, htf p h1] at h2
    exact hwf.bound p t h1 h2

/-! ### The parent walk of one `map_pages` chunk -/

theorem mapDescend_present {s : HatState} {virt ml k t : Nat}
    (hp : Pte.present (readPte s t (indexFor virt (ml + (k + 1)))) = true)
    (hh : Pte.huge (readPte s t (indexFor virt (ml + (k + 1)))) = false) :
    mapDescend virt ml (k + 1) t s =
      mapDescend virt ml k
        (Pte.addr (readPte s t (indexFor virt (ml + (k + 1))) ||| PARENT_FLAGS))
        (writePte s t (indexFor virt (ml + (k + 1)))
          (readPte s t (indexFor virt (ml + (k + 1))) ||| PARENT_FLAGS)) := by
  simp only [mapDescend]
  rw [if_pos hp, if_neg (by simp [hh])]

theorem mapDescend_absent {s : HatState} {virt ml k t : Nat}
    (hp : Pte.present (readPte s t (indexFor virt (ml + (k + 1)))) = false)
    (hfa : s.freshBase % PAGE_SIZE = 0) :
    mapDescend virt ml (k + 1) t s =
      mapDescend virt ml k
        (Pte.addr (Pte.new (allocPageTable s).1 PteFlags.PRESENT ||| PARENT_FLAGS))
        (installChild s t (indexFor virt (ml + (k + 1)))) := by
  have hnh : Pte.huge (Pte.new (allocPageTable s).1 PteFlags.PRESENT) = false := by
    rw [Pte.new, huge_or, alloc_fst, aligned_not_huge (fresh_aligned hfa)]
    decide
  simp only [mapDescend]
  rw [if_neg (show ¬ Pte.present (readPte s t (indexFor virt (ml + (k + 1)))) =
      true by simp [hp])]
  rw [if_neg (show ¬ Pte.huge (Pte.new (allocPageTable s).1 PteFlags.PRESENT) =
      true by simp [hnh])]
  rfl

theorem mapDescend_spec (virt ml : Nat) : ∀ (k2 : Nat) (s : HatState)
    (q : List Nat) (t : Nat),
    HatWf s → tableFrom s s.topLevel q = some t →
    parentsOk s virt ml k2 t = true →
    q.length + k2 ≤ 3 →
    s.freshBase + PAGE_SIZE * (s.next + k2) ≤ 2 ^ 52 →
    ∃ T s2, mapDescend virt ml k2 t s = some (T, s2) ∧
      DescendOut s s2 virt ml q k2 t T := by
  intro k2
  induction k2 with
  | zero =>
    intro s q t hwf hq hpar hlen hroom
    refine ⟨t, s, rfl, ?_⟩
    exact {
      topLevel := rfl
      freshBase := rfl
      pcid := rfl
      cr3 := rfl
      mappedPages := rfl
      nextLe := Nat.le_refl _
      nextBound := Nat.le_refl _
      wf := hwf
      path := by rw [pagePath, List.append_nil]; exact hq
      rows := Or.inl ⟨rfl, fun _ _ => rfl⟩
      pres := fun v2 k0 _ _ => stepPres_refl s v2 ml k0 }
  | succ k2 ih =>
    intro s q t hwf hq hpar hlen hroom
    have ht := tableFrom_aligned q hwf.topAligned hwf.topLt hq
    have hidxlt := indexFor_lt virt (ml + (k2 + 1))
    have hroom2 : s.freshBase + PAGE_SIZE * (s.next + k2) + PAGE_SIZE ≤ 2 ^ 52 := by
      have : PAGE_SIZE * (s.next + k2) + PAGE_SIZE =
          PAGE_SIZE * (s.next + (k2 + 1)) := by ring
      omega
    by_cases hp : Pte.present (readPte s t (indexFor virt (ml + (k2 + 1)))) = true
    · -- present parent entry: `PARENT_FLAGS` upgrade, then descend
      have hh : Pte.huge (readPte s t (indexFor virt (ml + (k2 + 1)))) = false := by
        rw [parentsOk, if_pos hp] at hpar
        by_cases hx : Pte.huge (readPte s t (indexFor virt (ml + (k2 + 1)))) = true
        · rw [if_pos hx] at hpar
          exact absurd hpar (by simp)
        · simpa using hx
      rw [parentsOk, if_pos hp, if_neg (by simp [hh])] at hpar
      have hq1 : tableFrom s s.topLevel
          (q ++ [indexFor virt (ml + (k2 + 1))]) =
          some (Pte.addr (readPte s t (indexFor virt (ml + (k2 + 1))))) := by
        rw [tableFrom_append, hq, Option.some_bind, tableFrom,
          if_pos ⟨hidxlt, hp, hh⟩]
        rfl
      have hwf1 := wf_upgrade hwf ht.1 hidxlt hp
      have htrans : ∀ p, tableFrom (writePte s t
          (indexFor virt (ml + (k2 + 1)))
          (readPte s t (indexFor virt (ml + (k2 + 1))) ||| PARENT_FLAGS))
          s.topLevel p = tableFrom s s.topLevel p :=
        fun p => tableFrom_upgrade ht.1 hidxlt hp p s.topLevel hwf.topAligned
      obtain ⟨T, s2, hrun, hout⟩ := ih
        (writePte s t (indexFor virt (ml + (k2 + 1)))
          (readPte s t (indexFor virt (ml + (k2 + 1))) ||| PARENT_FLAGS))
        (q ++ [indexFor virt (ml + (k2 + 1))])
        (Pte.addr (readPte s t (indexFor virt (ml + (k2 + 1)))))
        hwf1
        (by rw [writePte_topLevel, htrans]; exact hq1)
        (by rw [parentsOk_upgrade ht.1 hidxlt virt ml k2 _ (addr_aligned _)]
            exact hpar)
        (by simp at hlen ⊢; omega)
        (by rw [writePte_freshBase, writePte_next]; omega)
      refine ⟨T, s2, ?_, ?_⟩
      · rw [mapDescend_present hp hh, addr_or_parent]
        exact hrun
      · refine {
          topLevel := by rw [hout.topLevel, writePte_topLevel]
          freshBase := by rw [hout.freshBase, writePte_freshBase]
          pcid := hout.pcid
          cr3 := hout.cr3
          mappedPages := by rw [hout.mappedPages, writePte_mappedPages]
          nextLe := by have := hout.nextLe; rw [writePte_next] at this; exact this
          nextBound := by have := hout.nextBound; rw [writePte_next] at this; omega
          wf := hout.wf
          path := ?_
          rows := ?_
          pres := ?_ }
        · have hpath := hout.path
          rw [writePte_topLevel] at hpath
          rw [pagePath, List.append_cons]
          exact hpath
        · have hwalk : walkTbl s virt ml (k2 + 1) t =
              walkTbl s virt ml k2
                (Pte.addr (readPte s t (indexFor virt (ml + (k2 + 1))))) := by
            rw [walkTbl, if_pos hp, if_neg (by simp [hh])]
          have hup : walkTbl (writePte s t (indexFor virt (ml + (k2 + 1)))
              (readPte s t (indexFor virt (ml + (k2 + 1))) ||| PARENT_FLAGS))
              virt ml k2
              (Pte.addr (readPte s t (indexFor virt (ml + (k2 + 1))))) =
              walkTbl s virt ml k2
                (Pte.addr (readPte s t (indexFor virt (ml + (k2 + 1))))) :=
            walkTbl_upgrade ht.1 hidxlt hp virt ml k2 (addr_aligned _)
          rcases hout.rows with ⟨h1, h2⟩ | ⟨h1, h2⟩
          · left
            rw [hup] at h1
            refine ⟨by rw [hwalk]; exact h1, ?_⟩
            intro row hrow
            rw [h2 row hrow]
            have hTpos : tableFrom s s.topLevel
                ((q ++ [indexFor virt (ml + (k2 + 1))]) ++
                  pagePath virt ml k2) = some T := by
              rw [tableFrom_append, hq1, Option.some_bind, ← walkTbl_eq_tableFrom]
              exact h1
            have hTal := tableFrom_aligned _ hwf.topAligned hwf.topLt hTpos
            have hTnet : T ≠ t := by
              intro hTt
              have := hwf.inj _ q t
                (by simp only [List.length_append, List.length_cons,
                  List.length_nil, pagePath_length]; omega)
                (by omega) (hTt ▸ hTpos) hq
              have hlen2 := congrArg List.length this
              simp only [List.length_append, List.length_cons,
                List.length_nil, pagePath_length] at hlen2
              omega
            exact readPte_writePte_other s _ ht.1 hTal.1 hidxlt hrow
              (fun hc => hTnet hc.1)
          · right
            rw [hup] at h1
            exact ⟨by rw [hwalk]; exact h1, h2⟩
        · intro v2 k0 hk1 hk2
          have hstep := stepPres_upgrade hwf hidxlt hq
            (show q.length < k0 by omega) hk2 hp hh v2 ml
          have hnext := hout.pres v2 k0
            (by simp only [List.length_append, List.length_cons,
              List.length_nil]; omega) hk2
          have hnext2 : StepPres (writePte s t (indexFor virt (ml + (k2 + 1)))
              (readPte s t (indexFor virt (ml + (k2 + 1))) ||| PARENT_FLAGS))
              s2 v2 ml k0 := hnext
          exact stepPres_trans hstep hnext2
    · -- absent parent entry: install a fresh child table, then descend
      have hp2 : Pte.present (readPte s t (indexFor virt (ml + (k2 + 1)))) =
          false := by simpa using hp
      have hwm : watermark s < 2 ^ 52 := by
        rw [watermark_def]
        have h2 : 0 < PAGE_SIZE := by norm_num [PAGE_SIZE]
        have h3 : PAGE_SIZE * (s.next + (k2 + 1)) =
            PAGE_SIZE * s.next + PAGE_SIZE * (k2 + 1) := by ring
        have h4 : 0 < PAGE_SIZE * (k2 + 1) := Nat.mul_pos h2 (by omega)
        omega
      have haddr2 : Pte.addr (Pte.new (allocPageTable s).1 PteFlags.PRESENT |||
          PARENT_FLAGS) = watermark s := install_value_addr hwf.freshAligned hwm
      have hwf1 := wf_installChild hwf ht.1 hidxlt hp2 hwm
      have hq1 := tableFrom_installChild_new hwf ht.1 hidxlt hp2 hwm hq
        (by omega)
      have hTb : t < watermark s := by
        have := hwf.bound q t (by omega) hq
        rw [watermark_def]
        exact this
      have hpar1 : parentsOk (installChild s t (indexFor virt (ml + (k2 + 1))))
          virt ml k2 (watermark s) = true := by
        cases k2 with
        | zero => rfl
        | succ k3 =>
          rw [parentsOk,
            readPte_installChild_fresh hwf.freshAligned ht.1 hTb hidxlt
              (indexFor_lt _ _),
            if_neg (by simp [show Pte.present 0 = false from by decide])]
      obtain ⟨T, s2, hrun, hout⟩ := ih
        (installChild s t (indexFor virt (ml + (k2 + 1))))
        (q ++ [indexFor virt (ml + (k2 + 1))])
        (watermark s)
        hwf1
        (by rw [installChild_topLevel]; exact hq1)
        hpar1
        (by simp at hlen ⊢; omega)
        (by rw [installChild_freshBase, installChild_next]
            have : s.next + 1 + k2 = s.next + (k2 + 1) := by omega
            rw [this]
            exact hroom)
      refine ⟨T, s2, ?_, ?_⟩
      · rw [mapDescend_absent hp2 hwf.freshAligned, haddr2]
        exact hrun
      · refine {
          topLevel := by rw [hout.topLevel, installChild_topLevel]
          freshBase := by rw [hout.freshBase, installChild_freshBase]
          pcid := hout.pcid
          cr3 := hout.cr3
          mappedPages := by rw [hout.mappedPages, installChild_mappedPages]
          nextLe := by
            have := hout.nextLe
            rw [installChild_next] at this
            omega
          nextBound := by
            have := hout.nextBound
            rw [installChild_next] at this
            omega
          wf := hout.wf
          path := ?_
          rows := ?_
          pres := ?_ }
        · have hpath := hout.path
          rw [installChild_topLevel] at hpath
          rw [pagePath, List.append_cons]
          exact hpath
        · right
          have hwalk : walkTbl s virt ml (k2 + 1) t = none := by
            rw [walkTbl, if_neg (by simp [hp2])]
          refine ⟨hwalk, ?_⟩
          rcases hout.rows with ⟨h1, h2⟩ | ⟨h1, h2⟩
          · -- the sub-walk found `T` inside the all-zero fresh table: only
            -- possible at depth zero, where `T` is the fresh table itself
            cases k2 with
            | zero =>
              obtain rfl : watermark s = T := by simpa [walkTbl] using h1
              intro row hrow
              rw [h2 row hrow]
              exact readPte_installChild_fresh hwf.freshAligned ht.1 hTb
                hidxlt hrow
            | succ k3 =>
              exfalso
              rw [walkTbl,
                readPte_installChild_fresh hwf.freshAligned ht.1 hTb hidxlt
                  (indexFor_lt _ _),
                if_neg (by simp [show Pte.present 0 = false from by decide])]
                at h1
              exact absurd h1 (by simp)
          · exact h2
        · intro v2 k0 hk1 hk2
          have hstep := stepPres_install hwf hidxlt hq
            (show q.length < k0 by omega) hk2 hp2 hwm v2 ml
          have hnext := hout.pres v2 k0
            (by simp only [List.length_append, List.length_cons,
              List.length_nil]; omega) hk2
          exact stepPres_trans hstep hnext

/-! ### The leaf loop of one `map_pages` chunk -/

theorem readPte_writePte_same {s : HatState} {T i i2 v : Nat} (hne : i2 ≠ i) :
    readPte (writePte s T i v) T i2 = readPte s T i2 := by
  rw [readPte_writePte, if_neg (by omega)]

/-- What one conflict-free run of the leaf loop guarantees: the `cnt` slots
hold the new entries, everything else — fields, other slots, the radix
positions, and every other page's walk — is untouched. -/

theorem writeLeaves_spec (flagsLeaf ps ml : Nat) {k0 : Nat} {pT : List Nat}
    (hk0 : k0 ≤ 3) (hhf : Pte.huge flagsLeaf = true ∨ k0 = 3) :
    ∀ (cnt : Nat) (s : HatState) (T idx virt phys : Nat),
      HatWf s →
      tableFrom s s.topLevel pT = some T → pT.length = k0 →
      idx + cnt ≤ PTES_PER_TABLE →
      phys % PAGE_SIZE = 0 → ps % PAGE_SIZE = 0 →
      (∀ j, j < cnt → Pte.present (readPte s T (idx + j)) = false ∨
        readPte s T (idx + j) = Pte.new (phys + ps * j) flagsLeaf) →
      ∃ s2, writeLeaves flagsLeaf ps cnt s T idx virt phys =
          .ok s2 (virt + ps * cnt) (phys + ps * cnt) ∧
        s2.topLevel = s.topLevel ∧ s2.freshBase = s.freshBase ∧
        s2.next = s.next ∧ s2.pcid = s.pcid ∧ s2.cr3 = s.cr3 ∧
        s2.mappedPages = s.mappedPages ∧ HatWf s2 ∧
        (∀ p, p.length ≤ 3 →
          tableFrom s2 s.topLevel p = tableFrom s s.topLevel p) ∧
        (∀ j, j < cnt → readPte s2 T (idx + j) =
          Pte.new (phys + ps * j) flagsLeaf) ∧
        (∀ U row, U % PAGE_SIZE = 0 → row < PTES_PER_TABLE →
          ¬ (U = T ∧ idx ≤ row ∧ row < idx + cnt) →
          readPte s2 U row = readPte s U row) ∧
        (∀ v2, (pagePath v2 ml k0 ≠ pT ∨
            (∀ j, j < cnt → indexFor v2 ml ≠ idx + j)) →
          walkAux s2 v2 ml k0 s2.topLevel = walkAux s v2 ml k0 s.topLevel) := by
  intro cnt
  induction cnt with
  | zero =>
    intro s T idx virt phys hwf hT hTlen hbound hph hps hvals
    refine ⟨s, ?_, rfl, rfl, rfl, rfl, rfl, rfl, hwf, fun p _ => rfl,
      fun j hj => absurd hj (by omega), fun U row _ _ _ => rfl,
      fun v2 _ => rfl⟩
    simp [writeLeaves]
  | succ cnt ih =>
    intro s T idx virt phys hwf hT hTlen hbound hph hps hvals
    have hTal := tableFrom_aligned pT hwf.topAligned hwf.topLt hT
    have hidx : idx < PTES_PER_TABLE := by omega
    have hv0 := hvals 0 (by omega)
    rw [Nat.add_zero, Nat.mul_zero, Nat.add_zero] at hv0
    have hgne : Pte.huge (Pte.new phys flagsLeaf) = true ∨ pT.length = 3 := by
      rcases hhf with hhf | hhf
      · left
        rw [Pte.new, huge_or, aligned_not_huge hph, hhf]
        rfl
      · right
        omega
    have hwf1 : HatWf (writePte s T idx (Pte.new phys flagsLeaf)) :=
      wf_leafWrite hwf hidx hT (by omega) hgne hv0
    have htf1 : ∀ p, p.length ≤ 3 →
        tableFrom (writePte s T idx (Pte.new phys flagsLeaf)) s.topLevel p =
          tableFrom s s.topLevel p := by
      intro p hp
      exact tableFrom_leafWrite hwf hidx hT (by omega) hgne hv0 p []
        s.topLevel (by simpa using hp) rfl
    have hph1 : (phys + ps) % PAGE_SIZE = 0 := by
      have e1 : PAGE_SIZE = 4096 := rfl
      rw [e1] at hph hps ⊢
      omega
    have hvals1 : ∀ j, j < cnt →
        Pte.present (readPte (writePte s T idx (Pte.new phys flagsLeaf)) T
          (idx + 1 + j)) = false ∨
        readPte (writePte s T idx (Pte.new phys flagsLeaf)) T (idx + 1 + j) =
          Pte.new (phys + ps + ps * j) flagsLeaf := by
      intro j hj
      rw [readPte_writePte_same (by omega)]
      have := hvals (j + 1) (by omega)
      rw [show idx + (j + 1) = idx + 1 + j by ring,
        show phys + ps * (j + 1) = phys + ps + ps * j by ring] at this
      exact this
    obtain ⟨s2, hrun, htop, hfb, hnx, hpc, hcr, hmp, hwf2, htf2, hwr2, hot2,
      hwalk2⟩ := ih (writePte s T idx (Pte.new phys flagsLeaf)) T (idx + 1)
      (virt + ps) (phys + ps) hwf1
      (by rw [writePte_topLevel, htf1 pT (by omega)]; exact hT) hTlen
      (by omega) hph1 hps hvals1
    have hnoc : ¬ (Pte.present (readPte s T idx) = true ∧
        readPte s T idx ≠ Pte.new phys flagsLeaf) := by
      rintro ⟨hp, hne⟩
      rcases hv0 with h | h
      · rw [h] at hp
        exact absurd hp (by simp)
      · exact hne h
    refine ⟨s2, ?_, ?_, ?_, ?_, ?_, ?_, ?_, hwf2, ?_, ?_, ?_, ?_⟩
    · rw [writeLeaves]
      rw [if_neg hnoc]
      rw [hrun]
      have e1 : virt + ps + ps * cnt = virt + ps * (cnt + 1) := by ring
      have e2 : phys + ps + ps * cnt = phys + ps * (cnt + 1) := by ring
      rw [e1, e2]
    · rw [htop, writePte_topLevel]
    · rw [hfb, writePte_freshBase]
    · rw [hnx, writePte_next]
    · exact hpc
    · exact hcr
    · rw [hmp, writePte_mappedPages]
    · intro p hp
      have h1 := htf2 p hp
      rw [writePte_topLevel] at h1
      rw [h1, htf1 p hp]
    · intro j hj
      cases j with
      | zero =>
        rw [Nat.add_zero, Nat.mul_zero, Nat.add_zero]
        have h1 := hot2 T idx hTal.1 hidx (by omega)
        rw [h1, readPte_writePte_self]
      | succ j2 =>
        have h1 := hwr2 j2 (by omega)
        rw [show idx + 1 + j2 = idx + (j2 + 1) by ring,
          show phys + ps + ps * j2 = phys + ps * (j2 + 1) by ring] at h1
        exact h1
    · intro U row hU hrow hne
      have h1 := hot2 U row hU hrow
        (by rintro ⟨rfl, h2, h3⟩; exact hne ⟨rfl, by omega, by omega⟩)
      rw [h1]
      by_cases hcU : U = T
      · subst hcU
        rw [readPte_writePte_same
          (by intro hc; exact hne ⟨rfl, by omega, by omega⟩)]
      · rw [readPte_writePte_other s _ hTal.1 hU hidx hrow
          (fun hc => hcU hc.1)]
    · intro v2 hav
      have hav1 : pagePath v2 ml k0 ≠ pT ∨
          (∀ j, j < cnt → indexFor v2 ml ≠ idx + 1 + j) := by
        rcases hav with h | h
        · exact Or.inl h
        · right
          intro j hj
          have := h (j + 1) (by omega)
          omega
      have h2 := hwalk2 v2 hav1
      rw [writePte_topLevel] at h2
      rw [h2]
      have hav0 : pagePath v2 ml k0 ≠ pT ∨ indexFor v2 ml ≠ idx := by
        rcases hav with h | h
        · exact Or.inl h
        · right
          have := h 0 (by omega)
          omega
      exact walkAux_leafWrite hwf hidx hT hTlen hk0 v2 ml hav0 k0 s.topLevel []
        (by simp) rfl rfl

/-! ### The `while num_pages > 0` loop of `map_pages` -/

theorem stepPres_of_eq {s s2 : HatState} {virt ml k : Nat}
    (h : walkAux s2 virt ml k s2.topLevel = walkAux s virt ml k s.topLevel) :
    StepPres s s2 virt ml k :=
  ⟨fun e he => by rw [h]; exact he, fun l hl => Or.inl ⟨l, by rw [h]; exact hl⟩⟩

theorem clearOrEq_congr {s s2 : HatState} {virt ml k ne : Nat}
    (h : walkAux s2 virt ml k s2.topLevel = walkAux s virt ml k s.topLevel)
    (hc : clearOrEq s virt ml k ne = true) : clearOrEq s2 virt ml k ne = true := by
  unfold clearOrEq at *
  rw [h]
  exact hc

/-- The loop invariant of `map_pages`: pages before the cursor are mapped,
pages from the cursor on are still clear (or already hold their entry), and
each iteration maps a full chunk.  The loop exits with `num_pages = 0`, all
pages mapped, the `Hat` fields untouched, and every non-range page's walk
preserved. -/

theorem mapLoop_spec (mmu : MmuInfo) (ml flagsLeaf k0 pn0 phys0 np0 : Nat)
    (hk0 : mmu.max_level - ml = k0) (hk3 : k0 ≤ 3)
    (hhf : Pte.huge flagsLeaf = true ∨ k0 = 3)
    (hph : phys0 % PAGE_SIZE = 0)
    (hnp : np0 ≤ 2 ^ (9 * (k0 + 1))) :
    ∀ (fuel r d : Nat) (s : HatState),
      d + r = np0 → r ≤ fuel →
      HatWf s →
      s.freshBase + PAGE_SIZE * (s.next + 3 * r) ≤ 2 ^ 52 →
      (∀ j, j < d →
        walkAux s ((pn0 + j) * 2 ^ (12 + 9 * ml)) ml k0 s.topLevel =
          .leaf (Pte.new (phys0 + 2 ^ (12 + 9 * ml) * j) flagsLeaf)) →
      (∀ j, d ≤ j → j < np0 →
        clearOrEq s ((pn0 + j) * 2 ^ (12 + 9 * ml)) ml k0
          (Pte.new (phys0 + 2 ^ (12 + 9 * ml) * j) flagsLeaf) = true) →
      ∃ s2, mapLoop mmu ml (2 ^ (12 + 9 * ml)) flagsLeaf fuel s
          ((pn0 + d) * 2 ^ (12 + 9 * ml))
          (phys0 + 2 ^ (12 + 9 * ml) * d) r = .ok s2 0 ∧
        s2.topLevel = s.topLevel ∧ s2.freshBase = s.freshBase ∧
        s2.pcid = s.pcid ∧ s2.cr3 = s.cr3 ∧
        s2.mappedPages = s.mappedPages ∧ HatWf s2 ∧
        s.next ≤ s2.next ∧ s2.next ≤ s.next + 3 * r ∧
        (∀ j, j < np0 →
          walkAux s2 ((pn0 + j) * 2 ^ (12 + 9 * ml)) ml k0 s2.topLevel =
            .leaf (Pte.new (phys0 + 2 ^ (12 + 9 * ml) * j) flagsLeaf)) ∧
        (∀ v2, (∀ j, j < np0 →
            ¬ (pagePath v2 ml k0 =
                pagePath ((pn0 + j) * 2 ^ (12 + 9 * ml)) ml k0 ∧
              indexFor v2 ml = indexFor ((pn0 + j) * 2 ^ (12 + 9 * ml)) ml)) →
          StepPres s s2 v2 ml k0) := by
  intro fuel
  induction fuel with
  | zero =>
    intro r d s hd hr hwf hroom hdone hrem
    obtain rfl : r = 0 := by omega
    refine ⟨s, ?_, rfl, rfl, rfl, rfl, rfl, hwf, Nat.le_refl _, by omega,
      ?_, ?_⟩
    · simp [mapLoop]
    · intro j hj
      exact hdone j (by omega)
    · intro v2 _
      exact stepPres_refl s v2 ml k0
  | succ f ihf =>
    intro r d s hd hr hwf hroom hdone hrem
    cases r with
    | zero =>
      refine ⟨s, ?_, rfl, rfl, rfl, rfl, rfl, hwf, Nat.le_refl _, by omega,
        ?_, ?_⟩
      · simp [mapLoop]
      · intro j hj
        exact hdone j (by omega)
      · intro v2 _
        exact stepPres_refl s v2 ml k0
    | succ r2 =>
      have hdlt : d < np0 := by omega
      have hP : 0 < PAGE_SIZE := by norm_num [PAGE_SIZE]
      -- the current page is clear, so its parent walk meets no huge entry
      have hcur := hrem d (Nat.le_refl d) hdlt
      have hpar : parentsOk s ((pn0 + d) * 2 ^ (12 + 9 * ml)) ml k0
          s.topLevel = true :=
        parentsOk_of_walkAux s _ ml k0 s.topLevel (clearOrEq_no_huge hcur)
      have hroomd : s.freshBase + PAGE_SIZE * (s.next + k0) ≤ 2 ^ 52 := by
        have h1 : PAGE_SIZE * (s.next + k0) ≤
            PAGE_SIZE * (s.next + 3 * (r2 + 1)) :=
          Nat.mul_le_mul_left _ (by omega)
        omega
      obtain ⟨T, s1, hdesc, hout⟩ := mapDescend_spec
        ((pn0 + d) * 2 ^ (12 + 9 * ml)) ml k0 s [] s.topLevel hwf rfl hpar
        (by simpa using hk3) hroomd
      -- the chunk geometry
      have hidx0 : indexFor ((pn0 + d) * 2 ^ (12 + 9 * ml)) ml =
          (pn0 + d) % 512 := indexFor_page0 _ _
      have hidxlt : (pn0 + d) % 512 < 512 := by omega
      have hcnt1 : 1 ≤ min (r2 + 1) (PTES_PER_TABLE - (pn0 + d) % 512) := by
        have e2 : PTES_PER_TABLE = 512 := rfl
        omega
      have hcntb : (pn0 + d) % 512 +
          min (r2 + 1) (PTES_PER_TABLE - (pn0 + d) % 512) ≤
          PTES_PER_TABLE := by
        have e2 : PTES_PER_TABLE = 512 := rfl
        omega
      have hcntr : min (r2 + 1) (PTES_PER_TABLE - (pn0 + d) % 512) ≤ r2 + 1 :=
        Nat.min_le_left _ _
      -- pages of the chunk share the parent path and take successive slots
      have hdivj : ∀ j, (pn0 + d) % 512 + j < 512 →
          (pn0 + (d + j)) / 512 = (pn0 + d) / 512 := by
        intro j hj
        omega
      have hmodj : ∀ j, (pn0 + d) % 512 + j < 512 →
          (pn0 + (d + j)) % 512 = (pn0 + d) % 512 + j := by
        intro j hj
        omega
      have hpathj : ∀ j, (pn0 + d) % 512 + j < 512 →
          pagePath ((pn0 + (d + j)) * 2 ^ (12 + 9 * ml)) ml k0 =
            pagePath ((pn0 + d) * 2 ^ (12 + 9 * ml)) ml k0 := by
        intro j hj
        exact pagePath_eq_of_div ml (hdivj j hj) k0
      have hleafj : ∀ j, (pn0 + d) % 512 + j < 512 →
          indexFor ((pn0 + (d + j)) * 2 ^ (12 + 9 * ml)) ml =
            (pn0 + d) % 512 + j := by
        intro j hj
        rw [indexFor_page0]
        exact hmodj j hj
      -- the values the leaf loop will read
      have hvals : ∀ j, j < min (r2 + 1) (PTES_PER_TABLE - (pn0 + d) % 512) →
          Pte.present (readPte s1 T ((pn0 + d) % 512 + j)) = false ∨
          readPte s1 T ((pn0 + d) % 512 + j) =
            Pte.new ((phys0 + 2 ^ (12 + 9 * ml) * d) +
              2 ^ (12 + 9 * ml) * j) flagsLeaf := by
        intro j hj
        have hjw : (pn0 + d) % 512 + j < 512 := by
          have e2 : PTES_PER_TABLE = 512 := rfl
          omega
        have hrowlt : (pn0 + d) % 512 + j < PTES_PER_TABLE := by
          have e2 : PTES_PER_TABLE = 512 := rfl
          omega
        rcases hout.rows with ⟨hwt, hpres⟩ | ⟨hwt, hzero⟩
        · rw [hpres _ hrowlt]
          have hwtj : walkTbl s ((pn0 + (d + j)) * 2 ^ (12 + 9 * ml)) ml k0
              s.topLevel = some T := by
            rw [walkTbl_eq_tableFrom, hpathj j hjw, ← walkTbl_eq_tableFrom]
            exact hwt
          have hwa := walkAux_of_walkTbl s _ ml k0 s.topLevel T hwtj
          have hclr := hrem (d + j) (by omega) (by omega)
          unfold clearOrEq at hclr
          rw [hwa] at hclr
          rw [hleafj j hjw] at hwa hclr
          simp only [Bool.or_eq_true, Bool.not_eq_eq_eq_not, Bool.not_true,
            beq_iff_eq] at hclr
          rcases hclr with h | h
          · exact Or.inl (by simpa using h)
          · right
            rw [h]
            congr 1
            ring
        · exact Or.inl (by rw [hzero _ hrowlt]
                           decide)
      -- run the leaf loop over the chunk
      have hpsal : (2 ^ (12 + 9 * ml)) % PAGE_SIZE = 0 := by
        have : (2 : Nat) ^ (12 + 9 * ml) = PAGE_SIZE * 2 ^ (9 * ml) := by
          rw [pow_add]
          rfl
        rw [this]
        exact Nat.mul_mod_right _ _
      have hphd : (phys0 + 2 ^ (12 + 9 * ml) * d) % PAGE_SIZE = 0 := by
        have h5 := Nat.mul_mod (2 ^ (12 + 9 * ml)) d PAGE_SIZE
        rw [hpsal] at h5
        simp at h5
        have e1 : PAGE_SIZE = 4096 := rfl
        rw [e1] at hph h5 ⊢
        omega
      obtain ⟨s3, hwl, htop3, hfb3, hnx3, hpc3, hcr3, hmp3, hwf3, htf3, hwr3,
        hot3, hwalk3⟩ := writeLeaves_spec flagsLeaf (2 ^ (12 + 9 * ml)) ml hk3
        hhf (min (r2 + 1) (PTES_PER_TABLE - (pn0 + d) % 512)) s1 T
        ((pn0 + d) % 512) ((pn0 + d) * 2 ^ (12 + 9 * ml))
        (phys0 + 2 ^ (12 + 9 * ml) * d) hout.wf
        (by rw [hout.topLevel]
            have := hout.path
            rw [List.nil_append] at this
            exact this)
        (pagePath_length _ _ _) hcntb hphd hpsal hvals
      have hpres1 : ∀ v2, StepPres s s1 v2 ml k0 := fun v2 =>
        hout.pres v2 k0 (by simp) hk3
      -- pages outside the chunk avoid every written slot
      have havoidv : ∀ v2,
          (∀ j2, j2 < min (r2 + 1) (PTES_PER_TABLE - (pn0 + d) % 512) →
            ¬ (pagePath v2 ml k0 =
                pagePath ((pn0 + (d + j2)) * 2 ^ (12 + 9 * ml)) ml k0 ∧
              indexFor v2 ml =
                indexFor ((pn0 + (d + j2)) * 2 ^ (12 + 9 * ml)) ml)) →
          (pagePath v2 ml k0 ≠
              pagePath ((pn0 + d) * 2 ^ (12 + 9 * ml)) ml k0 ∨
            (∀ j2, j2 < min (r2 + 1) (PTES_PER_TABLE - (pn0 + d) % 512) →
              indexFor v2 ml ≠ (pn0 + d) % 512 + j2)) := by
        intro v2 hv2
        by_cases hpp : pagePath v2 ml k0 =
            pagePath ((pn0 + d) * 2 ^ (12 + 9 * ml)) ml k0
        · right
          intro j2 hj2 hleq
          have hjw : (pn0 + d) % 512 + j2 < 512 := by
            have e2 : PTES_PER_TABLE = 512 := rfl
            omega
          exact hv2 j2 hj2
            ⟨by rw [hpp, hpathj j2 hjw], by rw [hleq, hleafj j2 hjw]⟩
        · exact Or.inl hpp
      have hdistinct : ∀ jj, jj < np0 → (jj < d ∨
            d + min (r2 + 1) (PTES_PER_TABLE - (pn0 + d) % 512) ≤ jj) →
          ∀ j2, j2 < min (r2 + 1) (PTES_PER_TABLE - (pn0 + d) % 512) →
          ¬ (pagePath ((pn0 + jj) * 2 ^ (12 + 9 * ml)) ml k0 =
              pagePath ((pn0 + (d + j2)) * 2 ^ (12 + 9 * ml)) ml k0 ∧
            indexFor ((pn0 + jj) * 2 ^ (12 + 9 * ml)) ml =
              indexFor ((pn0 + (d + j2)) * 2 ^ (12 + 9 * ml)) ml) :=
        fun jj hjj hside j2 hj2 =>
          page_coords_distinct hjj (by omega) (by omega) hnp
      -- the invariant after the chunk: every page up to the new cursor is
      -- mapped
      have hdone3 : ∀ jj,
          jj < d + min (r2 + 1) (PTES_PER_TABLE - (pn0 + d) % 512) →
          walkAux s3 ((pn0 + jj) * 2 ^ (12 + 9 * ml)) ml k0 s3.topLevel =
            .leaf (Pte.new (phys0 + 2 ^ (12 + 9 * ml) * jj) flagsLeaf) := by
        intro jj hjj
        by_cases hlt : jj < d
        · have h1 := hdone jj hlt
          have h2 := (hpres1 _).1 _ h1
          rw [hwalk3 _ (havoidv _ (hdistinct jj (by omega) (Or.inl hlt)))]
          exact h2
        · obtain ⟨j2, rfl, hj2⟩ : ∃ j2, jj = d + j2 ∧
              j2 < min (r2 + 1) (PTES_PER_TABLE - (pn0 + d) % 512) :=
            ⟨jj - d, by omega, by omega⟩
          have hjw : (pn0 + d) % 512 + j2 < 512 := by
            have e2 : PTES_PER_TABLE = 512 := rfl
            omega
          have hpos3 : tableFrom s3 s3.topLevel
              (pagePath ((pn0 + d) * 2 ^ (12 + 9 * ml)) ml k0) = some T := by
            rw [htop3, htf3 _ (by rw [pagePath_length]; omega), hout.topLevel]
            have hp := hout.path
            rw [List.nil_append] at hp
            exact hp
          have hwt3 : walkTbl s3 ((pn0 + (d + j2)) * 2 ^ (12 + 9 * ml)) ml k0
              s3.topLevel = some T := by
            rw [walkTbl_eq_tableFrom, hpathj j2 hjw]
            exact hpos3
          have hwa := walkAux_of_walkTbl s3 _ ml k0 s3.topLevel T hwt3
          rw [hwa, hleafj j2 hjw, hwr3 j2 hj2]
          have e3 : phys0 + 2 ^ (12 + 9 * ml) * d + 2 ^ (12 + 9 * ml) * j2 =
              phys0 + 2 ^ (12 + 9 * ml) * (d + j2) := by ring
          rw [e3]
      -- pages past the new cursor are still clear or already mapped
      have hrem3 : ∀ jj,
          d + min (r2 + 1) (PTES_PER_TABLE - (pn0 + d) % 512) ≤ jj →
          jj < np0 →
          clearOrEq s3 ((pn0 + jj) * 2 ^ (12 + 9 * ml)) ml k0
            (Pte.new (phys0 + 2 ^ (12 + 9 * ml) * jj) flagsLeaf) = true := by
        intro jj h1 h2
        have hc1 := clearOrEq_of_stepPres (hpres1 _) (hrem jj (by omega) h2)
        exact clearOrEq_congr
          (hwalk3 _ (havoidv _ (hdistinct jj h2 (Or.inr h1)))) hc1
      have hroom3 : s3.freshBase + PAGE_SIZE * (s3.next +
          3 * (r2 + 1 - min (r2 + 1) (PTES_PER_TABLE - (pn0 + d) % 512))) ≤
          2 ^ 52 := by
        rw [hfb3, hout.freshBase, hnx3]
        have hb := hout.nextBound
        have h1 : PAGE_SIZE * (s1.next +
            3 * (r2 + 1 - min (r2 + 1) (PTES_PER_TABLE - (pn0 + d) % 512))) ≤
            PAGE_SIZE * (s.next + 3 * (r2 + 1)) :=
          Nat.mul_le_mul_left _ (by omega)
        omega
      obtain ⟨s4, hrec, htop4, hfb4, hpc4, hcr4, hmp4, hwf4, hle4, hub4,
        hall4, hpres4⟩ := ihf
        (r2 + 1 - min (r2 + 1) (PTES_PER_TABLE - (pn0 + d) % 512))
        (d + min (r2 + 1) (PTES_PER_TABLE - (pn0 + d) % 512)) s3
        (by omega) (by omega) hwf3 hroom3 hdone3 hrem3
      refine ⟨s4, ?_, ?_, ?_, ?_, ?_, ?_, hwf4, ?_, ?_, hall4, ?_⟩
      · simp only [mapLoop, hk0, hdesc, hidx0]
        rw [hwl]
        have ev : (pn0 + d) * 2 ^ (12 + 9 * ml) + 2 ^ (12 + 9 * ml) *
            min (r2 + 1) (PTES_PER_TABLE - (pn0 + d) % 512) =
            (pn0 + (d + min (r2 + 1) (PTES_PER_TABLE - (pn0 + d) % 512))) *
              2 ^ (12 + 9 * ml) := by ring
        have ep : phys0 + 2 ^ (12 + 9 * ml) * d + 2 ^ (12 + 9 * ml) *
            min (r2 + 1) (PTES_PER_TABLE - (pn0 + d) % 512) =
            phys0 + 2 ^ (12 + 9 * ml) *
              (d + min (r2 + 1) (PTES_PER_TABLE - (pn0 + d) % 512)) := by ring
        rw [ev, ep]
        exact hrec
      · rw [htop4, htop3, hout.topLevel]
      · rw [hfb4, hfb3, hout.freshBase]
      · rw [hpc4, hpc3, hout.pcid]
      · rw [hcr4, hcr3, hout.cr3]
      · rw [hmp4, hmp3, hout.mappedPages]
      · have h1 := hout.nextLe
        rw [hnx3] at hle4
        omega
      · have h1 := hout.nextBound
        rw [hnx3] at hub4
        omega
      · intro v2 hv2
        have hvc : ∀ j2, j2 < min (r2 + 1)
            (PTES_PER_TABLE - (pn0 + d) % 512) →
            ¬ (pagePath v2 ml k0 =
                pagePath ((pn0 + (d + j2)) * 2 ^ (12 + 9 * ml)) ml k0 ∧
              indexFor v2 ml =
                indexFor ((pn0 + (d + j2)) * 2 ^ (12 + 9 * ml)) ml) :=
          fun j2 hj2 => hv2 (d + j2) (by omega)
        have hA := hpres1 v2
        have hB := stepPres_of_eq (hwalk3 v2 (havoidv v2 hvc))
        have hC := hpres4 v2 hv2
        exact stepPres_trans (stepPres_trans hA hB) hC

/-- A present leaf slot that differs from the new entry makes the first
chunk stop with `Error::AlreadyMapped(entry.addr())` before any write. -/

theorem mapLoop_conflict (mmu : MmuInfo) (ml ps flagsLeaf k0 : Nat)
    (hk0 : mmu.max_level - ml = k0) (hk3 : k0 ≤ 3)
    (f np : Nat) (s : HatState) (virt phys e : Nat)
    (hwf : HatWf s)
    (hroom : s.freshBase + PAGE_SIZE * (s.next + k0) ≤ 2 ^ 52)
    (hwa : walkAux s virt ml k0 s.topLevel = .leaf e)
    (hp : Pte.present e = true)
    (hne : e ≠ Pte.new phys flagsLeaf) :
    ∃ s2, mapLoop mmu ml ps flagsLeaf (f + 1) s virt phys (np + 1) =
      .alreadyMapped (Pte.addr e) s2 := by
  have hpar : parentsOk s virt ml k0 s.topLevel = true := by
    apply parentsOk_of_walkAux
    intro l e2 hc
    rw [hwa] at hc
    exact absurd hc (by simp)
  obtain ⟨Td, s1, hdesc, hout⟩ := mapDescend_spec virt ml k0 s [] s.topLevel
    hwf rfl hpar (by simpa using hk3) hroom
  obtain ⟨T2, hwt, he⟩ := walkTbl_of_walkAux_leaf s virt ml k0 s.topLevel e hwa
  have hidxlt : indexFor virt ml < PTES_PER_TABLE := indexFor_lt _ _
  rcases hout.rows with ⟨hwt2, hrows⟩ | ⟨hwt2, hz⟩
  · rw [hwt] at hwt2
    have hTT : T2 = Td := Option.some.inj hwt2
    subst hTT
    have hread : readPte s1 T2 (indexFor virt ml) = e := by
      rw [hrows _ hidxlt, ← he]
    obtain ⟨c, hc⟩ : ∃ c, min (np + 1) (PTES_PER_TABLE - indexFor virt ml) =
        c + 1 := by
      have e2 : PTES_PER_TABLE = 512 := rfl
      refine ⟨min (np + 1) (PTES_PER_TABLE - indexFor virt ml) - 1, ?_⟩
      omega
    refine ⟨s1, ?_⟩
    simp only [mapLoop, hk0, hdesc]
    rw [hc]
    simp only [writeLeaves]
    rw [hread, if_pos ⟨hp, hne⟩]
  · rw [hwt] at hwt2
    exact absurd hwt2 (by simp)

theorem mapDescend_huge {s : HatState} {virt ml k t : Nat}
    (hp : Pte.present (readPte s t (indexFor virt (ml + (k + 1)))) = true)
    (hh : Pte.huge (readPte s t (indexFor virt (ml + (k + 1)))) = true) :
    mapDescend virt ml (k + 1) t s = none := by
  simp only [mapDescend]
  rw [if_pos hp, if_pos hh]

theorem mapDescend_absent_raw {s : HatState} {virt ml k t : Nat}
    (hp : Pte.present (readPte s t (indexFor virt (ml + (k + 1)))) = false) :
    mapDescend virt ml (k + 1) t s =
      if Pte.huge (Pte.new (allocPageTable s).1 PteFlags.PRESENT) then none
      else
        mapDescend virt ml k
          (Pte.addr (Pte.new (allocPageTable s).1 PteFlags.PRESENT |||
            PARENT_FLAGS))
          (writePte (allocPageTable s).2 t (indexFor virt (ml + (k + 1)))
            (Pte.new (allocPageTable s).1 PteFlags.PRESENT |||
              PARENT_FLAGS)) := by
  simp only [mapDescend]
  rw [if_neg (show ¬ Pte.present (readPte s t (indexFor virt (ml + (k + 1)))) =
    true by simp [hp])]

theorem mapDescend_mappedPages (virt ml : Nat) : ∀ (k t : Nat) (s : HatState)
    (T : Nat) (s1 : HatState),
    mapDescend virt ml k t s = some (T, s1) →
    s1.mappedPages = s.mappedPages := by
  intro k
  induction k with
  | zero =>
    intro t s T s1 h
    obtain ⟨rfl, rfl⟩ : t = T ∧ s = s1 := by
      simpa [mapDescend, Prod.ext_iff] using h
    rfl
  | succ k ih =>
    intro t s T s1 h
    by_cases hp : Pte.present (readPte s t (indexFor virt (ml + (k + 1)))) = true
    · by_cases hh : Pte.huge (readPte s t (indexFor virt (ml + (k + 1)))) = true
      · rw [mapDescend_huge hp hh] at h
        exact absurd h (by simp)
      · rw [mapDescend_present hp (by simpa using hh)] at h
        rw [ih _ _ _ _ h, writePte_mappedPages]
    · rw [mapDescend_absent_raw (by simpa using hp)] at h
      by_cases hh : Pte.huge (Pte.new (allocPageTable s).1 PteFlags.PRESENT) =
          true
      · rw [if_pos hh] at h
        exact absurd h (by simp)
      · rw [if_neg (by simp [hh])] at h
        rw [ih _ _ _ _ h, writePte_mappedPages, alloc_mappedPages]

theorem writeLeaves_mp (flagsLeaf ps : Nat) : ∀ (cnt : Nat) (s : HatState)
    (T idx virt phys : Nat),
    (writeLeaves flagsLeaf ps cnt s T idx virt phys).mp = s.mappedPages := by
  intro cnt
  induction cnt with
  | zero => intro s T idx virt phys; rfl
  | succ cnt ih =>
    intro s T idx virt phys
    simp only [writeLeaves]
    by_cases hc : Pte.present (readPte s T idx) = true ∧
        readPte s T idx ≠ Pte.new phys flagsLeaf
    · rw [if_pos hc]
      rfl
    · rw [if_neg hc, ih, writePte_mappedPages]

/-- The loop leaves `num_pages = 0` on normal exit and never changes
`mapped_pages`, whichever way it ends. -/

theorem mapLoop_mp (mmu : MmuInfo) (ml ps flagsLeaf : Nat) :
    ∀ (fuel : Nat) (s : HatState) (virt phys np : Nat),
      (∀ s2 rem, mapLoop mmu ml ps flagsLeaf fuel s virt phys np =
        .ok s2 rem → rem = 0 ∧ s2.mappedPages = s.mappedPages) ∧
      (∀ a s2, mapLoop mmu ml ps flagsLeaf fuel s virt phys np =
        .alreadyMapped a s2 → s2.mappedPages = s.mappedPages) := by
  intro fuel
  induction fuel with
  | zero =>
    intro s virt phys np
    cases np with
    | zero =>
      constructor
      · intro s2 rem h
        obtain ⟨rfl, rfl⟩ : s = s2 ∧ 0 = rem := by
          simpa [mapLoop] using h
        exact ⟨rfl, rfl⟩
      · intro a s2 h
        exact absurd h (by simp [mapLoop])
    | succ np2 =>
      constructor
      · intro s2 rem h
        exact absurd h (by simp [mapLoop])
      · intro a s2 h
        exact absurd h (by simp [mapLoop])
  | succ f ih =>
    intro s virt phys np
    cases np with
    | zero =>
      constructor
      · intro s2 rem h
        obtain ⟨rfl, rfl⟩ : s = s2 ∧ 0 = rem := by
          simpa [mapLoop] using h
        exact ⟨rfl, rfl⟩
      · intro a s2 h
        exact absurd h (by simp [mapLoop])
    | succ np2 =>
      cases hd : mapDescend virt ml (mmu.max_level - ml) s.topLevel s with
      | none =>
        constructor
        · intro s2 rem h
          rw [mapLoop, hd] at h
          exact absurd h (by simp)
        · intro a s2 h
          rw [mapLoop, hd] at h
          exact absurd h (by simp)
      | some ts =>
        have hmp1 : ts.2.mappedPages = s.mappedPages :=
          mapDescend_mappedPages virt ml _ _ s ts.1 ts.2 (by rw [hd])
        have hwl := writeLeaves_mp flagsLeaf ps
          (min (np2 + 1) (PTES_PER_TABLE - indexFor virt ml)) ts.2 ts.1
          (indexFor virt ml) virt phys
        cases hw : writeLeaves flagsLeaf ps
            (min (np2 + 1) (PTES_PER_TABLE - indexFor virt ml)) ts.2 ts.1
            (indexFor virt ml) virt phys with
        | conflict a2 s3 =>
          rw [hw] at hwl
          simp only [LeafResult.mp] at hwl
          constructor
          · intro s2 rem h
            simp only [mapLoop, hd] at h
            rw [hw] at h
            exact absurd h (by simp)
          · intro a s2 h
            simp only [mapLoop, hd] at h
            rw [hw] at h
            obtain ⟨rfl, rfl⟩ : a2 = a ∧ s3 = s2 := by simpa using h
            rw [← hmp1]
            exact hwl
        | ok s3 v3 p3 =>
          rw [hw] at hwl
          simp only [LeafResult.mp] at hwl
          have hrec := ih s3 v3 p3 (np2 + 1 -
            min (np2 + 1) (PTES_PER_TABLE - indexFor virt ml))
          constructor
          · intro s2 rem h
            simp only [mapLoop, hd] at h
            rw [hw] at h
            obtain ⟨hz, hm⟩ := hrec.1 s2 rem h
            exact ⟨hz, by rw [hm, hwl, hmp1]⟩
          · intro a s2 h
            simp only [mapLoop, hd] at h
            rw [hw] at h
            have hm := hrec.2 a s2 h
            rw [hm, hwl, hmp1]

theorem clearLeaves_mp (ps : Nat) : ∀ (cnt : Nat) (s : HatState)
    (T idx virt : Nat) (s2 : HatState) (v2 : Nat),
    clearLeaves ps cnt s T idx virt = some (s2, v2) →
    s2.mappedPages = s.mappedPages := by
  intro cnt
  induction cnt with
  | zero =>
    intro s T idx virt s2 v2 h
    obtain ⟨rfl, rfl⟩ : s = s2 ∧ virt = v2 := by
      simpa [clearLeaves, Prod.ext_iff] using h
    rfl
  | succ cnt ih =>
    intro s T idx virt s2 v2 h
    simp only [clearLeaves] at h
    by_cases hc : Pte.present (readPte s T idx) = true
    · rw [if_neg (by simp [hc])] at h
      rw [ih _ _ _ _ _ _ h, writePte_mappedPages]
    · rw [if_pos (by simp [hc])] at h
      exact absurd h (by simp)

theorem unmapLoop_mp (mmu : MmuInfo) (ml ps : Nat) :
    ∀ (fuel : Nat) (s : HatState) (virt np : Nat) (s2 : HatState),
      unmapLoop mmu ml ps fuel s virt np = .ok s2 →
      s2.mappedPages = s.mappedPages := by
  intro fuel
  induction fuel with
  | zero =>
    intro s virt np s2 h
    cases np with
    | zero =>
      obtain rfl : s = s2 := by simpa [unmapLoop] using h
      rfl
    | succ np2 => exact absurd h (by simp [unmapLoop])
  | succ f ih =>
    intro s virt np s2 h
    cases np with
    | zero =>
      obtain rfl : s = s2 := by simpa [unmapLoop] using h
      rfl
    | succ np2 =>
      cases hd : unmapDescend virt ml (mmu.max_level - ml) s.topLevel s with
      | none =>
        simp only [unmapLoop, hd] at h
        exact absurd h (by simp)
      | some table =>
        simp only [unmapLoop, hd] at h
        cases hcl : clearLeaves ps
            (min (np2 + 1) (PTES_PER_TABLE - indexFor virt ml)) s table
            (indexFor virt ml) virt with
        | none =>
          rw [hcl] at h
          exact absurd h (by simp)
        | some sv =>
          rw [hcl] at h
          rw [ih _ _ _ _ h]
          exact clearLeaves_mp ps _ s table _ _ sv.1 sv.2 (by rw [hcl])

/-- `mapped_pages[map_level] += 0` is the identity. -/

theorem bumpAt_zero (l : List Nat) : ∀ i : Nat, bumpAt l i 0 = l := by
  unfold bumpAt
  induction l with
  | nil => intro i; rfl
  | cons a t ih =>
    intro i
    cases i with
    | zero => simp [List.getD]
    | succ i2 =>
      simp only [List.set, List.getD_cons_succ]
      rw [ih i2]

/-! ### From `mapLoop` to `Hat::map_pages` under the real `MMU_INFO` -/

theorem readPte_congr {s s2 : HatState} (h : s.mem = s2.mem) (T i : Nat) :
    readPte s T i = readPte s2 T i := by
  unfold readPte
  rw [h]

theorem walkAux_congr {s s2 : HatState} (h : s.mem = s2.mem) (virt ml : Nat) :
    ∀ k t, walkAux s virt ml k t = walkAux s2 virt ml k t := by
  intro k
  induction k with
  | zero =>
    intro t
    simp only [walkAux]
    rw [readPte_congr h]
  | succ k ih =>
    intro t
    simp only [walkAux]
    rw [readPte_congr h]
    by_cases hp : Pte.present (readPte s2 t (indexFor virt (ml + (k + 1)))) = true
    · by_cases hh : Pte.huge (readPte s2 t (indexFor virt (ml + (k + 1)))) = true
      · rw [if_neg (not_not_intro hp), if_pos hh, if_neg (not_not_intro hp),
          if_pos hh]
      · rw [if_neg (not_not_intro hp), if_neg (by simp [hh]),
          if_neg (not_not_intro hp), if_neg (by simp [hh])]
        exact ih _
    · rw [if_pos (by simp [hp]), if_pos (by simp [hp])]

/-- Before `hat::init` runs, `INITIAL_PTES` holds only `Pte::NULL`, so a
fresh `Hat`'s top-level table is all zero. -/

theorem readPte_hatNew_zero (mmu : MmuInfo) (fb asid T i : Nat) :
    readPte (hatNew mmu [] fb asid) T i = 0 := by
  show (if fb ≤ T + 8 * i ∧ T + 8 * i < fb + PAGE_SIZE
    then ([] : List Nat).getD ((T + 8 * i - fb) / 8) 0 else 0) = 0
  split <;> rfl

/-- A `Hat::new` state (with a null initial table) is well-formed. -/

theorem hatNew_wf (mmu : MmuInfo) (fb asid : Nat)
    (hfa : fb % PAGE_SIZE = 0) (hlt : fb < 2 ^ 52) :
    HatWf (hatNew mmu [] fb asid) := by
  have hnil : ∀ (p : List Nat) (t2 : Nat),
      tableFrom (hatNew mmu [] fb asid) fb p = some t2 → p = [] ∧ t2 = fb := by
    intro p t2 hp
    cases p with
    | nil =>
      have h2 : fb = t2 := by simpa [tableFrom] using hp
      exact ⟨rfl, h2.symm⟩
    | cons i is =>
      rw [tableFrom, readPte_hatNew_zero] at hp
      have hcond : ¬ (i < PTES_PER_TABLE ∧ Pte.present 0 = true ∧
          Pte.huge 0 = false) := by
        rintro ⟨-, hpx, -⟩
        rw [show Pte.present 0 = false from by decide] at hpx
        exact absurd hpx (by simp)
      rw [if_neg hcond] at hp
      exact absurd hp (by simp)
  constructor
  · exact hfa
  · exact hlt
  · exact hfa
  · intro p₁ p₂ t h1 h2 h3 h4
    obtain ⟨hp1, -⟩ := hnil p₁ t h3
    obtain ⟨hp2, -⟩ := hnil p₂ t h4
    rw [hp1, hp2]
  · intro p t h1 h2
    obtain ⟨-, heq⟩ := hnil p t h2
    rw [heq]
    show fb < fb + PAGE_SIZE * 1
    have : 0 < PAGE_SIZE := by norm_num [PAGE_SIZE]
    omega

theorem mmuInit_max_level (f : CpuFeatures) : (mmuInit f).max_level = 3 := by
  rcases f with ⟨g, x, p, c⟩
  unfold mmuInit
  cases g <;> cases x <;> cases p <;> cases c <;> rfl

theorem mmuInit_page_size (f : CpuFeatures) :
    (mmuInit f).page_size = [2 ^ 12, 2 ^ 21, 2 ^ 30, 2 ^ 64 - 1, 2 ^ 64 - 1] := by
  rcases f with ⟨g, x, p, c⟩
  unfold mmuInit
  cases g <;> cases x <;> cases p <;> cases c <;> rfl

theorem mmuInit_pte_flags (f : CpuFeatures) :
    (mmuInit f).pte_flags = [0, PteFlags.HUGE, PteFlags.HUGE, 0, 0] := by
  rcases f with ⟨g, x, p, c⟩
  unfold mmuInit
  cases g <;> cases x <;> cases p <;> cases c <;> rfl

theorem mmuInit_protmap (f : CpuFeatures) :
    (mmuInit f).protmap = protMapNew 0 := by
  rcases f with ⟨g, x, p, c⟩
  unfold mmuInit
  cases g <;> cases x <;> cases p <;> cases c <;> rfl

theorem hatMapLevel_le (f : CpuFeatures) (pse : Nat) (hpse : pse ≤ 2) :
    hatMapLevel f pse ≤ 2 := by
  unfold hatMapLevel mapLevelOf
  split_ifs <;> omega

theorem hatPageSize_eq (f : CpuFeatures) (pse : Nat) (hpse : pse ≤ 2) :
    (mmuInit f).page_size.getD (hatMapLevel f pse) 0 = hatPageSize f pse := by
  have hle := hatMapLevel_le f pse hpse
  rw [mmuInit_page_size]
  unfold hatPageSize
  interval_cases h : hatMapLevel f pse <;> norm_num

theorem hatDepth_eq (f : CpuFeatures) (pse : Nat) :
    (mmuInit f).max_level - hatMapLevel f pse = hatDepth f pse := by
  rw [mmuInit_max_level]
  rfl

theorem hatDepth_le (f : CpuFeatures) (pse : Nat) : hatDepth f pse ≤ 3 := by
  unfold hatDepth
  omega

theorem hatLeafFlags_present (f : CpuFeatures) (pse : Nat) (prot : Prot)
    (phys : Nat) : Pte.present (Pte.new phys (hatLeafFlags f pse prot)) = true := by
  rw [Pte.new, present_or, hatLeafFlags, present_or, present_or,
    show Pte.present PteFlags.PRESENT = true from by decide]
  simp

theorem hatLeafFlags_huge (f : CpuFeatures) (pse : Nat) (prot : Prot)
    (hpse : pse ≤ 2) :
    Pte.huge (hatLeafFlags f pse prot) = true ∨ hatDepth f pse = 3 := by
  have hle := hatMapLevel_le f pse hpse
  unfold hatLeafFlags hatDepth
  rw [mmuInit_pte_flags]
  interval_cases h : hatMapLevel f pse
  · right
    rfl
  · left
    rw [huge_or, huge_or, show ([0, PteFlags.HUGE, PteFlags.HUGE, 0,
      0] : List Nat).getD 1 0 = PteFlags.HUGE from rfl,
      show Pte.huge PteFlags.HUGE = true from by decide]
    simp
  · left
    rw [huge_or, huge_or, show ([0, PteFlags.HUGE, PteFlags.HUGE, 0,
      0] : List Nat).getD 2 0 = PteFlags.HUGE from rfl,
      show Pte.huge PteFlags.HUGE = true from by decide]
    simp

theorem Prot.bits_lt (p : Prot) : p.bits < 16 := by
  rcases p with ⟨e, w, r, u⟩
  unfold Prot.bits
  cases e <;> cases w <;> cases r <;> cases u <;> decide

theorem protMapNew_mask (i : Nat) (hi : i < 16) :
    (protMapNew 0).getD i 0 &&& Pte.ADDR_MASK = 0 := by
  interval_cases i <;> decide

theorem hatLeafFlags_mask (f : CpuFeatures) (pse : Nat) (prot : Prot)
    (hpse : pse ≤ 2) :
    hatLeafFlags f pse prot &&& Pte.ADDR_MASK = 0 := by
  have hle := hatMapLevel_le f pse hpse
  unfold hatLeafFlags
  rw [mmuInit_protmap, mmuInit_pte_flags, Nat.and_distrib_right,
    Nat.and_distrib_right, protMapGet,
    protMapNew_mask prot.bits (Prot.bits_lt prot)]
  have hflags : ([0, PteFlags.HUGE, PteFlags.HUGE, 0, 0] : List Nat).getD
      (hatMapLevel f pse) 0 &&& Pte.ADDR_MASK = 0 := by
    interval_cases h : hatMapLevel f pse <;> decide
  rw [hflags, show PteFlags.PRESENT &&& Pte.ADDR_MASK = 0 from by decide]
  rfl

theorem hatPageSize_page_aligned (f : CpuFeatures) (pse x : Nat)
    (hx : x % hatPageSize f pse = 0) : x % PAGE_SIZE = 0 := by
  have hdvd : PAGE_SIZE ∣ hatPageSize f pse := by
    refine ⟨2 ^ (9 * hatMapLevel f pse), ?_⟩
    unfold hatPageSize
    rw [pow_add]
    rfl
  obtain ⟨c, hc⟩ := dvd_trans hdvd (Nat.dvd_of_mod_eq_zero hx)
  rw [hc]
  exact Nat.mul_mod_right _ _

theorem hatNp_window (f : CpuFeatures) (pse size : Nat) (hpse : pse ≤ 2)
    (hsz : size ≤ 2 ^ 48) :
    size / hatPageSize f pse ≤ 2 ^ (9 * (hatDepth f pse + 1)) := by
  have hle := hatMapLevel_le f pse hpse
  have h1 : size / hatPageSize f pse ≤ 2 ^ 48 / hatPageSize f pse :=
    Nat.div_le_div_right hsz
  have h2 : (2 : Nat) ^ 48 / hatPageSize f pse =
      2 ^ (48 - (12 + 9 * hatMapLevel f pse)) := by
    unfold hatPageSize
    exact Nat.pow_div (by omega) (by norm_num)
  have h3 : 48 - (12 + 9 * hatMapLevel f pse) =
      9 * (hatDepth f pse + 1) := by
    unfold hatDepth
    omega
  rw [h2, h3] at h1
  exact h1

/-- What a successful, conflict-free `map_pages` call guarantees under the
initialised `MMU_INFO`: when every page of the range is clear or already
holds exactly the entry about to be written, the call returns `Ok`, the
`Hat` fields and accounting are untouched, the radix tree stays well formed,
every page of the range translates to its new leaf entry, and the walk of
every page outside the range is preserved. -/

theorem mapPages_ok (f : CpuFeatures) (s : HatState)
    (virt phys size pse : Nat) (prot : Prot)
    (hpse : pse ≤ 2) (hwf : HatWf s)
    (hv : virt % hatPageSize f pse = 0)
    (hpa : phys % hatPageSize f pse = 0)
    (hsz : size ≤ 2 ^ 48)
    (hroom : s.freshBase + PAGE_SIZE *
      (s.next + 3 * (size / hatPageSize f pse)) ≤ 2 ^ 52)
    (hce : ∀ j, j < size / hatPageSize f pse →
      clearOrEq s (virt + hatPageSize f pse * j) (hatMapLevel f pse)
        (hatDepth f pse)
        (Pte.new (phys + hatPageSize f pse * j) (hatLeafFlags f pse prot)) =
        true) :
    ∃ s2, mapPages (mmuInit f) s virt phys size pse prot = .ok s2 ∧
      s2.topLevel = s.topLevel ∧ s2.freshBase = s.freshBase ∧
      s2.pcid = s.pcid ∧ s2.cr3 = s.cr3 ∧ s2.mappedPages = s.mappedPages ∧
      HatWf s2 ∧ s.next ≤ s2.next ∧
      s2.next ≤ s.next + 3 * (size / hatPageSize f pse) ∧
      (∀ j, j < size / hatPageSize f pse →
        walkAux s2 (virt + hatPageSize f pse * j) (hatMapLevel f pse)
          (hatDepth f pse) s2.topLevel =
          .leaf (Pte.new (phys + hatPageSize f pse * j)
            (hatLeafFlags f pse prot))) ∧
      (∀ v2, (∀ j, j < size / hatPageSize f pse →
          ¬ (pagePath v2 (hatMapLevel f pse) (hatDepth f pse) =
              pagePath (virt + hatPageSize f pse * j) (hatMapLevel f pse)
                (hatDepth f pse) ∧
            indexFor v2 (hatMapLevel f pse) =
              indexFor (virt + hatPageSize f pse * j)
                (hatMapLevel f pse))) →
        StepPres s s2 v2 (hatMapLevel f pse) (hatDepth f pse)) := by
  simp only [hatPageSize] at hv hpa hroom hce ⊢
  have hwin := hatNp_window f pse size hpse hsz
  simp only [hatPageSize] at hwin
  have hpal := hatPageSize_page_aligned f pse phys
  simp only [hatPageSize] at hpal
  have hvv : virt / 2 ^ (12 + 9 * hatMapLevel f pse) *
      2 ^ (12 + 9 * hatMapLevel f pse) = virt :=
    Nat.div_mul_cancel (Nat.dvd_of_mod_eq_zero hv)
  have hpage : ∀ j : Nat,
      (virt / 2 ^ (12 + 9 * hatMapLevel f pse) + j) *
        2 ^ (12 + 9 * hatMapLevel f pse) =
        virt + 2 ^ (12 + 9 * hatMapLevel f pse) * j := by
    intro j
    rw [Nat.add_mul, hvv, Nat.mul_comm j]
  obtain ⟨s2, hloop, htop, hfb, hpc, hcr, hmp, hwf2, hle, hub, hall, hpres⟩ :=
    mapLoop_spec (mmuInit f) (hatMapLevel f pse) (hatLeafFlags f pse prot)
      (hatDepth f pse) (virt / 2 ^ (12 + 9 * hatMapLevel f pse)) phys
      (size / 2 ^ (12 + 9 * hatMapLevel f pse)) (hatDepth_eq f pse)
      (hatDepth_le f pse) (hatLeafFlags_huge f pse prot hpse) (hpal hpa) hwin
      (size / 2 ^ (12 + 9 * hatMapLevel f pse))
      (size / 2 ^ (12 + 9 * hatMapLevel f pse)) 0 s
      (by omega) (Nat.le_refl _) hwf hroom
      (fun j hj => absurd hj (by omega))
      (fun j hj1 hj2 => by
        have hx := hce j hj2
        rw [← hpage j] at hx
        exact hx)
  rw [show (virt / 2 ^ (12 + 9 * hatMapLevel f pse) + 0) * 2 ^
      (12 + 9 * hatMapLevel f pse) = virt from by
        rw [Nat.add_zero]
        exact hvv,
    show phys + 2 ^ (12 + 9 * hatMapLevel f pse) * 0 = phys from by
      rw [Nat.mul_zero, Nat.add_zero]] at hloop
  refine ⟨s2, ?_, htop, hfb, hpc, hcr, hmp, hwf2, hle, hub, ?_, ?_⟩
  · have hml : mapLevelOf (mmuInit f) pse = hatMapLevel f pse := rfl
    have hps2 : (mmuInit f).page_size.getD (hatMapLevel f pse) 0 =
        2 ^ (12 + 9 * hatMapLevel f pse) := hatPageSize_eq f pse hpse
    have hfl : protMapGet (mmuInit f).protmap prot |||
        (mmuInit f).pte_flags.getD (hatMapLevel f pse) 0 |||
        PteFlags.PRESENT = hatLeafFlags f pse prot := rfl
    simp only [mapPages, hml, hps2, hfl]
    simp only [hloop]
    rw [bumpAt_zero]
  · intro j hj
    have hx := hall j hj
    rw [hpage j] at hx
    exact hx
  · intro v2 hv2
    apply hpres
    intro j hj
    have hx := hv2 j hj
    rw [← hpage j] at hx
    exact hx

theorem hatPageSize_pos (f : CpuFeatures) (pse : Nat) :
    0 < hatPageSize f pse :=
  Nat.pos_pow_of_pos _ (by norm_num)

theorem hatPageSize_le (f : CpuFeatures) (pse : Nat) (hpse : pse ≤ 2) :
    hatPageSize f pse ≤ 2 ^ 48 := by
  have hle := hatMapLevel_le f pse hpse
  unfold hatPageSize
  exact Nat.pow_le_pow_right (by norm_num) (by omega)

/-- The one-page-at-a-time fold maps the same pages, keeping the remaining
pages clear or already mapped at each step. -/

theorem mapSeq_spec (f : CpuFeatures) (s : HatState)
    (virt phys pse : Nat) (prot : Prot) (np : Nat)
    (hpse : pse ≤ 2) (hwf : HatWf s)
    (hv : virt % hatPageSize f pse = 0)
    (hpa : phys % hatPageSize f pse = 0)
    (hnp : np ≤ 2 ^ (9 * (hatDepth f pse + 1)))
    (hroom : s.freshBase + PAGE_SIZE * (s.next + 3 * np) ≤ 2 ^ 52)
    (hce : ∀ j, j < np →
      clearOrEq s (virt + hatPageSize f pse * j) (hatMapLevel f pse)
        (hatDepth f pse)
        (Pte.new (phys + hatPageSize f pse * j) (hatLeafFlags f pse prot)) =
        true) :
    ∀ n, n ≤ np →
      ∃ s3, mapSeq (mmuInit f) s virt phys (hatPageSize f pse) pse prot n =
          .ok s3 ∧
        s3.topLevel = s.topLevel ∧ HatWf s3 ∧
        s3.freshBase = s.freshBase ∧ s.next ≤ s3.next ∧
        s3.next ≤ s.next + 3 * n ∧
        (∀ j, j < n →
          walkAux s3 (virt + hatPageSize f pse * j) (hatMapLevel f pse)
            (hatDepth f pse) s3.topLevel =
            .leaf (Pte.new (phys + hatPageSize f pse * j)
              (hatLeafFlags f pse prot))) ∧
        (∀ j, n ≤ j → j < np →
          clearOrEq s3 (virt + hatPageSize f pse * j) (hatMapLevel f pse)
            (hatDepth f pse)
            (Pte.new (phys + hatPageSize f pse * j)
              (hatLeafFlags f pse prot)) = true) := by
  have hone : hatPageSize f pse / hatPageSize f pse = 1 :=
    Nat.div_self (hatPageSize_pos f pse)
  have hpn : ∀ j, virt + hatPageSize f pse * j =
      (virt / hatPageSize f pse + j) * hatPageSize f pse := by
    intro j
    rw [Nat.add_mul, Nat.div_mul_cancel (Nat.dvd_of_mod_eq_zero hv),
      Nat.mul_comm j]
  have hdist : ∀ j n2, j < np → n2 < np → j ≠ n2 →
      ¬ (pagePath (virt + hatPageSize f pse * j) (hatMapLevel f pse)
          (hatDepth f pse) =
        pagePath (virt + hatPageSize f pse * n2) (hatMapLevel f pse)
          (hatDepth f pse) ∧
        indexFor (virt + hatPageSize f pse * j) (hatMapLevel f pse) =
        indexFor (virt + hatPageSize f pse * n2) (hatMapLevel f pse)) := by
    intro j n2 hj hn2 hne
    rw [hpn j, hpn n2]
    exact page_coords_distinct hj hn2 hne hnp
  intro n
  induction n with
  | zero =>
    intro hn
    exact ⟨s, rfl, rfl, hwf, rfl, Nat.le_refl _, by omega,
      fun j hj => absurd hj (by omega), fun j h1 h2 => hce j h2⟩
  | succ n ihn =>
    intro hn
    obtain ⟨s3, hrun, htop, hwf3, hfb, hle, hub, hdone, hremn⟩ :=
      ihn (by omega)
    have hroom3 : s3.freshBase + PAGE_SIZE * (s3.next +
        3 * (hatPageSize f pse / hatPageSize f pse)) ≤ 2 ^ 52 := by
      rw [hfb, hone]
      have h1 : PAGE_SIZE * (s3.next + 3 * 1) ≤
          PAGE_SIZE * (s.next + 3 * np) :=
        Nat.mul_le_mul_left _ (by omega)
      omega
    obtain ⟨s4, hok, htop4, hfb4, hpc4, hcr4, hmp4, hwf4, hle4, hub4, hall4,
      hpres4⟩ := mapPages_ok f s3 (virt + hatPageSize f pse * n)
      (phys + hatPageSize f pse * n) (hatPageSize f pse) pse prot hpse hwf3
      (by rw [Nat.add_mul_mod_self_left]; exact hv)
      (by rw [Nat.add_mul_mod_self_left]; exact hpa)
      (hatPageSize_le f pse hpse) hroom3
      (by intro j hj
          rw [hone] at hj
          obtain rfl : j = 0 := by omega
          rw [Nat.mul_zero, Nat.add_zero, Nat.add_zero]
          exact hremn n (Nat.le_refl n) (by omega))
    have hstep : StepPres s3 s4 (virt + hatPageSize f pse * n)
        (hatMapLevel f pse) (hatDepth f pse) →
        True := fun _ => trivial
    have hpres4x : ∀ j, j < np → j ≠ n →
        StepPres s3 s4 (virt + hatPageSize f pse * j) (hatMapLevel f pse)
          (hatDepth f pse) := by
      intro j hj hjn
      apply hpres4
      intro j2 hj2
      rw [hone] at hj2
      obtain rfl : j2 = 0 := by omega
      rw [Nat.mul_zero, Nat.add_zero]
      exact hdist j n hj (by omega) hjn
    refine ⟨s4, ?_, by rw [htop4, htop], hwf4, by rw [hfb4, hfb], by omega,
      by rw [hone] at hub4; omega, ?_, ?_⟩
    · simp only [mapSeq, hrun]
      exact hok
    · intro j hj
      by_cases hjn : j < n
      · have h1 := hdone j hjn
        have h2 := (hpres4x j (by omega) (by omega)).1 _ h1
        exact h2
      · obtain rfl : j = n := by omega
        have h1 := hall4 0 (by rw [hone]; omega)
        rw [Nat.mul_zero, Nat.add_zero, Nat.add_zero] at h1
        exact h1
    · intro j h1 h2
      exact clearOrEq_of_stepPres (hpres4x j h2 (by omega))
        (hremn j (by omega) h2)

/-- C2: for every input satisfying `map_pages`'s preconditions (alignment of
`virt`, `phys` and `size` to the page size; `size` within the 48-bit virtual
window, with room in the frame allocator), applied to a Hat in which no page
of the covered range walks to a present entry, `map_pages` returns `Ok`, and
afterwards the page-table walk for each page `j` of the range finds at the
level corresponding to `page_size` the leaf entry
`Pte::new(phys + j*page_size, protmap[prot] | pte_flags[level] | PRESENT)`;
and mapping the same range one page at a time (`mapSeq`) also returns `Ok`
and yields the same translation for every page of the range, so crossing a
table boundary changes nothing. -/

theorem C2_map_pages_leaf_correct (f : CpuFeatures) (s : HatState)
    (virt phys size pse : Nat) (prot : Prot)
    (hpse : pse ≤ 2) (hwf : HatWf s)
    (hv : virt % hatPageSize f pse = 0)
    (hpa : phys % hatPageSize f pse = 0)
    (hsm : size % hatPageSize f pse = 0)
    (hsz : size ≤ 2 ^ 48)
    (hroom : s.freshBase + PAGE_SIZE *
      (s.next + 3 * (size / hatPageSize f pse)) ≤ 2 ^ 52)
    (hclear : ∀ j, j < size / hatPageSize f pse →
      clearPage s (virt + hatPageSize f pse * j) (hatMapLevel f pse)
        (hatDepth f pse) = true) :
    ∃ s2, mapPages (mmuInit f) s virt phys size pse prot = .ok s2 ∧
      (∀ j, j < size / hatPageSize f pse →
        walk (mmuInit f) s2 (virt + hatPageSize f pse * j)
          (hatMapLevel f pse) =
          .leaf (Pte.new (phys + hatPageSize f pse * j)
            (protMapGet (mmuInit f).protmap prot |||
              (mmuInit f).pte_flags.getD (hatMapLevel f pse) 0 |||
              PteFlags.PRESENT))) ∧
      ∃ s3, mapSeq (mmuInit f) s virt phys (hatPageSize f pse) pse prot
          (size / hatPageSize f pse) = .ok s3 ∧
        ∀ j, j < size / hatPageSize f pse →
          walk (mmuInit f) s3 (virt + hatPageSize f pse * j)
            (hatMapLevel f pse) =
          walk (mmuInit f) s2 (virt + hatPageSize f pse * j)
            (hatMapLevel f pse) := by
  have hce : ∀ j, j < size / hatPageSize f pse →
      clearOrEq s (virt + hatPageSize f pse * j) (hatMapLevel f pse)
        (hatDepth f pse)
        (Pte.new (phys + hatPageSize f pse * j) (hatLeafFlags f pse prot)) =
        true :=
    fun j hj => clearOrEq_of_clearPage _ (hclear j hj)
  obtain ⟨s2, hok, htop2, hh1, hh2, hh3, hh4, hwf2, hh5, hh6, hall2, hh7⟩ :=
    mapPages_ok f s virt phys size pse prot hpse hwf hv hpa hsz hroom hce
  obtain ⟨s3, hrun3, htop3, hwf3, hg1, hg2, hg3, hdone3, hg4⟩ :=
    mapSeq_spec f s virt phys pse prot (size / hatPageSize f pse) hpse hwf
      hv hpa (hatNp_window f pse size hpse hsz) hroom hce
      (size / hatPageSize f pse) (Nat.le_refl _)
  refine ⟨s2, hok, ?_, s3, hrun3, ?_⟩
  · intro j hj
    unfold walk
    rw [hatDepth_eq]
    exact hall2 j hj
  · intro j hj
    unfold walk
    rw [hatDepth_eq]
    rw [hdone3 j hj, hall2 j hj]

/-- Witness for C2 at a boundary-crossing input: from a fresh Hat, two 4 KiB
pages at `0x1FF000` and `0x200000` straddle the last slot of one level-0
table and the first slot of the next. -/

theorem C2_map_pages_leaf_correct_witness :
    ∃ s2, mapPages (mmuInit ⟨false, false, false, false⟩)
        (hatNew (mmuInit ⟨false, false, false, false⟩) [] 0x10000 0)
        0x1FF000 0x5000 0x2000 0 ⟨false, true, true, false⟩ = .ok s2 ∧
      (∀ j, j < 0x2000 / hatPageSize ⟨false, false, false, false⟩ 0 →
        walk (mmuInit ⟨false, false, false, false⟩) s2
          (0x1FF000 + hatPageSize ⟨false, false, false, false⟩ 0 * j)
          (hatMapLevel ⟨false, false, false, false⟩ 0) =
          .leaf (Pte.new
            (0x5000 + hatPageSize ⟨false, false, false, false⟩ 0 * j)
            (protMapGet (mmuInit ⟨false, false, false, false⟩).protmap
                ⟨false, true, true, false⟩ |||
              (mmuInit ⟨false, false, false, false⟩).pte_flags.getD
                (hatMapLevel ⟨false, false, false, false⟩ 0) 0 |||
              PteFlags.PRESENT))) ∧
      ∃ s3, mapSeq (mmuInit ⟨false, false, false, false⟩)
          (hatNew (mmuInit ⟨false, false, false, false⟩) [] 0x10000 0)
          0x1FF000 0x5000 (hatPageSize ⟨false, false, false, false⟩ 0) 0
          ⟨false, true, true, false⟩
          (0x2000 / hatPageSize ⟨false, false, false, false⟩ 0) = .ok s3 ∧
        ∀ j, j < 0x2000 / hatPageSize ⟨false, false, false, false⟩ 0 →
          walk (mmuInit ⟨false, false, false, false⟩) s3
            (0x1FF000 + hatPageSize ⟨false, false, false, false⟩ 0 * j)
            (hatMapLevel ⟨false, false, false, false⟩ 0) =
          walk (mmuInit ⟨false, false, false, false⟩) s2
            (0x1FF000 + hatPageSize ⟨false, false, false, false⟩ 0 * j)
            (hatMapLevel ⟨false, false, false, false⟩ 0) :=
  C2_map_pages_leaf_correct ⟨false, false, false, false⟩
    (hatNew (mmuInit ⟨false, false, false, false⟩) [] 0x10000 0)
    0x1FF000 0x5000 0x2000 0 ⟨false, true, true, false⟩
    (by decide)
    (hatNew_wf (mmuInit ⟨false, false, false, false⟩) 0x10000 0
      (by decide) (by decide))
    (by decide) (by decide) (by decide) (by decide) (by decide) (by decide)

theorem clearOrEq_self {s : HatState} {virt ml k ne : Nat}
    (h : walkAux s virt ml k s.topLevel = .leaf ne) :
    clearOrEq s virt ml k ne = true := by
  unfold clearOrEq
  rw [h]
  simp

/-- C8: after a successful `map_pages(v, p, s, ps, q)` on a previously
unmapped range, calling `map_pages` again with identical arguments returns
`Ok` (idempotent remap: every leaf already holds exactly the entry about to
be written), whereas calling it with a different physical base `p2 ≠ p`
returns `AlreadyMapped(p)` — the loop finds a present leaf whose value
differs from the entry it is about to write and reports that leaf's
physical address. -/

theorem C8_map_pages_remap (f : CpuFeatures) (s : HatState)
    (virt phys phys2 size pse : Nat) (prot : Prot)
    (hpse : pse ≤ 2) (hwf : HatWf s)
    (hv : virt % hatPageSize f pse = 0)
    (hpa : phys % hatPageSize f pse = 0)
    (hpa2 : phys2 % hatPageSize f pse = 0)
    (hplt : phys < 2 ^ 52) (hplt2 : phys2 < 2 ^ 52)
    (hpne : phys ≠ phys2)
    (hsm : size % hatPageSize f pse = 0) (hpos : 0 < size)
    (hsz : size ≤ 2 ^ 48)
    (hroom : s.freshBase + PAGE_SIZE *
      (s.next + 6 * (size / hatPageSize f pse)) ≤ 2 ^ 52)
    (hclear : ∀ j, j < size / hatPageSize f pse →
      clearPage s (virt + hatPageSize f pse * j) (hatMapLevel f pse)
        (hatDepth f pse) = true) :
    ∃ s2, mapPages (mmuInit f) s virt phys size pse prot = .ok s2 ∧
      (∃ s3, mapPages (mmuInit f) s2 virt phys size pse prot = .ok s3) ∧
      (∃ s4, mapPages (mmuInit f) s2 virt phys2 size pse prot =
        .alreadyMapped phys s4) := by
  have hnp1 : 1 ≤ size / hatPageSize f pse :=
    (Nat.one_le_div_iff (hatPageSize_pos f pse)).mpr
      (Nat.le_of_dvd hpos (Nat.dvd_of_mod_eq_zero hsm))
  have hce : ∀ j, j < size / hatPageSize f pse →
      clearOrEq s (virt + hatPageSize f pse * j) (hatMapLevel f pse)
        (hatDepth f pse)
        (Pte.new (phys + hatPageSize f pse * j) (hatLeafFlags f pse prot)) =
        true :=
    fun j hj => clearOrEq_of_clearPage _ (hclear j hj)
  have hroom1 : s.freshBase + PAGE_SIZE *
      (s.next + 3 * (size / hatPageSize f pse)) ≤ 2 ^ 52 := by
    have h1 : PAGE_SIZE * (s.next + 3 * (size / hatPageSize f pse)) ≤
        PAGE_SIZE * (s.next + 6 * (size / hatPageSize f pse)) :=
      Nat.mul_le_mul_left _ (by omega)
    omega
  obtain ⟨s2, hok, htop2, hfb2, hx1, hx2, hx3, hwf2, hle2, hub2, hall2, hx4⟩ :=
    mapPages_ok f s virt phys size pse prot hpse hwf hv hpa hsz hroom1 hce
  have hroom2 : s2.freshBase + PAGE_SIZE *
      (s2.next + 3 * (size / hatPageSize f pse)) ≤ 2 ^ 52 := by
    rw [hfb2]
    have h1 : PAGE_SIZE * (s2.next + 3 * (size / hatPageSize f pse)) ≤
        PAGE_SIZE * (s.next + 6 * (size / hatPageSize f pse)) :=
      Nat.mul_le_mul_left _ (by omega)
    omega
  have hce2 : ∀ j, j < size / hatPageSize f pse →
      clearOrEq s2 (virt + hatPageSize f pse * j) (hatMapLevel f pse)
        (hatDepth f pse)
        (Pte.new (phys + hatPageSize f pse * j) (hatLeafFlags f pse prot)) =
        true :=
    fun j hj => clearOrEq_self (hall2 j hj)
  obtain ⟨s3, hok3, -⟩ :=
    mapPages_ok f s2 virt phys size pse prot hpse hwf2 hv hpa hsz hroom2 hce2
  have hwa0 : walkAux s2 virt (hatMapLevel f pse) (hatDepth f pse)
      s2.topLevel = .leaf (Pte.new phys (hatLeafFlags f pse prot)) := by
    have h0 := hall2 0 (by omega)
    rw [Nat.mul_zero, Nat.add_zero, Nat.add_zero] at h0
    exact h0
  have hmask := hatLeafFlags_mask f pse prot hpse
  have haddr : Pte.addr (Pte.new phys (hatLeafFlags f pse prot)) = phys :=
    addr_new (aligned_and_mask (hatPageSize_page_aligned f pse phys hpa) hplt)
      hmask
  have hne2 : Pte.new phys (hatLeafFlags f pse prot) ≠
      Pte.new phys2 (hatLeafFlags f pse prot) := by
    intro he
    apply hpne
    have h1 := congrArg Pte.addr he
    rw [haddr, addr_new
      (aligned_and_mask (hatPageSize_page_aligned f pse phys2 hpa2) hplt2)
      hmask] at h1
    exact h1
  have hroom3 : s2.freshBase + PAGE_SIZE * (s2.next + hatDepth f pse) ≤
      2 ^ 52 := by
    rw [hfb2]
    have hd3 := hatDepth_le f pse
    have h1 : PAGE_SIZE * (s2.next + hatDepth f pse) ≤
        PAGE_SIZE * (s.next + 6 * (size / hatPageSize f pse)) :=
      Nat.mul_le_mul_left _ (by omega)
    omega
  obtain ⟨s4, hconf⟩ := mapLoop_conflict (mmuInit f) (hatMapLevel f pse)
    (hatPageSize f pse) (hatLeafFlags f pse prot) (hatDepth f pse)
    (hatDepth_eq f pse) (hatDepth_le f pse)
    (size / hatPageSize f pse - 1) (size / hatPageSize f pse - 1)
    s2 virt phys2 (Pte.new phys (hatLeafFlags f pse prot)) hwf2 hroom3 hwa0
    (hatLeafFlags_present f pse prot phys) hne2
  rw [show size / hatPageSize f pse - 1 + 1 = size / hatPageSize f pse from
    by omega, haddr] at hconf
  refine ⟨s2, hok, ⟨s3, hok3⟩, s4, ?_⟩
  have hml : mapLevelOf (mmuInit f) pse = hatMapLevel f pse := rfl
  have hps2 : (mmuInit f).page_size.getD (hatMapLevel f pse) 0 =
      hatPageSize f pse := hatPageSize_eq f pse hpse
  have hfl : protMapGet (mmuInit f).protmap prot |||
      (mmuInit f).pte_flags.getD (hatMapLevel f pse) 0 |||
      PteFlags.PRESENT = hatLeafFlags f pse prot := rfl
  simp only [mapPages, hml, hps2, hfl]
  simp only [hconf]

/-- Witness for C8: from a fresh Hat, map one 4 KiB page at `0x3000` to
`0x5000`; remapping it to `0x5000` is `Ok`, remapping it to `0x8000` is
`AlreadyMapped(0x5000)`. -/

theorem C8_map_pages_remap_witness :
    ∃ s2, mapPages (mmuInit ⟨false, false, false, false⟩)
        (hatNew (mmuInit ⟨false, false, false, false⟩) [] 0x10000 0)
        0x3000 0x5000 0x1000 0 ⟨false, true, true, false⟩ = .ok s2 ∧
      (∃ s3, mapPages (mmuInit ⟨false, false, false, false⟩) s2 0x3000 0x5000
        0x1000 0 ⟨false, true, true, false⟩ = .ok s3) ∧
      (∃ s4, mapPages (mmuInit ⟨false, false, false, false⟩) s2 0x3000 0x8000
        0x1000 0 ⟨false, true, true, false⟩ = .alreadyMapped 0x5000 s4) :=
  C8_map_pages_remap ⟨false, false, false, false⟩
    (hatNew (mmuInit ⟨false, false, false, false⟩) [] 0x10000 0)
    0x3000 0x5000 0x8000 0x1000 0 ⟨false, true, true, false⟩
    (by decide)
    (hatNew_wf (mmuInit ⟨false, false, false, false⟩) 0x10000 0
      (by decide) (by decide))
    (by decide) (by decide) (by decide) (by decide) (by decide) (by decide)
    (by decide) (by decide) (by decide) (by decide) (by decide)

theorem mapPages_mp (mmu : MmuInfo) (s : HatState) (virt phys size pse : Nat)
    (prot : Prot) (s2 : HatState) :
    (mapPages mmu s virt phys size pse prot = .ok s2 →
      s2.mappedPages = s.mappedPages) ∧
    (∀ a, mapPages mmu s virt phys size pse prot = .alreadyMapped a s2 →
      s2.mappedPages = s.mappedPages) := by
  constructor
  · intro h
    simp only [mapPages] at h
    split at h
    · rename_i s3 rem hl
      obtain ⟨hrem, hmp⟩ := (mapLoop_mp mmu _ _ _ _ s virt phys _).1 s3 rem hl
      injection h with h2
      rw [← h2]
      show bumpAt s3.mappedPages _ rem = s.mappedPages
      rw [hrem, bumpAt_zero]
      exact hmp
    · exact absurd h (by simp)
    · exact absurd h (by simp)
    · exact absurd h (by simp)
  · intro a h
    simp only [mapPages] at h
    split at h
    · exact absurd h (by simp)
    · rename_i a2 s3 hl
      have hmp := (mapLoop_mp mmu _ _ _ _ s virt phys _).2 a2 s3 hl
      injection h with h1 h2
      rw [← h2]
      exact hmp
    · exact absurd h (by simp)
    · exact absurd h (by simp)

theorem hatReached_mp (s : HatState) (hs : HatReached s) :
    s.mappedPages = List.replicate 5 0 := by
  induction hs with
  | new mmu ip fb asid => rfl
  | map mmu virt phys size pse prot hr hok ih =>
    rw [(mapPages_mp mmu _ virt phys size pse prot _).1 hok]
    exact ih
  | unmap mmu virt size pse hr hok ih =>
    simp only [unmapPages] at hok
    rw [unmapLoop_mp mmu _ _ _ _ virt _ _ hok]
    exact ih

/-- C10: `map_pages` never changes the Hat's per-size page-count accounting:
the statement after the loop adds the final `num_pages` to
`mapped_pages[map_level]`, but the loop has already driven `num_pages` to
zero, so both a successful `map_pages` and an `AlreadyMapped` failure leave
`mapped_pages` exactly as found; consequently every Hat created by
`Hat::new` and mutated by any sequence of successful `map_pages` and
`unmap_pages` calls keeps `mapped_pages = [0, 0, 0, 0, 0]`. -/

theorem C10_mapped_pages_never_changes :
    (∀ (mmu : MmuInfo) (s : HatState) (virt phys size pse : Nat)
      (prot : Prot) (s2 : HatState),
      (mapPages mmu s virt phys size pse prot = .ok s2 →
        s2.mappedPages = s.mappedPages) ∧
      (∀ a, mapPages mmu s virt phys size pse prot = .alreadyMapped a s2 →
        s2.mappedPages = s.mappedPages)) ∧
    (∀ s : HatState, HatReached s → s.mappedPages = List.replicate 5 0) :=
  ⟨fun mmu s virt phys size pse prot s2 =>
    mapPages_mp mmu s virt phys size pse prot s2,
   fun s hs => hatReached_mp s hs⟩

end Bolt
